import Mathlib

/-!
# Boomaga PDF writer: a shallow embedding of `gui/pdfparser/pdfwriter.cpp`

The output device is the list of bytes appended so far, `mDevice->pos()` is its
length.  Bytes, object numbers, offsets and machine integers are natural numbers;
wrap-around is written out with `%` where the C++ arithmetic can wrap.  A C++
`double` is a sign and a magnitude counted in units of `2^-1074` (the smallest
subnormal), so that every IEEE-754 operation the writer performs is an exact
computation on natural numbers followed by a round-to-nearest-even.

Undefined behaviour of the C++ code (an out-of-range conversion, a read past the
end of the table) and the `UnknownValueError` exception are results of type
`Fault`.

The last parts embed the two `MetaData::addDictItem` methods of
`gui/kernel/project.cpp`, which write the items of the document information
dictionary into a byte array, and `Project::selectSheets` of the same file,
which picks the sheets of the odd, even or all pages.
-/

set_option autoImplicit false

namespace PDF

/-! ## Bytes, faults, buffers -/

/-- A byte string: `QByteArray`, `const char *`, the contents of the device. -/
abbrev Bytes := List Nat

/-- The Latin-1 bytes of a string literal of the source. -/
def bytes (s : String) : Bytes := s.toList.map Char.toNat

/-- The canonical decimal text of a natural number, as bytes. -/
def decimal (n : Nat) : Bytes := bytes (Nat.repr n)

/-- What stops a write: the `UnknownValueError` thrown by `writeValue` (with the
device position and the type tag it carries), or undefined behaviour of the C++
code. -/
inductive Fault where
  | unknownValue (pos : Nat) (tag : Nat)
  | undefined
  deriving DecidableEq, Repr

/-- Result of an operation that can throw or be undefined. -/
abbrev Res (α : Type) := Except Fault α

deriving instance DecidableEq for Except

/-- A `char` buffer addressed by index (its capacity is declared in
`pdfwriter.h`, which is not part of the sources, and is not modelled). -/
abbrev Buf := Nat → Nat

/-- The assignment `s[i] = c`. -/
def Buf.set (s : Buf) (i c : Nat) : Buf := fun j => if j = i then c else s j

/-- The `len` bytes `s[base] .. s[base+len-1]`, as `mDevice->write(s + base, len)` reads them. -/
def Buf.read (s : Buf) (base len : Nat) : Bytes := (List.range len).map (fun j => s (base + j))

/-! ## IEEE-754 binary64 on natural numbers -/

/-- Number of binary digits of `x`, computed on at most `fuel` digits. -/
def bitLenAux : Nat → Nat → Nat
  | 0, _ => 0
  | fuel + 1, x => if x = 0 then 0 else bitLenAux fuel (x / 2) + 1

/-- Number of binary digits of `x` (`0` for `0`). -/
def bitLen (x : Nat) : Nat := bitLenAux x x

/-- Round-to-nearest, ties-to-even, to a 53-bit significand: the double nearest
to the exact value `x` (any fixed power-of-two unit; no overflow to infinity is
modelled, the callers stay far below it). -/
def roundNE (x : Nat) : Nat :=
  let k := bitLen x - 53
  let m := x / 2 ^ k
  let r := x % 2 ^ k
  if 2 * r < 2 ^ k then m * 2 ^ k
  else if 2 ^ k < 2 * r then (m + 1) * 2 ^ k
  else if m % 2 = 0 then m * 2 ^ k
  else (m + 1) * 2 ^ k

/-- The value `1.0` in units of `2^-1074`. -/
@[irreducible] def dblOne : Nat := 2 ^ 1074

/-- A C++ `double`: a finite value `± mag · 2^-1074`, an infinity or a NaN. -/
inductive Double where
  | finite (neg : Bool) (mag : Nat)
  | inf (neg : Bool)
  | nan
  deriving DecidableEq, Repr

/-- The magnitudes that are binary64 values: a 53-bit significand times a power
of two, below `2^1024`. -/
def isDoubleMag (q : Nat) : Prop := roundNE q = q ∧ q < 2 ^ 2098

instance (q : Nat) : Decidable (isDoubleMag q) := by
  unfold isDoubleMag; exact inferInstance

/-- Well-formed doubles. -/
def Double.WF : Double → Prop
  | .finite _ q => isDoubleMag q
  | _ => True

instance (d : Double) : Decidable d.WF := by
  cases d <;> unfold Double.WF <;> exact inferInstance

/-- Conversion of an unsigned integer to `double`. -/
def Double.ofNat (n : Nat) : Double := .finite false (roundNE (n * dblOne))

/-- Unary minus. -/
def Double.neg : Double → Double
  | .finite s q => .finite (!s) q
  | .inf s => .inf (!s)
  | .nan => .nan

/-! ## Number formatting (`sPrintUint`, `sPrintDouble`) -/

/-- Number of decimal digits of `d` (`1` for `0`). -/
def decimalLen (d : Nat) : Nat := (decimal d).length

/-- The expression `log10(value) + 1` converted to `uint`, for `value ≠ 0`.
The conversion of `value` to `double` is the IEEE rounding `roundNE`.  The C
library's `log10` is taken as the exact logarithm of the converted value, so the
truncated sum is the number of decimal digits of that double.  (For converted
values of at most 14 digits and for exact powers of ten this is what a `log10`
with an error below a few units in the last place returns; just below `10^15`
and beyond, a rounded `log10` can already return the next integer.) -/
def log10Len (value : Nat) : Nat := decimalLen (roundNE value)

/-- The `do { s[--i] = (n % 10) + '0'; n /= 10; } while (n);` loop of
`sPrintUint`, for `s` starting at index `base` of the buffer.  Decrementing
`i = 0` would leave the destination. -/
def sPrintUintLoop (base : Nat) : Nat → Buf → Nat → Res Buf
  | 0, _, _ => .error .undefined
  | i + 1, s, n =>
    let s1 := s.set (base + i) (n % 10 + 48)
    if n / 10 ≠ 0 then sPrintUintLoop base i s1 (n / 10) else .ok s1

/-- Function `uint sPrintUint(char *s, quint64 value)`, with `s` the buffer at
index `base`; returns the buffer and the length. -/
def sPrintUint (s : Buf) (base value : Nat) : Res (Buf × Nat) :=
  let len := if value ≠ 0 then log10Len value else 1
  let s1 := s.set (base + len) 0
  match sPrintUintLoop base len s1 value with
  | .error e => .error e
  | .ok s2 => .ok (s2, len)

/-- The constant `const quint64 precision(10e10)`. -/
def precision : Nat := 100000000000

/-- The conversion of a non-negative `double` of magnitude `q` to `quint64`:
truncation, undefined when the truncated value does not fit. -/
def toQuint64 (q : Nat) : Res Nat :=
  if q / dblOne < 2 ^ 64 then .ok (q / dblOne) else .error .undefined

/-- The expression `value * precision - n * precision` converted to `quint64`,
for a non-negative finite `value` of magnitude `q`: the left product is a
`double` product, the right one a `quint64` product (modulo `2^64`) that is then
converted to `double`, the difference is a `double`.  Every operation rounds to
`double` as written (no fused multiply-add, no extended precision).  A negative
difference converts to `0` when it is above `-1` and is undefined otherwise. -/
def fractOf (q n : Nat) : Res Nat :=
  let a := roundNE (q * precision)
  let b := roundNE ((n * precision) % 2 ^ 64 * dblOne)
  if b ≤ a then toQuint64 (roundNE (a - b))
  else if roundNE (b - a) < dblOne then .ok 0 else .error .undefined

/-- The `while (fract) { mul /= 10; s[res++] = fract / mul + '0'; fract -= (fract / mul) * mul; }`
loop of `sPrintDouble`; a division by `mul = 0` is undefined, the stored
character is the sum reduced to a `char`. -/
def sPrintDoubleLoop (base : Nat) : Nat → Buf → Nat → Nat → Nat → Res (Buf × Nat)
  | 0, _, _, _, _ => .error .undefined
  | fuel + 1, s, res, mul, fract =>
    if fract = 0 then .ok (s, res)
    else
      let mul1 := mul / 10
      if mul1 = 0 then .error .undefined
      else
        let s1 := s.set (base + res) ((fract / mul1 + 48) % 256)
        sPrintDoubleLoop base fuel s1 (res + 1) mul1 (fract - (fract / mul1) * mul1)

/-- The part of `sPrintDouble` after the sign test, for a non-negative finite
value of magnitude `q`. -/
def sPrintDoubleAbs (s : Buf) (base q : Nat) : Res (Buf × Nat) :=
  match toQuint64 q with
  | .error e => .error e
  | .ok n =>
    match fractOf q n with
    | .error e => .error e
    | .ok fract =>
      match sPrintUint s base n with
      | .error e => .error e
      | .ok (s1, res) =>
        if fract ≠ 0 then
          match sPrintDoubleLoop base 12 (s1.set (base + res) 46) (res + 1) precision fract with
          | .error e => .error e
          | .ok (s2, res2) => .ok (s2.set (base + res2) 0, res2)
        else .ok (s1.set (base + res) 0, res)

/-- Function `uint sPrintDouble(char *s, double value)`, with `s` the buffer at
index `base`.  A negative value writes `'-'` and formats `-value` one byte
further; the conversion of a NaN, of an infinity, or of a value of `2^64` or more
to `quint64` is undefined. -/
def sPrintDouble (s : Buf) (base : Nat) : Double → Res (Buf × Nat)
  | .finite true (q + 1) =>
    match sPrintDoubleAbs (s.set base 45) (base + 1) (q + 1) with
    | .error e => .error e
    | .ok (s1, len) => .ok (s1, len + 1)
  | .finite _ q => sPrintDoubleAbs s base q
  | .inf true => .error .undefined
  | .inf false => .error .undefined
  | .nan => .error .undefined

/-- Function `uint sPrintInt(char *s, qint64 value)`, with `s` the buffer at index
`base`.  A negative value writes `'-'` and formats `-value`, converted to
`quint64`, one byte further; the negation of the minimum `qint64` overflows the
signed type, which is undefined. -/
def sPrintInt (s : Buf) (base : Nat) (value : Int) : Res (Buf × Nat) :=
  if value < 0 then
    if value = -(2 ^ 63) then .error .undefined
    else
      match sPrintUint (s.set base 45) (base + 1) ((-value).toNat % 2 ^ 64) with
      | .error e => .error e
      | .ok (s1, len) => .ok (s1, len + 1)
  else sPrintUint s base (value.toNat % 2 ^ 64)

/-- The comparison `value < 0` of a double: false for both zeros and for a NaN. -/
def Double.ltZero : Double → Bool
  | .finite true (_ + 1) => true
  | .inf true => true
  | _ => false

/-! ## Values -/

/-- A `QString`: its UTF-16 code units; `QString::operator<`, the order of
`QMap<QString, _>`, is the lexicographic order of the code units. -/
abbrev QString := List Nat

/-- The bytes `QString::toLatin1` returns: code units above 255 become `'?'`. -/
def toLatin1 (s : QString) : Bytes := s.map (fun c => if c < 256 then c else 63)

/-- The text `QString::replace("\n", "\n%")` returns. -/
def replaceNewlines : QString → QString
  | [] => []
  | c :: rest => if c = 10 then 10 :: 37 :: replaceNewlines rest else c :: replaceNewlines rest

/-- Insertion `QMap::insert(key, value)` on the entries in ascending key order:
an entry with an equal key is replaced. -/
def QMap.insert {κ β : Type} [LinearOrder κ] (k : κ) (v : β) : List (κ × β) → List (κ × β)
  | [] => [(k, v)]
  | (k1, v1) :: rest =>
    if k < k1 then (k, v) :: (k1, v1) :: rest
    else if k1 < k then (k1, v1) :: QMap.insert k v rest
    else (k, v) :: rest

/-- Lookup `QMap::value(key)`, `none` when the key is absent. -/
def QMap.find {κ β : Type} [DecidableEq κ] (k : κ) : List (κ × β) → Option β
  | [] => none
  | (k1, v1) :: rest => if k1 = k then some v1 else QMap.find k rest

/-- The map built from the empty one by inserting the pairs from left to right. -/
def QMap.ofInserts {κ β : Type} [LinearOrder κ] (ins : List (κ × β)) : List (κ × β) :=
  ins.foldl (fun m kv => QMap.insert kv.1 kv.2 m) []

/-- Class `PDF::Link`: an indirect reference. -/
structure Link where
  objNum : Nat
  genNum : Nat
  deriving DecidableEq, Repr

/-- Class `PDF::Value` by its type tag.  A `Dict` holds the entries of its
`QMap<QString, Value>` in iteration order; `Unknown` is a value whose tag is
none of the nine kinds `writeValue` has a case for. -/
inductive Value where
  | Array (values : List Value)
  | Bool (value : Bool)
  | Dict (values : List (QString × Value))
  | HexString (value : Bytes)
  | Link (link : PDF.Link)
  | LiteralString (value : Bytes)
  | Name (value : QString)
  | Null
  | Number (value : Double)
  | Unknown (tag : Nat)

/-- Modelled from the spec: `Value::asHexString().value()` is declared in
`pdfvalue.h`, which is not part of the sources.  Both string kinds keep their
payload in the value, and the accessor returns it (spec: "LiteralString:
`(<raw bytes>)`", "HexString: `<hex-digits>`"). -/
def Value.asHexStringValue : Value → Bytes
  | .HexString b => b
  | .LiteralString b => b
  | _ => []

/-- Class `PDF::Object`. -/
structure Object where
  objNum : Nat
  genNum : Nat
  value : Value
  stream : Bytes

/-! ## The cross-reference table and the writer state -/

/-- The enum `XRefEntry::Type`. -/
inductive XRefType where
  | Free
  | Used
  deriving DecidableEq, Repr

/-- Struct `XRefEntry`, built by `XRefEntry(pos, objNum, genNum, type)`. -/
structure XRefEntry where
  pos : Nat
  objNum : Nat
  genNum : Nat
  type : XRefType
  deriving DecidableEq, Repr

/-- Class `XRefTable`, a `QMap<ObjNum, XRefEntry>`: its entries in ascending key order. -/
abbrev XRefTable := List (Nat × XRefEntry)

/-- Modelled from the spec: `XRefTable::maxObjNum()` is declared in `pdfxref.h`,
which is not part of the sources; "maximum registered objNum" (`0` for an empty
table). -/
def XRefTable.maxObjNum (t : XRefTable) : Nat := t.foldl (fun m e => max m e.1) 0

/-- The members of `PDF::Writer`: the bytes on the device (`mDevice->pos()` is
their number), the recorded table position, the table, and the scratch buffer. -/
structure Writer where
  mDevice : Bytes
  mXRefPos : Nat
  mXRefTable : XRefTable
  mBuf : Buf

/-- Constructor `Writer::Writer(QIODevice *device)` on a device holding `device`;
the scratch buffer starts with indeterminate contents `buf`. -/
def Writer.new (device : Bytes) (buf : Buf) : Writer :=
  { mDevice := device
    mXRefPos := 0
    mXRefTable := QMap.insert 0 (XRefEntry.mk 0 0 65535 XRefType.Free) []
    mBuf := buf }

/-- Call `mDevice->write(data)`. -/
def Writer.deviceWrite (w : Writer) (data : Bytes) : Writer :=
  { w with mDevice := w.mDevice ++ data }

/-- Overload `Writer::write(const char value)`. -/
def Writer.writeChar (w : Writer) (value : Nat) : Writer := w.deviceWrite [value]

/-- Overload `Writer::write(const char *value)`. -/
def Writer.writeCStr (w : Writer) (value : String) : Writer := w.deviceWrite (bytes value)

/-- Overloads `Writer::write(quint64)`, `write(quint32)` and `write(quint16)`:
each passes its argument on to `sPrintUint(mBuf, value)`. -/
def Writer.writeUint (w : Writer) (value : Nat) : Res Writer :=
  match sPrintUint w.mBuf 0 value with
  | .error e => .error e
  | .ok (s, len) => .ok { w with mDevice := w.mDevice ++ s.read 0 len, mBuf := s }

/-- Overload `Writer::write(double value)`. -/
def Writer.writeDouble (w : Writer) (value : Double) : Res Writer :=
  match sPrintDouble w.mBuf 0 value with
  | .error e => .error e
  | .ok (s, len) => .ok { w with mDevice := w.mDevice ++ s.read 0 len, mBuf := s }

section Codec

-- the bytes `QString::toLocal8Bit` returns under the locale of the process
variable (toLocal8Bit : QString → Bytes)

/-- Overload `Writer::write(const QString &value)`. -/
def Writer.writeQString (w : Writer) (value : QString) : Writer :=
  w.deviceWrite (toLocal8Bit value)

mutual
/-- Method `Writer::writeValue`. -/
def Writer.writeValue (w : Writer) : Value → Res Writer
  | .Array values => do
    let w1 ← Writer.writeArrayItems (w.writeCStr "[") values
    pure (w1.writeCStr "]")
  | .Bool value => pure (if value then w.writeCStr "true" else w.writeCStr "false")
  | .Dict values => do
    let w1 ← Writer.writeDictItems (w.writeCStr "<<\n") values
    pure (w1.writeCStr ">>")
  | .HexString value => pure (((w.writeChar 60).deviceWrite value).writeChar 62)
  | .Link link => do
    let w1 ← w.writeUint link.objNum
    let w2 ← (w1.writeCStr " ").writeUint link.genNum
    pure (w2.writeCStr " R")
  | .LiteralString value =>
    pure (((w.writeCStr "(").deviceWrite (Value.LiteralString value).asHexStringValue).writeCStr ")")
  | .Name value => pure ((w.writeCStr "/").deviceWrite (toLatin1 value))
  | .Null => pure (w.writeCStr "null")
  | .Number value => w.writeDouble value
  | .Unknown tag => .error (.unknownValue w.mDevice.length tag)
/-- The `foreach` loop of the `Array` case. -/
def Writer.writeArrayItems (w : Writer) : List Value → Res Writer
  | [] => pure w
  | v :: rest => do
    let w1 ← Writer.writeValue w v
    Writer.writeArrayItems (w1.writeCStr " ") rest
/-- The iterator loop of the `Dict` case. -/
def Writer.writeDictItems (w : Writer) : List (QString × Value) → Res Writer
  | [] => pure w
  | (key, value) :: rest => do
    let w1 ← Writer.writeValue (((w.writeChar 47).writeQString toLocal8Bit key).writeChar 32) value
    Writer.writeDictItems (w1.writeChar 10) rest
end

/-- Method `Writer::writeComment`. -/
def Writer.writeComment (w : Writer) (comment : QString) : Writer :=
  (((w.writeCStr "\n%").writeQString toLocal8Bit (replaceNewlines comment))).writeChar 10

/-- Method `Writer::writeObject`. -/
def Writer.writeObject (w : Writer) (object : Object) : Res Writer := do
  let w1 := w.writeChar 10
  let entry := XRefEntry.mk w1.mDevice.length object.objNum object.genNum XRefType.Used
  let w2 : Writer := { w1 with mXRefTable := QMap.insert object.objNum entry w1.mXRefTable }
  let w3 ← w2.writeUint object.objNum
  let w4 ← (w3.writeChar 32).writeUint object.genNum
  let w5 ← Writer.writeValue toLocal8Bit (w4.writeCStr " obj\n") object.value
  let w6 :=
    if object.stream.length ≠ 0 then
      ((w5.writeCStr "\nstream\n").deviceWrite object.stream).writeCStr "\nendstream"
    else w5
  pure (w6.writeCStr "\nendobj\n")

/-- Method `Writer::writeTrailer(const Dict &trailerDict)`; `QString::arg`
replaces `%1` by the decimal text of `mXRefPos`. -/
def Writer.writeTrailerDict (w : Writer) (trailerDict : List (QString × Value)) : Res Writer := do
  let w1 ← Writer.writeValue toLocal8Bit (w.writeCStr "\ntrailer\n") (Value.Dict trailerDict)
  pure (w1.deviceWrite (bytes "\nstartxref\n" ++ decimal w1.mXRefPos ++ bytes "\n%%EOF\n"))

end Codec

/-- The decimal text `QString::arg(int)` substitutes. -/
def decimalInt : Int → Bytes
  | .ofNat n => decimal n
  | .negSucc n => 45 :: decimal (n + 1)

/-- Method `Writer::writePDFHeader`. -/
def Writer.writePDFHeader (w : Writer) (majorVersion minorVersion : Int) : Writer :=
  (w.deviceWrite (bytes "%PDF-" ++ decimalInt majorVersion ++ bytes "." ++ decimalInt minorVersion
      ++ bytes "\n")).deviceWrite [37, 0xE2, 0xE3, 0xCF, 0xD3, 10]

/-! ## The cross-reference table -/

/-- The twenty bytes `buf[pos + 0] .. buf[pos + 19]` that `writeXrefSection`
stores for one entry. -/
def xrefRecord (entry : XRefEntry) : Bytes :=
  [ (entry.pos / 1000000000) % 10 + 48,
    (entry.pos / 100000000) % 10 + 48,
    (entry.pos / 10000000) % 10 + 48,
    (entry.pos / 1000000) % 10 + 48,
    (entry.pos / 100000) % 10 + 48,
    (entry.pos / 10000) % 10 + 48,
    (entry.pos / 1000) % 10 + 48,
    (entry.pos / 100) % 10 + 48,
    (entry.pos / 10) % 10 + 48,
    (entry.pos / 1) % 10 + 48,
    32,
    (entry.genNum / 10000) % 10 + 48,
    (entry.genNum / 1000) % 10 + 48,
    (entry.genNum / 100) % 10 + 48,
    (entry.genNum / 10) % 10 + 48,
    (entry.genNum / 1) % 10 + 48,
    32,
    110,
    32,
    10 ]

/-- The constant `const uint bufSize = 1024 * 20`. -/
def bufSize : Nat := 1024 * 20

/-- The assignments `buf[pos + k] = data[k]` for consecutive `k`. -/
def Buf.setList (buf : Buf) (pos : Nat) : Bytes → Buf
  | [] => buf
  | c :: rest => Buf.setList (buf.set pos c) (pos + 1) rest

/-- The twenty stores of one record into the local `char buf[bufSize]`; a store
at an index of `bufSize` or more is outside the array. -/
def storeRecord (buf : Buf) (pos : Nat) (entry : XRefEntry) : Res Buf :=
  if pos + 20 ≤ bufSize then .ok (buf.setList pos (xrefRecord entry)) else .error .undefined

/-- The inner loop `for (; pos < bufSize && i<count; ++i)` of `writeXrefSection`,
with `todo = count - i` and `it` the entries from the iterator on (reading
`it.value()` at `constEnd()` is undefined); returns the buffer, `pos`, the
iterator and `count - i` at the exit. -/
def xrefFill : Nat → Buf → Nat → XRefTable → Res (Buf × Nat × XRefTable × Nat)
  | 0, buf, pos, it => .ok (buf, pos, it, 0)
  | todo + 1, buf, pos, it =>
    if pos < bufSize then
      match it with
      | [] => .error .undefined
      | e :: rest =>
        match storeRecord buf pos e.2 with
        | .error f => .error f
        | .ok buf1 => xrefFill todo buf1 (pos + 20) rest
    else .ok (buf, pos, it, todo + 1)

/-- The outer loop `for (quint32 i = 0; i<count;)` of `writeXrefSection`: fill
the buffer, then `mDevice->write(buf, pos)`.  Every round handles at least one
entry, `fuel` bounds the number of rounds. -/
def xrefFlushLoop : Nat → Nat → Writer → Buf → XRefTable → Res Writer
  | _, 0, w, _, _ => .ok w
  | 0, _ + 1, _, _, _ => .error .undefined
  | fuel + 1, todo + 1, w, buf, it =>
    match xrefFill (todo + 1) buf 0 it with
    | .error f => .error f
    | .ok (buf1, pos, it1, todo1) => xrefFlushLoop fuel todo1 (w.deviceWrite (buf1.read 0 pos)) buf1 it1

/-- Method `Writer::writeXrefSection(start, count)`, with `start` the entries
from the iterator on; the local buffer starts as `fun _ => 0`. -/
def Writer.writeXrefSection (w : Writer) (start : XRefTable) (count : Nat) : Res Writer :=
  match start with
  | [] => .error .undefined
  | e :: _ => do
    let w1 ← w.writeUint e.2.objNum
    let w2 ← (w1.writeChar 32).writeUint count
    xrefFlushLoop count count (w2.writeChar 10) (fun _ => 0) start

/-- The inner loop of `writeXrefTable`: advance `it` until the `quint32`
difference `it.value().objNum - prev` exceeds `1`; returns `prev` and `it`. -/
def xrefScan : Nat → XRefTable → Nat × XRefTable
  | prev, [] => (prev, [])
  | prev, e :: rest =>
    if (e.2.objNum + 2 ^ 32 - prev) % 2 ^ 32 > 1 then (prev, e :: rest)
    else xrefScan e.2.objNum rest

/-- The loop `while (start != mXRefTable.constEnd())` of `writeXrefTable`;
`fuel` bounds the number of rounds, and `count` is a `quint32`. -/
def writeXrefTableLoop : Nat → Writer → XRefTable → Res Writer
  | _, w, [] => .ok w
  | 0, _, _ :: _ => .error .undefined
  | fuel + 1, w, e :: rest =>
    match w.writeXrefSection (e :: rest)
        (((xrefScan e.2.objNum (e :: rest)).1 + 2 ^ 32 - e.2.objNum + 1) % 2 ^ 32) with
    | .error f => .error f
    | .ok w1 => writeXrefTableLoop fuel w1 (xrefScan e.2.objNum (e :: rest)).2

/-- Method `Writer::writeXrefTable`. -/
def Writer.writeXrefTable (w : Writer) : Res Writer :=
  let w1 : Writer := { w with mXRefPos := w.mDevice.length }
  writeXrefTableLoop w1.mXRefTable.length (w1.writeCStr "xref\n") w1.mXRefTable

/-! ## The trailer and whole sessions -/

/-- The dictionary `writeTrailer(root, info)` builds; `uuid` is the text
`QUuid::createUuid().toByteArray().toHex()` of the call.  The sum
`maxObjNum() + 1` is taken without wrap-around (the return type of `maxObjNum`
is declared in the absent `pdfxref.h`). -/
def trailerDict (t : XRefTable) (root info : Link) (uuid : Bytes) : List (QString × Value) :=
  let d1 := QMap.insert (bytes "Size") (Value.Number (Double.ofNat (t.maxObjNum + 1))) []
  let d2 := QMap.insert (bytes "Root") (Value.Link root) d1
  let d3 := if info.objNum ≠ 0 then QMap.insert (bytes "Info") (Value.Link info) d2 else d2
  QMap.insert (bytes "ID") (Value.Array [Value.HexString uuid, Value.HexString uuid]) d3

/-- Method `Writer::writeTrailer(const Link &root, const Link &info)`. -/
def Writer.writeTrailer (toLocal8Bit : QString → Bytes) (w : Writer) (root info : Link)
    (uuid : Bytes) : Res Writer :=
  w.writeTrailerDict toLocal8Bit (trailerDict w.mXRefTable root info uuid)

/-- One call on a writer. -/
inductive Op where
  | pdfHeader (majorVersion minorVersion : Int)
  | comment (text : QString)
  | object (object : Object)
  | xrefTable
  | trailer (root info : Link) (uuid : Bytes)

/-- The effect of one call. -/
def Writer.step (toLocal8Bit : QString → Bytes) (w : Writer) : Op → Res Writer
  | .pdfHeader major minor => .ok (w.writePDFHeader major minor)
  | .comment text => .ok (w.writeComment toLocal8Bit text)
  | .object o => w.writeObject toLocal8Bit o
  | .xrefTable => w.writeXrefTable
  | .trailer root info uuid => w.writeTrailer toLocal8Bit root info uuid

/-- A sequence of calls, stopping at the first fault. -/
def Writer.run (toLocal8Bit : QString → Bytes) (w : Writer) : List Op → Res Writer
  | [] => .ok w
  | op :: ops =>
    match w.step toLocal8Bit op with
    | .error f => .error f
    | .ok w1 => Writer.run toLocal8Bit w1 ops

/-! ## Well-formedness of the inputs -/

/-- The table of a writer: keys ascending, every entry stored under its own
object number, object numbers are `quint32`, and the number of entries fits the
`int` that `QMap::size()` returns. -/
def XRefTable.WF (t : XRefTable) : Prop :=
  t.Pairwise (fun a b => a.1 < b.1) ∧ (∀ e ∈ t, e.2.objNum = e.1 ∧ e.1 < 2 ^ 32) ∧
    t.length < 2 ^ 31

instance (t : XRefTable) : Decidable t.WF := by
  unfold XRefTable.WF; exact inferInstance

/-- The fields of an object record fit their types: `ObjNum` is a `quint32`,
`GenNum` a `quint16`. -/
def Object.WF (o : Object) : Prop := o.objNum < 2 ^ 32 ∧ o.genNum < 2 ^ 16

instance (o : Object) : Decidable o.WF := by
  unfold Object.WF; exact inferInstance

/-- Zero-padded decimal text of `n` on at least `width` characters. -/
def padDecimal (width n : Nat) : Bytes :=
  List.replicate (width - (decimal n).length) 48 ++ decimal n

/-! ## Specification-side definitions -/

/-- The maximal runs of consecutive object numbers of a table, in order: an
entry joins the run that follows it exactly when the next key is its own key
plus one. -/
def xrefRuns : XRefTable → List XRefTable
  | [] => []
  | e :: rest =>
    match xrefRuns rest with
    | (f :: sec) :: secs => if f.1 = e.1 + 1 then (e :: f :: sec) :: secs else [e] :: (f :: sec) :: secs
    | _ => [[e]]

/-- The entries after `prev` that continue its run of consecutive object
numbers, and the entries that remain. -/
def runSpan : Nat → XRefTable → XRefTable × XRefTable
  | _, [] => ([], [])
  | prev, f :: rest =>
    if f.1 = prev + 1 then ((f :: (runSpan f.1 rest).1), (runSpan f.1 rest).2) else ([], f :: rest)

/-- The text of one subsection: the header line `<first objNum> <number of
entries>` and one record for every entry. -/
def xrefSectionBytes : XRefTable → Bytes
  | [] => []
  | e :: rest =>
    decimal e.1 ++ [32] ++ decimal (e :: rest).length ++ [10] ++
      (e :: rest).flatMap (fun x => xrefRecord x.2)

/-- The last `width` decimal digits of `n`, most significant first. -/
def fixedDecimal : Nat → Nat → Bytes
  | 0, _ => []
  | width + 1, n => fixedDecimal width (n / 10) ++ [n % 10 + 48]

/-- A table with the object numbers `0, 1, 2, 5, 6`, with any offsets,
generations and states. -/
def xrefExample (pos gen : Nat → Nat) (ty : Nat → XRefType) : XRefTable :=
  [0, 1, 2, 5, 6].map (fun k => (k, XRefEntry.mk (pos k) k (gen k) (ty k)))

/-- State `w1` continues `w`: the device has only grown, the table and the
recorded table position are the same. -/
def Writer.Frame (w w1 : Writer) : Prop :=
  w.mDevice <+: w1.mDevice ∧ w1.mXRefTable = w.mXRefTable ∧ w1.mXRefPos = w.mXRefPos

/-- The end-to-end scenario of the specification: a Catalog and a Pages object. -/
def scenarioOps : List Op :=
  [ Op.pdfHeader 1 4,
    Op.object ⟨1, 0, Value.Dict (QMap.ofInserts
      [(bytes "Type", Value.Name (bytes "Catalog")), (bytes "Pages", Value.Link ⟨2, 0⟩)]), []⟩,
    Op.object ⟨2, 0, Value.Dict (QMap.ofInserts
      [(bytes "Type", Value.Name (bytes "Pages")), (bytes "Count", Value.Number (Double.ofNat 0))]), []⟩,
    Op.xrefTable,
    Op.trailer ⟨1, 0⟩ ⟨0, 0⟩ (bytes "00ff") ]

/-- A text without its trailing `'0'` characters. -/
def stripTrailingZeros : Bytes → Bytes
  | [] => []
  | c :: rest =>
    match stripTrailingZeros rest with
    | [] => if c = 48 then [] else [c]
    | r :: rs => c :: r :: rs

/-- The text of a number with integral part `n` and scaled fractional remainder
`r`: the decimal digits of `n`, then, only when `r` is not zero, a point and the
11-digit zero-padded decimal of `r` without its trailing zeros. -/
def doubleText (n r : Nat) : Bytes :=
  decimal n ++ (if r = 0 then [] else 46 :: stripTrailingZeros (padDecimal 11 r))

/-- The remainder `floor((value - floor(value)) * 10^11)` in exact arithmetic,
for the non-negative double of magnitude `q`. -/
def exactFract (q : Nat) : Nat := (q % dblOne) * precision / dblOne

/-- The remainder `floor(fl(value * 10^11)) - floor(value) * 10^11`, where `fl`
rounds the exact product to the nearest double. -/
def roundedFract (q : Nat) : Nat := roundNE (q * precision) / dblOne - (q / dblOne) * precision

/-- The text the specification's formula gives for the non-negative double of
magnitude `q`: the digits of `floor(value)`, then, when the exact remainder
`floor((value - floor(value)) * 10^11)` is not zero, a point and its 11 digits
without the trailing zeros. -/
def claimedDoubleText (q : Nat) : Bytes := doubleText (q / dblOne) (exactFract q)

/-! ## Specification-side definitions: serializations and unknown kinds -/

/-- Specification side: `out` is a serialization of `v`, the bytes a call of
`writeValue` on `v` that returns has appended to the sink. -/
def Value.WrittenAs (toLocal8Bit : QString → Bytes) (v : Value) (out : Bytes) : Prop :=
  ∃ w w1 : Writer, w.writeValue toLocal8Bit v = .ok w1 ∧ w1.mDevice = w.mDevice ++ out

mutual
/-- Specification side: a value built only from the nine kinds `writeValue`
handles, at every depth. -/
def unknownFree : Value → Bool
  | .Array values => unknownFreeList values
  | .Dict values => unknownFreeEntries values
  | .Unknown _ => false
  | .Bool _ => true
  | .HexString _ => true
  | .Link _ => true
  | .LiteralString _ => true
  | .Name _ => true
  | .Null => true
  | .Number _ => true
/-- Specification side: every element of an array is built only from the nine kinds. -/
def unknownFreeList : List Value → Bool
  | [] => true
  | v :: rest => unknownFree v && unknownFreeList rest
/-- Specification side: every entry of a dictionary is built only from the nine kinds. -/
def unknownFreeEntries : List (QString × Value) → Bool
  | [] => true
  | (_, v) :: rest => unknownFree v && unknownFreeEntries rest
end

section Reach
variable (toLocal8Bit : QString → Bytes)
mutual
/-- Specification side: the traversal of `v`, started with the sink in state `w`,
reaches a value of an unknown kind `tag` when the sink offset is `pos`: the value
itself, or a value nested in an array or dictionary after the opening bytes of
the container and its earlier siblings have been written. -/
def Writer.reachesUnknown (w : Writer) : Value → Nat → Nat → Prop
  | .Unknown tag0, pos, tag => pos = w.mDevice.length ∧ tag = tag0
  | .Array values, pos, tag => Writer.reachesUnknownItems (w.writeCStr "[") values pos tag
  | .Dict values, pos, tag => Writer.reachesUnknownEntries (w.writeCStr "<<\n") values pos tag
  | .Bool _, _, _ => False
  | .HexString _, _, _ => False
  | .Link _, _, _ => False
  | .LiteralString _, _, _ => False
  | .Name _, _, _ => False
  | .Null, _, _ => False
  | .Number _, _, _ => False
/-- Specification side: the traversal of the elements of an array reaches a value of an unknown kind. -/
def Writer.reachesUnknownItems (w : Writer) : List Value → Nat → Nat → Prop
  | [], _, _ => False
  | v :: rest, pos, tag =>
    Writer.reachesUnknown w v pos tag ∨
    ∃ w1, w.writeValue toLocal8Bit v = .ok w1 ∧
      Writer.reachesUnknownItems (w1.writeCStr " ") rest pos tag
/-- Specification side: the traversal of the entries of a dictionary reaches a value of an unknown kind. -/
def Writer.reachesUnknownEntries (w : Writer) : List (QString × Value) → Nat → Nat → Prop
  | [], _, _ => False
  | (key, v) :: rest, pos, tag =>
    Writer.reachesUnknown (((w.writeChar 47).writeQString toLocal8Bit key).writeChar 32) v pos tag ∨
    ∃ w1, (((w.writeChar 47).writeQString toLocal8Bit key).writeChar 32).writeValue toLocal8Bit v = .ok w1 ∧
      Writer.reachesUnknownEntries (w1.writeChar 10) rest pos tag
end
end Reach

/-- Specification side: the lines of a text, split at every newline (code unit 10). -/
def splitLines : QString → List QString
  | [] => [[]]
  | c :: rest =>
    match splitLines rest with
    | [] => [[c]]
    | l :: ls => if c = 10 then [] :: l :: ls else (c :: l) :: ls

/-- Specification side: the number of rounds the outer loop of `writeXrefTable`
runs on the entries `l` from the iterator on, counted up to `fuel` rounds. -/
def xrefRounds : Nat → XRefTable → Nat
  | _, [] => 0
  | 0, _ :: _ => 0
  | fuel + 1, e :: rest => xrefRounds fuel (xrefScan e.2.objNum (e :: rest)).2 + 1

/-! ## Document information (`gui/kernel/project.cpp`, `MetaData::addDictItem`) -/

/-- The digits of `n` in base `base`, most significant first, letters in lower case. -/
def digitsText (base n : Nat) : QString := (Nat.toDigits base n).map Char.toNat

/-- The text `QString::arg(int a, int fieldWidth, int base, QChar('0'))`
substitutes: `a` is widened to `qlonglong`; in base 10 a sign and the digits of
the absolute value, in any other base the digits of the value read as an
unsigned 64-bit integer; zeros are put in front of the digits up to `fieldWidth`
characters. -/
def argInt (a : Int) (fieldWidth base : Nat) : QString :=
  if base = 10 then
    if a < 0 then
      45 :: (List.replicate (fieldWidth - 1 - (digitsText 10 a.natAbs).length) 48 ++
        digitsText 10 a.natAbs)
    else List.replicate (fieldWidth - (digitsText 10 a.toNat).length) 48 ++ digitsText 10 a.toNat
  else
    List.replicate (fieldWidth - (digitsText base (a % 2 ^ 64).toNat).length) 48 ++
      digitsText base (a % 2 ^ 64).toNat

/-- The conversion of an `int` in `0 .. 255` to `qint8` (a signed 8-bit integer). -/
def toQint8 (x : Nat) : Int := if x % 256 < 128 then ((x % 256 : Nat) : Int) else ((x % 256 : Nat) : Int) - 256

section Info

-- the bytes `QByteArray::append(const QString &)` stores for a text (`QString::toUtf8`)
variable (toUtf8 : QString → Bytes)

/-- The loop `for (int i=0; utf16[i]>0; ++i)` of `addDictItem` over the code
units of `value.utf16()`, which end with a zero; `bigEndian` is
`Q_BYTE_ORDER == Q_BIG_ENDIAN`. -/
def addDictItemLoop (bigEndian : Bool) (out : Bytes) : QString → Bytes
  | [] => out
  | u :: rest =>
    if u > 0 then
      let hi := toQint8 ((u &&& 0xFF00) >>> 8)
      let lo := toQint8 (u &&& 0x00FF)
      let b1 := if bigEndian then lo else hi
      let b2 := if bigEndian then hi else lo
      addDictItemLoop bigEndian (out ++ toUtf8 (argInt b1 2 16 ++ argInt b2 2 16)) rest
    else out

/-- Method `MetaData::addDictItem(QByteArray &out, const QString &key, const QString &value)`:
the bytes of `out` after the call. -/
def addDictItem (bigEndian : Bool) (out : Bytes) (key value : QString) : Bytes :=
  addDictItemLoop toUtf8 bigEndian (out ++ toUtf8 ([47] ++ key ++ bytes " <FEFF")) value ++ bytes ">\n"

/-- Method `MetaData::addDictItem(QByteArray &out, const QString &key, const QDateTime &value)`:
the bytes of `out` after the call, for `timestamp` the text
`value.toString("yyyyMMddhhmmss")` and `offset` the `int` the method computes
from `value`.  The negation of the minimum `int` is undefined. -/
def addDictItemDate (out : Bytes) (key timestamp : QString) (offset : Int) : Res Bytes :=
  let out1 := out ++ toUtf8 ([47] ++ key ++ bytes " (") ++ toUtf8 timestamp
  if offset > 0 then
    .ok (out1 ++ toUtf8 ([43] ++ argInt (Int.tdiv offset 60) 2 10 ++ [39] ++
      argInt (Int.tmod offset 60) 2 10 ++ [39]) ++ bytes ")\n")
  else if offset < 0 then
    if offset = -(2 ^ 31) then .error .undefined
    else
      .ok (out1 ++ toUtf8 ([45] ++ argInt (Int.tdiv (-offset) 60) 2 10 ++ [39] ++
        argInt (Int.tmod (-offset) 60) 2 10 ++ [39]) ++ bytes ")\n")
  else .ok (out1 ++ bytes ")\n")

end Info

/-- Specification side: the two lower-case hexadecimal digits of a byte. -/
def hex2 (b : Nat) : QString :=
  [ (if b / 16 % 16 < 10 then 48 + b / 16 % 16 else 87 + b / 16 % 16),
    (if b % 16 < 10 then 48 + b % 16 else 87 + b % 16) ]

/-- Specification side: the four hexadecimal digits of a UTF-16 code unit, the
high byte first. -/
def hex4 (u : Nat) : QString := hex2 (u / 256 % 256) ++ hex2 (u % 256)

/-! ## Sheet selection (`gui/kernel/project.cpp`, `Project::selectSheets`) -/

/-- The cases of `enum Project::PagesType` that `selectSheets` handles. -/
inductive PagesType where
  | OddPages
  | EvenPages
  | AllPages
  deriving DecidableEq, Repr

/-- The `enum Project::PagesOrder`. -/
inductive PagesOrder where
  | ForwardOrder
  | BackOrder
  deriving DecidableEq, Repr

/-- The two loops `for (int i=start; i < end; i += inc)` of `selectSheets`, the
first (`forward`) with `res.append(sheets.at(i))`, the second with
`res.insert(0, sheets.at(i))`, both with `sheets[i] = 0`.  A `Sheet*` is its
address, `0` the null pointer; `sheets.at(i)` past the end of the list and an
`int` sum of `2^31` or more are undefined; `fuel` bounds the number of rounds. -/
def selectSheetsLoop (forward : Bool) (inc last : Nat) :
    Nat → Nat → List Nat → List Nat → Res (List Nat × List Nat)
  | 0, i, sheets, res => if i < last then .error .undefined else .ok (res, sheets)
  | fuel + 1, i, sheets, res =>
    if i < last then
      match sheets[i]? with
      | none => .error .undefined
      | some p =>
        if i + inc < 2 ^ 31 then
          selectSheetsLoop forward inc last fuel (i + inc) (sheets.set i 0)
            (if forward then res ++ [p] else p :: res)
        else .error .undefined
    else .ok (res, sheets)

/-- Method `Project::selectSheets(pages, order)`, for `sheetCount` the value of
`sheetCount()` and `sheets` the list `mLayout->fillSheets` has filled; returns
`res` and the sheets that `qDeleteAll(sheets)` deletes (the entries that are not
null after the loop).  The comparison `i < end` of two `int`, with `i` never
negative, is the comparison of `i` with `end` cut off at zero. -/
def selectSheets (pages : PagesType) (order : PagesOrder) (sheetCount : Int) (sheets : List Nat) :
    Res (List Nat × List Nat) :=
  let start := match pages with
    | .OddPages => 0
    | .EvenPages => 1
    | .AllPages => 0
  let inc := match pages with
    | .OddPages => 2
    | .EvenPages => 2
    | .AllPages => 1
  match selectSheetsLoop (order = PagesOrder.ForwardOrder) inc sheetCount.toNat sheetCount.toNat
      start sheets [] with
  | .error e => .error e
  | .ok (res, sheets1) => .ok (res, sheets1.filter (fun p => p ≠ 0))

/-- Specification side: the indices `start, start + inc, ...` below `last`, in
ascending order. -/
def strideIndices (start inc last : Nat) : List Nat :=
  (List.range ((last + inc - 1 - start) / inc)).map (fun j => start + j * inc)

/-- Specification side: the first index of a page type. -/
def PagesType.start : PagesType → Nat
  | .OddPages => 0
  | .EvenPages => 1
  | .AllPages => 0

/-- Specification side: the step between the indices of a page type. -/
def PagesType.step : PagesType → Nat
  | .OddPages => 2
  | .EvenPages => 2
  | .AllPages => 1

/-- Specification side: the sheets of a list at the indices of a page type below
`last`, in ascending order of the indices. -/
def pickSheets (pages : PagesType) (last : Nat) (sheets : List Nat) : List Nat :=
  (strideIndices pages.start pages.step last).map (fun i => sheets.getD i 0)

/-! ## Decimal text -/

theorem digitChar_toNat (k : Nat) (h : k < 10) : (Nat.digitChar k).toNat = k + 48 := by
  interval_cases k <;> rfl

theorem toDigitsCore_fuel (fuel n : Nat) (ds : List Char) (h : n < fuel) :
    Nat.toDigitsCore 10 fuel n ds = Nat.toDigitsCore 10 (n + 1) n [] ++ ds := by
  induction fuel using Nat.strong_induction_on generalizing n ds with
  | _ fuel ih =>
    cases fuel with
    | zero => omega
    | succ fuel =>
      rw [Nat.toDigitsCore, Nat.toDigitsCore]
      by_cases h0 : n / 10 = 0
      · simp [h0]
      · simp only [h0, if_false]
        have h1 : n / 10 < fuel := by omega
        have h2 : n / 10 < n := by omega
        rw [ih fuel (by omega) (n / 10) _ h1, ih n (by omega) (n / 10) _ h2]
        simp

theorem decimal_lt_ten (n : Nat) (h : n < 10) : decimal n = [n + 48] := by
  have h0 : n / 10 = 0 := by omega
  simp [decimal, bytes, Nat.repr, Nat.toDigits, Nat.toDigitsCore, h0, List.asString,
    Nat.mod_eq_of_lt h, digitChar_toNat n h]

theorem decimal_ge_ten (n : Nat) (h : 10 ≤ n) :
    decimal n = decimal (n / 10) ++ [n % 10 + 48] := by
  have h0 : n / 10 ≠ 0 := by omega
  have h2 : n / 10 < n := by omega
  simp only [decimal, bytes, Nat.repr, Nat.toDigits, List.asString]
  rw [Nat.toDigitsCore]
  simp only [h0, if_false]
  rw [toDigitsCore_fuel n (n / 10) _ h2]
  simp [digitChar_toNat (n % 10) (Nat.mod_lt _ (by norm_num))]

theorem decimal_length_pos (n : Nat) : 0 < (decimal n).length := by
  by_cases h : n < 10
  · simp [decimal_lt_ten n h]
  · simp [decimal_ge_ten n (by omega)]

theorem decimalLen_lt_ten (n : Nat) (h : n < 10) : decimalLen n = 1 := by
  simp [decimalLen, decimal_lt_ten n h]

theorem decimalLen_ge_ten (n : Nat) (h : 10 ≤ n) : decimalLen n = decimalLen (n / 10) + 1 := by
  simp [decimalLen, decimal_ge_ten n h]

/-! ## Binary length and rounding -/

theorem bitLenAux_spec (fuel x : Nat) (h : x ≤ fuel) :
    x < 2 ^ bitLenAux fuel x ∧ (x ≠ 0 → 2 ^ (bitLenAux fuel x - 1) ≤ x) := by
  induction fuel generalizing x with
  | zero =>
    have : x = 0 := by omega
    subst this; simp [bitLenAux]
  | succ fuel ih =>
    rw [bitLenAux]
    by_cases h0 : x = 0
    · subst h0; simp
    · simp only [h0, if_false]
      have hx : x / 2 ≤ fuel := by omega
      obtain ⟨h1, h2⟩ := ih (x / 2) hx
      constructor
      · rw [pow_succ]; omega
      · intro _
        simp only [Nat.add_sub_cancel]
        by_cases h3 : x / 2 = 0
        · have : bitLenAux fuel (x / 2) = 0 := by
            rw [h3]; cases fuel <;> simp [bitLenAux]
          rw [this]; simp; omega
        · have h4 := h2 h3
          have h5 : 0 < bitLenAux fuel (x / 2) := by
            rcases Nat.eq_zero_or_pos (bitLenAux fuel (x / 2)) with h6 | h6
            · rw [h6] at h1; simp at h1; omega
            · exact h6
          have h6 : bitLenAux fuel (x / 2) = (bitLenAux fuel (x / 2) - 1) + 1 := by omega
          rw [h6, pow_succ]; omega

theorem lt_two_pow_bitLen (x : Nat) : x < 2 ^ bitLen x :=
  (bitLenAux_spec x x (Nat.le_refl x)).1

theorem two_pow_bitLen_le (x : Nat) (h : x ≠ 0) : 2 ^ (bitLen x - 1) ≤ x :=
  (bitLenAux_spec x x (Nat.le_refl x)).2 h

theorem bitLen_le_of_lt (x e : Nat) (h : x < 2 ^ e) : bitLen x ≤ e := by
  by_contra hc
  have hx : x ≠ 0 := by
    intro h0; subst h0
    simp [bitLen, bitLenAux] at hc
  have h1 := two_pow_bitLen_le x hx
  have h2 : 2 ^ e ≤ 2 ^ (bitLen x - 1) := Nat.pow_le_pow_right (by norm_num) (by omega)
  omega

theorem lt_bitLen_of_le (x e : Nat) (h : 2 ^ e ≤ x) : e < bitLen x := by
  by_contra hc
  have h1 := lt_two_pow_bitLen x
  have h2 : 2 ^ bitLen x ≤ 2 ^ e := Nat.pow_le_pow_right (by norm_num) (by omega)
  omega

theorem roundNE_of_lt (x : Nat) (h : x < 2 ^ 53) : roundNE x = x := by
  have hk : bitLen x - 53 = 0 := by
    have := bitLen_le_of_lt x 53 h; omega
  simp [roundNE, hk, Nat.mod_one]

/-! ## Buffers -/

theorem Buf.read_succ (s : Buf) (base len : Nat) :
    s.read base (len + 1) = s.read base len ++ [s (base + len)] := by
  simp [Buf.read, List.range_succ]

theorem Buf.read_congr (s t : Buf) (base len : Nat)
    (h : ∀ j, base ≤ j → j < base + len → s j = t j) : s.read base len = t.read base len := by
  simp only [Buf.read]
  apply List.map_congr_left
  intro j hj
  rw [List.mem_range] at hj
  exact h (base + j) (by omega) (by omega)

/-! ## `sPrintUint` -/

theorem sPrintUintLoop_spec (base i : Nat) :
    ∀ (s : Buf) (n : Nat), decimalLen n = i →
      ∃ s1, sPrintUintLoop base i s n = .ok s1 ∧ s1.read base i = decimal n ∧
        ∀ j, (j < base ∨ base + i ≤ j) → s1 j = s j := by
  induction i with
  | zero =>
    intro s n h
    have := decimal_length_pos n
    simp [decimalLen] at h
    rw [h] at this; simp at this
  | succ i ih =>
    intro s n h
    rw [sPrintUintLoop]
    by_cases hn : n < 10
    · have h0 : n / 10 = 0 := by omega
      have hi : i = 0 := by
        rw [decimalLen_lt_ten n hn] at h; omega
      subst hi
      refine ⟨s.set (base + 0) (n % 10 + 48), by simp [h0], ?_, ?_⟩
      · simp [Buf.read, Buf.set, decimal_lt_ten n hn, Nat.mod_eq_of_lt hn, List.range_succ]
      · intro j hj
        simp only [Buf.set]
        rw [if_neg (by omega)]
    · have h0 : n / 10 ≠ 0 := by omega
      have hlen : decimalLen (n / 10) = i := by
        rw [decimalLen_ge_ten n (by omega)] at h; omega
      obtain ⟨s1, h1, h2, h3⟩ := ih (s.set (base + i) (n % 10 + 48)) (n / 10) hlen
      refine ⟨s1, by simp [h0, h1], ?_, ?_⟩
      · rw [Buf.read_succ, h2, h3 (base + i) (Or.inr (Nat.le_refl _)),
          decimal_ge_ten n (by omega)]
        simp [Buf.set]
      · intro j hj
        rw [h3 j (by omega)]
        simp only [Buf.set]
        rw [if_neg (by omega)]

theorem log10Len_of_lt (value : Nat) (h : value < 2 ^ 53) : log10Len value = decimalLen value := by
  rw [log10Len, roundNE_of_lt value h]

theorem sPrintUint_spec (s : Buf) (base value : Nat) (h : value < 2 ^ 53) :
    ∃ s1, sPrintUint s base value = .ok (s1, (decimal value).length) ∧
      s1.read base (decimal value).length = decimal value ∧
      ∀ j, j < base → s1 j = s j := by
  have hlen : (if value ≠ 0 then log10Len value else 1) = decimalLen value := by
    by_cases h0 : value = 0
    · subst h0; simp [decimalLen_lt_ten]
    · simp [h0, log10Len_of_lt value h]
  obtain ⟨s1, h1, h2, h3⟩ :=
    sPrintUintLoop_spec base (decimalLen value) (s.set (base + decimalLen value) 0) value rfl
  refine ⟨s1, ?_, h2, ?_⟩
  · simp only [sPrintUint, hlen, h1]; rfl
  · intro j hj
    rw [h3 j (Or.inl hj)]
    simp only [Buf.set]
    rw [if_neg (by omega)]

theorem Writer.writeUint_spec (w : Writer) (value : Nat) (h : value < 2 ^ 53) :
    ∃ buf, w.writeUint value = .ok { w with mDevice := w.mDevice ++ decimal value, mBuf := buf } := by
  obtain ⟨s1, h1, h2, _⟩ := sPrintUint_spec w.mBuf 0 value h
  exact ⟨s1, by simp [Writer.writeUint, h1, h2]⟩

/-! ## Cross-reference sections -/

theorem xrefRecord_length (e : XRefEntry) : (xrefRecord e).length = 20 := by
  simp [xrefRecord]

theorem Buf.setList_read (data : Bytes) :
    ∀ (buf : Buf) (pos : Nat),
      (buf.setList pos data).read 0 (pos + data.length) = buf.read 0 pos ++ data := by
  induction data with
  | nil => intro buf pos; simp [Buf.setList]
  | cons c rest ih =>
    intro buf pos
    rw [Buf.setList]
    have h := ih (buf.set pos c) (pos + 1)
    have e1 : pos + (c :: rest).length = pos + 1 + rest.length := by simp; omega
    rw [e1, h, Buf.read_succ]
    have e2 : (buf.set pos c).read 0 pos = buf.read 0 pos := by
      apply Buf.read_congr
      intro j _ hj
      simp only [Buf.set]
      rw [if_neg (by omega)]
    rw [e2]
    simp [Buf.set]

theorem xrefFill_spec (todo : Nat) :
    ∀ (buf : Buf) (pos : Nat) (it : XRefTable), todo ≤ it.length → 20 ∣ pos → pos ≤ bufSize →
      ∃ buf1 k, k ≤ todo ∧ (0 < todo → pos < bufSize → 0 < k) ∧
        xrefFill todo buf pos it = .ok (buf1, pos + 20 * k, it.drop k, todo - k) ∧
        buf1.read 0 (pos + 20 * k) =
          buf.read 0 pos ++ (it.take k).flatMap (fun x => xrefRecord x.2) := by
  induction todo with
  | zero =>
    intro buf pos it _ _ _
    exact ⟨buf, 0, by simp, by simp, by simp [xrefFill], by simp⟩
  | succ todo ih =>
    intro buf pos it hlen hdvd hpos
    unfold xrefFill
    by_cases hp : pos < bufSize
    · simp only [hp, if_true]
      cases it with
      | nil => simp at hlen
      | cons e rest =>
        have h20 : pos + 20 ≤ bufSize := by
          obtain ⟨c, hc⟩ := hdvd
          simp only [bufSize] at hp ⊢
          omega
        simp only [storeRecord, h20, if_true]
        obtain ⟨buf1, k, hk, _, h2, h3⟩ := ih (buf.setList pos (xrefRecord e.2)) (pos + 20) rest
          (by simpa using hlen) (Dvd.dvd.add hdvd (dvd_refl 20)) h20
        refine ⟨buf1, k + 1, by omega, by intros; omega, ?_, ?_⟩
        · rw [h2]
          have e1 : pos + 20 + 20 * k = pos + 20 * (k + 1) := by ring
          rw [e1, Nat.add_sub_add_right, List.drop_succ_cons]
        · have e1 : pos + 20 * (k + 1) = pos + 20 + 20 * k := by ring
          rw [e1, h3]
          have e3 := Buf.setList_read (xrefRecord e.2) buf pos
          rw [xrefRecord_length] at e3
          rw [e3]
          simp
    · refine ⟨buf, 0, by omega, fun _ h => absurd h hp, ?_, by simp⟩
      simp [hp]

theorem xrefFlushLoop_spec (fuel : Nat) :
    ∀ (todo : Nat) (w : Writer) (buf : Buf) (it : XRefTable), todo ≤ fuel → todo ≤ it.length →
      xrefFlushLoop fuel todo w buf it =
        .ok { w with mDevice := w.mDevice ++ (it.take todo).flatMap (fun x => xrefRecord x.2) } := by
  induction fuel with
  | zero =>
    intro todo w buf it h _
    have : todo = 0 := by omega
    subst this
    simp [xrefFlushLoop]
  | succ fuel ih =>
    intro todo w buf it hf hlen
    cases todo with
    | zero => simp [xrefFlushLoop]
    | succ todo =>
      rw [xrefFlushLoop]
      obtain ⟨buf1, k, hk, hpos, h2, h3⟩ := xrefFill_spec (todo + 1) buf 0 it hlen (dvd_zero 20)
        (by simp [bufSize])
      have hk0 : 0 < k := hpos (by omega) (by simp [bufSize])
      simp only [h2]
      rw [ih (todo + 1 - k) _ buf1 (it.drop k) (by omega) (by simp; omega)]
      have e0 : buf.read 0 0 = [] := by simp [Buf.read]
      have e1 : todo + 1 = k + (todo + 1 - k) := by omega
      simp only [Writer.deviceWrite, h3, e0, List.nil_append, List.append_assoc]
      conv_rhs => rw [e1, List.take_add, List.flatMap_append]

theorem Writer.writeXrefSection_spec (w : Writer) (e : Nat × XRefEntry) (rest : XRefTable)
    (count : Nat) (hc : count ≤ (e :: rest).length) (ho : e.2.objNum < 2 ^ 53)
    (hc2 : count < 2 ^ 53) :
    ∃ buf, w.writeXrefSection (e :: rest) count =
      .ok { w with
        mDevice := w.mDevice ++ (decimal e.2.objNum ++ [32] ++ decimal count ++ [10] ++
          ((e :: rest).take count).flatMap (fun x => xrefRecord x.2))
        mBuf := buf } := by
  obtain ⟨b1, h1⟩ := w.writeUint_spec e.2.objNum ho
  obtain ⟨b2, h2⟩ := (Writer.writeChar
    { w with mDevice := w.mDevice ++ decimal e.2.objNum, mBuf := b1 } 32).writeUint_spec count hc2
  refine ⟨b2, ?_⟩
  simp only [Writer.writeXrefSection, h1, bind, Except.bind, h2]
  rw [xrefFlushLoop_spec count count _ _ _ (Nat.le_refl _) hc]
  simp [Writer.writeChar, Writer.deviceWrite]

/-! ## Runs of consecutive object numbers -/

theorem xrefRuns_cons (e : Nat × XRefEntry) (rest : XRefTable) :
    xrefRuns (e :: rest) = (e :: (runSpan e.1 rest).1) :: xrefRuns (runSpan e.1 rest).2 := by
  induction rest generalizing e with
  | nil => simp [xrefRuns, runSpan]
  | cons f rest ih =>
    rw [xrefRuns, ih f]
    by_cases h : f.1 = e.1 + 1
    · simp [runSpan, h]
    · simp [runSpan, h, ih f]

theorem runSpan_append (prev : Nat) (l : XRefTable) :
    (runSpan prev l).1 ++ (runSpan prev l).2 = l := by
  induction l generalizing prev with
  | nil => simp [runSpan]
  | cons f rest ih =>
    by_cases h : f.1 = prev + 1
    · simp [runSpan, h, ih (prev + 1)]
    · simp [runSpan, h]

theorem runSpan_length (prev : Nat) (l : XRefTable) :
    (runSpan prev l).1.length + (runSpan prev l).2.length = l.length := by
  have h := congrArg List.length (runSpan_append prev l)
  simpa using h

theorem xrefScan_eq (l : XRefTable) :
    ∀ prev : Nat, prev < 2 ^ 32 → (∀ e ∈ l, prev < e.1 ∧ e.2.objNum = e.1 ∧ e.1 < 2 ^ 32) →
      l.Pairwise (fun a b => a.1 < b.1) →
      xrefScan prev l = (prev + (runSpan prev l).1.length, (runSpan prev l).2) := by
  induction l with
  | nil => intro prev _ _ _; simp [xrefScan, runSpan]
  | cons f rest ih =>
    intro prev hp hall hsort
    obtain ⟨h1, h2, h3⟩ := hall f (by simp)
    rw [List.pairwise_cons] at hsort
    have hmod : (f.2.objNum + 2 ^ 32 - prev) % 2 ^ 32 = f.1 - prev := by
      rw [h2]
      have e1 : f.1 + 2 ^ 32 - prev = (f.1 - prev) + 2 ^ 32 := by omega
      rw [e1, Nat.add_mod_right, Nat.mod_eq_of_lt (by omega)]
    rw [xrefScan, hmod]
    by_cases h : f.1 = prev + 1
    · have hr := ih f.1 h3 (fun e he => ⟨hsort.1 e he, (hall e (by simp [he])).2⟩) hsort.2
      rw [if_neg (by omega), h2, hr]
      simp [runSpan, h]
      omega
    · rw [if_pos (by omega)]
      simp [runSpan, h]

theorem xrefScan_start (e : Nat × XRefEntry) (rest : XRefTable) (he : e.2.objNum = e.1)
    (h32 : e.1 < 2 ^ 32) (hall : ∀ x ∈ rest, e.1 < x.1 ∧ x.2.objNum = x.1 ∧ x.1 < 2 ^ 32)
    (hsort : rest.Pairwise (fun a b => a.1 < b.1)) :
    xrefScan e.2.objNum (e :: rest) = (e.1 + (runSpan e.1 rest).1.length, (runSpan e.1 rest).2) := by
  rw [xrefScan, he]
  have : (e.1 + 2 ^ 32 - e.1) % 2 ^ 32 = 0 := by
    rw [Nat.add_sub_cancel_left]; exact Nat.mod_self _
  rw [this, if_neg (by omega)]
  exact xrefScan_eq rest e.1 h32 hall hsort

theorem writeXrefTableLoop_spec (fuel : Nat) :
    ∀ (l : XRefTable) (w : Writer), l.length ≤ fuel → l.Pairwise (fun a b => a.1 < b.1) →
      (∀ e ∈ l, e.2.objNum = e.1 ∧ e.1 < 2 ^ 32) → l.length < 2 ^ 32 →
      ∃ buf, writeXrefTableLoop fuel w l =
        .ok { w with mDevice := w.mDevice ++ (xrefRuns l).flatMap xrefSectionBytes, mBuf := buf } := by
  induction fuel with
  | zero =>
    intro l w hl _ _ _
    have : l = [] := List.length_eq_zero.mp (by omega)
    subst this
    exact ⟨w.mBuf, by simp [writeXrefTableLoop, xrefRuns]⟩
  | succ fuel ih =>
    intro l w hl hsort hall hlen
    cases l with
    | nil => exact ⟨w.mBuf, by simp [writeXrefTableLoop, xrefRuns]⟩
    | cons e rest =>
      obtain ⟨he, h32⟩ := hall e (by simp)
      rw [List.pairwise_cons] at hsort
      have hall2 : ∀ x ∈ rest, e.1 < x.1 ∧ x.2.objNum = x.1 ∧ x.1 < 2 ^ 32 :=
        fun x hx => ⟨hsort.1 x hx, hall x (by simp [hx])⟩
      have hscan := xrefScan_start e rest he h32 hall2 hsort.2
      have happ := runSpan_append e.1 rest
      have hrl := runSpan_length e.1 rest
      simp only [List.length_cons] at hl hlen
      have hcount : (e.1 + (runSpan e.1 rest).1.length + 2 ^ 32 - e.2.objNum + 1) % 2 ^ 32 =
          (runSpan e.1 rest).1.length + 1 := by
        rw [he]
        have e1 : e.1 + (runSpan e.1 rest).1.length + 2 ^ 32 - e.1 + 1 =
            ((runSpan e.1 rest).1.length + 1) + 2 ^ 32 := by omega
        rw [e1, Nat.add_mod_right, Nat.mod_eq_of_lt (by omega)]
      obtain ⟨b1, h1⟩ := w.writeXrefSection_spec e rest ((runSpan e.1 rest).1.length + 1)
        (by simp only [List.length_cons]; omega) (by rw [he]; omega) (by omega)
      have hsub : ∀ x ∈ (runSpan e.1 rest).2, x ∈ rest := by
        intro x hx; rw [← happ]; exact List.mem_append_right _ hx
      have hsort2 : (runSpan e.1 rest).2.Pairwise (fun a b => a.1 < b.1) := by
        have := hsort.2
        rw [← happ, List.pairwise_append] at this
        exact this.2.1
      obtain ⟨b2, h2⟩ := ih (runSpan e.1 rest).2
        { w with
          mDevice := w.mDevice ++ (decimal e.2.objNum ++ [32] ++
            decimal ((runSpan e.1 rest).1.length + 1) ++ [10] ++
            ((e :: rest).take ((runSpan e.1 rest).1.length + 1)).flatMap (fun x => xrefRecord x.2))
          mBuf := b1 }
        (by omega) hsort2 (fun x hx => hall x (by simp [hsub x hx])) (by omega)
      refine ⟨b2, ?_⟩
      rw [writeXrefTableLoop, hscan]
      simp only [hcount, h1, h2]
      rw [xrefRuns_cons]
      have htake : (e :: rest).take ((runSpan e.1 rest).1.length + 1) = e :: (runSpan e.1 rest).1 := by
        rw [List.take_succ_cons]
        have ht := @List.take_left _ (runSpan e.1 rest).1 (runSpan e.1 rest).2
        rw [happ] at ht
        rw [ht]
      simp [htake, xrefSectionBytes, he]

theorem xrefRuns_flatten (l : XRefTable) : (xrefRuns l).flatten = l := by
  induction l with
  | nil => simp [xrefRuns]
  | cons e rest ih =>
    rw [xrefRuns]
    split
    · rename_i f sec secs heq
      rw [heq] at ih
      split <;> simp_all
    · rename_i hne
      cases rest with
      | nil => simp
      | cons f rest2 =>
        rw [xrefRuns_cons] at hne
        exact absurd rfl (hne _ _ _)

theorem xrefRuns_consecutive (l : XRefTable) :
    ∀ sec ∈ xrefRuns l, sec ≠ [] ∧ sec.Chain' (fun a b => b.1 = a.1 + 1) := by
  induction l with
  | nil => simp [xrefRuns]
  | cons e rest ih =>
    rw [xrefRuns]
    split
    · rename_i f sec secs heq
      rw [heq] at ih
      have hf := ih (f :: sec) (by simp)
      split
      · rename_i hfe
        intro s hs
        rcases List.mem_cons.mp hs with h | h
        · subst h
          exact ⟨by simp, List.Chain'.cons hfe hf.2⟩
        · exact ih s (by simp [h])
      · intro s hs
        rcases List.mem_cons.mp hs with h | h
        · subst h; simp
        · exact ih s h
    · intro s hs
      simp at hs
      subst hs; simp

theorem xrefRuns_maximal (l : XRefTable) (hsort : l.Pairwise (fun a b => a.1 < b.1)) :
    (xrefRuns l).Chain' (fun s1 s2 => ∀ a ∈ s1.getLast?, ∀ b ∈ s2.head?, a.1 + 1 < b.1) := by
  induction l with
  | nil => simp [xrefRuns]
  | cons e rest ih =>
    rw [List.pairwise_cons] at hsort
    have ih2 := ih hsort.2
    rw [xrefRuns]
    split
    · rename_i f sec secs heq
      rw [heq] at ih2
      have hfmem : f ∈ rest := by
        have := xrefRuns_flatten rest
        rw [heq] at this
        rw [← this]; simp
      split
      · cases secs with
        | nil => simp
        | cons s2 secs2 =>
          rw [List.chain'_cons] at ih2 ⊢
          refine ⟨?_, ih2.2⟩
          intro a ha b hb
          apply ih2.1 a _ b hb
          simpa [List.getLast?_cons_cons] using ha
      · rename_i hne
        rw [List.chain'_cons]
        refine ⟨?_, ih2⟩
        intro a ha b hb
        simp at ha hb
        subst ha; subst hb
        have := hsort.1 f hfmem
        omega
    · simp

theorem Writer.writeXrefTable_eq (w : Writer) (h : w.mXRefTable.WF) :
    ∃ buf, w.writeXrefTable = .ok
      { w with
        mDevice := w.mDevice ++ bytes "xref\n" ++ (xrefRuns w.mXRefTable).flatMap xrefSectionBytes
        mXRefPos := w.mDevice.length
        mBuf := buf } := by
  obtain ⟨hsort, hall, hlen⟩ := h
  obtain ⟨buf, hb⟩ := writeXrefTableLoop_spec w.mXRefTable.length w.mXRefTable
    (Writer.writeCStr { w with mXRefPos := w.mDevice.length } "xref\n")
    (Nat.le_refl _) hsort hall (by omega)
  refine ⟨buf, ?_⟩
  simp only [Writer.writeXrefTable, hb]
  simp [Writer.writeCStr, Writer.deviceWrite]

/-! ## Zero-padded decimal fields -/

theorem fixedDecimal_length (width n : Nat) : (fixedDecimal width n).length = width := by
  induction width generalizing n with
  | zero => simp [fixedDecimal]
  | succ width ih => simp [fixedDecimal, ih]

theorem padDecimal_eq_fixed (width : Nat) :
    ∀ n, n < 10 ^ (width + 1) → padDecimal (width + 1) n = fixedDecimal (width + 1) n := by
  induction width with
  | zero =>
    intro n hn
    have hn : n < 10 := by simpa using hn
    simp [padDecimal, fixedDecimal, decimal_lt_ten n hn, Nat.mod_eq_of_lt hn]
  | succ width ih =>
    intro n hn
    rw [fixedDecimal]
    by_cases h10 : n < 10
    · have hz : n / 10 = 0 := by omega
      rw [hz, ← ih 0 (by positivity)]
      simp [padDecimal, decimal_lt_ten n h10, decimal_lt_ten 0 (by norm_num),
        Nat.mod_eq_of_lt h10, List.replicate_succ']
    · have hq : n / 10 < 10 ^ (width + 1) := by
        rw [pow_succ] at hn; omega
      have hlen := congrArg List.length (ih (n / 10) hq)
      rw [fixedDecimal_length] at hlen
      rw [← ih (n / 10) hq, padDecimal, padDecimal, decimal_ge_ten n (by omega)]
      simp only [List.length_append, List.length_singleton, List.append_assoc]
      congr 2
      omega

theorem padDecimal_length (width n : Nat) (h : n < 10 ^ (width + 1)) :
    (padDecimal (width + 1) n).length = width + 1 := by
  rw [padDecimal_eq_fixed width n h, fixedDecimal_length]

theorem xrefRecord_eq_fixed (e : XRefEntry) :
    xrefRecord e = fixedDecimal 10 e.pos ++ [32] ++ fixedDecimal 5 e.genNum ++ [32, 110, 32, 10] := by
  simp [xrefRecord, fixedDecimal, Nat.div_div_eq_div_mul]

/-- C1: after "xref\n", `writeXrefTable` emits one subsection for every maximal
run of consecutive object numbers of the table taken in ascending order: the
subsections split the entries in order (`flatten`), inside a subsection every
object number is the previous one plus one, the first object number of a
subsection is more than one above the last of the subsection before it, and each
subsection is the header `<first objNum> <run length>` followed by its records.
For the object numbers 0, 1, 2, 5, 6 the headers are "0 3" and "5 2". -/
theorem writeXrefTable_subsections :
    (∀ w : Writer, w.mXRefTable.WF →
      ∃ (secs : List XRefTable) (w1 : Writer),
        w.writeXrefTable = .ok w1 ∧
        w1.mDevice = w.mDevice ++ bytes "xref\n" ++ secs.flatMap xrefSectionBytes ∧
        secs.flatten = w.mXRefTable ∧
        (∀ sec ∈ secs, sec ≠ [] ∧ sec.Chain' (fun a b => b.1 = a.1 + 1)) ∧
        secs.Chain' (fun s1 s2 => ∀ a ∈ s1.getLast?, ∀ b ∈ s2.head?, a.1 + 1 < b.1)) ∧
    (∀ (w : Writer) (pos gen : Nat → Nat) (ty : Nat → XRefType),
      ∃ w1, Writer.writeXrefTable { w with mXRefTable := xrefExample pos gen ty } = .ok w1 ∧
        w1.mDevice = w.mDevice ++ bytes "xref\n" ++
          bytes "0 3\n" ++ xrefRecord ⟨pos 0, 0, gen 0, ty 0⟩ ++ xrefRecord ⟨pos 1, 1, gen 1, ty 1⟩ ++
            xrefRecord ⟨pos 2, 2, gen 2, ty 2⟩ ++
          bytes "5 2\n" ++ xrefRecord ⟨pos 5, 5, gen 5, ty 5⟩ ++ xrefRecord ⟨pos 6, 6, gen 6, ty 6⟩) := by
  constructor
  · intro w h
    obtain ⟨buf, hb⟩ := w.writeXrefTable_eq h
    exact ⟨xrefRuns w.mXRefTable, _, hb, rfl, xrefRuns_flatten _, xrefRuns_consecutive _,
      xrefRuns_maximal _ h.1⟩
  · intro w pos gen ty
    have hwf : XRefTable.WF (xrefExample pos gen ty) := by
      simp [XRefTable.WF, xrefExample]
    obtain ⟨buf, hb⟩ := Writer.writeXrefTable_eq { w with mXRefTable := xrefExample pos gen ty } hwf
    refine ⟨_, hb, ?_⟩
    have d0 : decimal 0 = [48] := by decide
    have d2 : decimal 2 = [50] := by decide
    have d3 : decimal 3 = [51] := by decide
    have d5 : decimal 5 = [53] := by decide
    have b1 : bytes "0 3\n" = [48, 32, 51, 10] := by decide
    have b2 : bytes "5 2\n" = [53, 32, 50, 10] := by decide
    simp [xrefExample, xrefRuns, xrefSectionBytes, d0, d2, d3, d5, b1, b2]

theorem writeXrefTable_subsections_witness :
    ∃ (secs : List XRefTable) (w1 : Writer),
      (Writer.new [] (fun _ => 0)).writeXrefTable = .ok w1 ∧
      w1.mDevice = (Writer.new [] (fun _ => 0)).mDevice ++ bytes "xref\n" ++
        secs.flatMap xrefSectionBytes ∧
      secs.flatten = (Writer.new [] (fun _ => 0)).mXRefTable ∧
      (∀ sec ∈ secs, sec ≠ [] ∧ sec.Chain' (fun a b => b.1 = a.1 + 1)) ∧
      secs.Chain' (fun s1 s2 => ∀ a ∈ s1.getLast?, ∀ b ∈ s2.head?, a.1 + 1 < b.1) :=
  writeXrefTable_subsections.1 (Writer.new [] (fun _ => 0)) (by decide)

/-- C2 (the code at the failing input): whatever the state of the entry, byte 17
of its record is 'n'; the record of the object-0 sentinel (Free, generation
65535, offset 0) is "0000000000 65535 n \n", and a fresh writer emits it. -/
theorem xrefRecord_flag_always_n :
    (∀ e : XRefEntry, (xrefRecord e)[17]? = some 110) ∧
    xrefRecord ⟨0, 0, 65535, XRefType.Free⟩ = bytes "0000000000 65535 n \n" ∧
    (Writer.new [] (fun _ => 0)).mXRefTable = [(0, ⟨0, 0, 65535, XRefType.Free⟩)] ∧
    ((Writer.new [] (fun _ => 0)).writeXrefTable).map (fun w => w.mDevice) =
      .ok (bytes "xref\n0 1\n0000000000 65535 n \n") := by
  refine ⟨fun e => by simp [xrefRecord], by decide, by decide, by decide!⟩

/-- C3: for an entry with `pos < 10^10` and a 16-bit generation number the
record is the 10-digit zero-padded decimal of `pos`, a space, the 5-digit
zero-padded decimal of `genNum`, a space, the flag character, a space and a
newline, 20 bytes in all; and `writeXrefSection` for `count` entries appends its
header line and then exactly `20 * count` record bytes. -/
theorem xrefRecord_layout :
    (∀ e : XRefEntry, e.pos < 10 ^ 10 → e.genNum < 2 ^ 16 →
      xrefRecord e = padDecimal 10 e.pos ++ [32] ++ padDecimal 5 e.genNum ++ [32, 110, 32, 10] ∧
      (padDecimal 10 e.pos).length = 10 ∧ (padDecimal 5 e.genNum).length = 5 ∧
      (xrefRecord e).length = 20) ∧
    (∀ (w : Writer) (e : Nat × XRefEntry) (rest : XRefTable) (count : Nat),
      count ≤ (e :: rest).length → e.2.objNum < 2 ^ 32 → count < 2 ^ 32 →
      ∃ (w1 : Writer) (records : Bytes),
        w.writeXrefSection (e :: rest) count = .ok w1 ∧
        w1.mDevice = w.mDevice ++ (decimal e.2.objNum ++ [32] ++ decimal count ++ [10]) ++ records ∧
        records = ((e :: rest).take count).flatMap (fun x => xrefRecord x.2) ∧
        records.length = 20 * count) := by
  constructor
  · intro e hp hg
    have hg5 : e.genNum < 10 ^ 5 := by omega
    refine ⟨?_, padDecimal_length 9 _ hp, padDecimal_length 4 _ hg5, xrefRecord_length e⟩
    rw [padDecimal_eq_fixed 9 _ hp, padDecimal_eq_fixed 4 _ hg5]
    exact xrefRecord_eq_fixed e
  · intro w e rest count hc ho hc2
    obtain ⟨buf, hb⟩ := w.writeXrefSection_spec e rest count hc (by omega) (by omega)
    refine ⟨_, _, hb, by simp, rfl, ?_⟩
    have hl : ∀ l : XRefTable, (l.flatMap (fun x => xrefRecord x.2)).length = 20 * l.length := by
      intro l
      induction l with
      | nil => simp
      | cons x xs ih => simp [List.flatMap_cons, xrefRecord_length, ih]; omega
    rw [hl, List.length_take, Nat.min_eq_left hc]

theorem xrefRecord_layout_witness :
    (65 : Nat) < 10 ^ 10 ∧ (7 : Nat) < 2 ^ 16 ∧
    xrefRecord ⟨65, 2, 7, XRefType.Used⟩ =
      padDecimal 10 65 ++ [32] ++ padDecimal 5 7 ++ [32, 110, 32, 10] ∧
    (padDecimal 10 65).length = 10 ∧ (padDecimal 5 7).length = 5 ∧
    (xrefRecord ⟨65, 2, 7, XRefType.Used⟩).length = 20 :=
  ⟨by norm_num, by norm_num,
    xrefRecord_layout.1 ⟨65, 2, 7, XRefType.Used⟩ (by norm_num) (by norm_num)⟩

/-! ## Frames: what an operation leaves alone -/

theorem Writer.Frame.refl (w : Writer) : w.Frame w :=
  ⟨List.prefix_refl _, rfl, rfl⟩

theorem Writer.Frame.trans {w w1 w2 : Writer} (h1 : w.Frame w1) (h2 : w1.Frame w2) : w.Frame w2 :=
  ⟨h1.1.trans h2.1, h2.2.1.trans h1.2.1, h2.2.2.trans h1.2.2⟩

theorem Writer.deviceWrite_frame (w : Writer) (data : Bytes) : w.Frame (w.deviceWrite data) :=
  ⟨List.prefix_append _ _, rfl, rfl⟩

theorem Writer.writeChar_frame (w : Writer) (c : Nat) : w.Frame (w.writeChar c) :=
  w.deviceWrite_frame _

theorem Writer.writeCStr_frame (w : Writer) (s : String) : w.Frame (w.writeCStr s) :=
  w.deviceWrite_frame _

theorem Writer.writeQString_frame (tl : QString → Bytes) (w : Writer) (s : QString) :
    w.Frame (w.writeQString tl s) :=
  w.deviceWrite_frame _

theorem Writer.writeUint_frame (w w1 : Writer) (value : Nat) (h : w.writeUint value = .ok w1) :
    w.Frame w1 := by
  unfold Writer.writeUint at h
  split at h
  · exact absurd h (by simp)
  · injection h with h
    subst h
    exact ⟨List.prefix_append _ _, rfl, rfl⟩

theorem Writer.writeDouble_frame (w w1 : Writer) (value : Double) (h : w.writeDouble value = .ok w1) :
    w.Frame w1 := by
  unfold Writer.writeDouble at h
  split at h
  · exact absurd h (by simp)
  · injection h with h
    subst h
    exact ⟨List.prefix_append _ _, rfl, rfl⟩

theorem Res.bind_ok {α β : Type} (x : Res α) (f : α → Res β) (b : β) (h : x >>= f = .ok b) :
    ∃ a, x = .ok a ∧ f a = .ok b := by
  cases x with
  | error e => simp [bind, Except.bind] at h
  | ok a => exact ⟨a, rfl, h⟩

theorem Res.exists_ok {α : Type} (r : Res α) (h : r.toBool = true) : ∃ a, r = .ok a := by
  cases r with
  | ok a => exact ⟨a, rfl⟩
  | error e => simp [Except.toBool] at h

mutual
theorem Writer.writeValue_frame (tl : QString → Bytes) :
    ∀ (v : Value) (w w1 : Writer), w.writeValue tl v = .ok w1 → w.Frame w1
  | .Array values, w, w1, h => by
    rw [Writer.writeValue] at h
    obtain ⟨w2, h2, h3⟩ := Res.bind_ok _ _ _ h
    injection h3 with h3
    subst h3
    exact ((w.writeCStr_frame _).trans (Writer.writeArrayItems_frame tl values _ _ h2)).trans
      (w2.writeCStr_frame _)
  | .Bool value, w, w1, h => by
    rw [Writer.writeValue] at h
    injection h with h
    subst h
    split <;> exact w.writeCStr_frame _
  | .Dict values, w, w1, h => by
    rw [Writer.writeValue] at h
    obtain ⟨w2, h2, h3⟩ := Res.bind_ok _ _ _ h
    injection h3 with h3
    subst h3
    exact ((w.writeCStr_frame _).trans (Writer.writeDictItems_frame tl values _ _ h2)).trans
      (w2.writeCStr_frame _)
  | .HexString value, w, w1, h => by
    rw [Writer.writeValue] at h
    injection h with h
    subst h
    exact ((w.writeChar_frame _).trans (Writer.deviceWrite_frame _ _)).trans
      (Writer.writeChar_frame _ _)
  | .Link link, w, w1, h => by
    rw [Writer.writeValue] at h
    obtain ⟨w2, h2, h3⟩ := Res.bind_ok _ _ _ h
    obtain ⟨w3, h4, h5⟩ := Res.bind_ok _ _ _ h3
    injection h5 with h5
    subst h5
    exact (((w.writeUint_frame _ _ h2).trans (w2.writeCStr_frame _)).trans
      (Writer.writeUint_frame _ _ _ h4)).trans (w3.writeCStr_frame _)
  | .LiteralString value, w, w1, h => by
    rw [Writer.writeValue] at h
    injection h with h
    subst h
    exact ((w.writeCStr_frame _).trans (Writer.deviceWrite_frame _ _)).trans
      (Writer.writeCStr_frame _ _)
  | .Name value, w, w1, h => by
    rw [Writer.writeValue] at h
    injection h with h
    subst h
    exact (w.writeCStr_frame _).trans (Writer.deviceWrite_frame _ _)
  | .Null, w, w1, h => by
    rw [Writer.writeValue] at h
    injection h with h
    subst h
    exact w.writeCStr_frame _
  | .Number value, w, w1, h => by
    rw [Writer.writeValue] at h
    exact w.writeDouble_frame _ _ h
  | .Unknown tag, w, w1, h => by
    rw [Writer.writeValue] at h
    exact absurd h (by simp)
theorem Writer.writeArrayItems_frame (tl : QString → Bytes) :
    ∀ (vs : List Value) (w w1 : Writer), w.writeArrayItems tl vs = .ok w1 → w.Frame w1
  | [], w, w1, h => by
    rw [Writer.writeArrayItems] at h
    injection h with h
    subst h
    exact Writer.Frame.refl _
  | v :: rest, w, w1, h => by
    rw [Writer.writeArrayItems] at h
    obtain ⟨w2, h2, h3⟩ := Res.bind_ok _ _ _ h
    exact ((Writer.writeValue_frame tl v _ _ h2).trans (w2.writeCStr_frame _)).trans
      (Writer.writeArrayItems_frame tl rest _ _ h3)
theorem Writer.writeDictItems_frame (tl : QString → Bytes) :
    ∀ (kvs : List (QString × Value)) (w w1 : Writer), w.writeDictItems tl kvs = .ok w1 → w.Frame w1
  | [], w, w1, h => by
    rw [Writer.writeDictItems] at h
    injection h with h
    subst h
    exact Writer.Frame.refl _
  | (key, value) :: rest, w, w1, h => by
    rw [Writer.writeDictItems] at h
    obtain ⟨w2, h2, h3⟩ := Res.bind_ok _ _ _ h
    exact (((((w.writeChar_frame _).trans (Writer.writeQString_frame tl _ _)).trans
      (Writer.writeChar_frame _ _)).trans (Writer.writeValue_frame tl value _ _ h2)).trans
      (w2.writeChar_frame _)).trans (Writer.writeDictItems_frame tl rest _ _ h3)
end

theorem xrefFlushLoop_frame (fuel : Nat) :
    ∀ (todo : Nat) (w w1 : Writer) (buf : Buf) (it : XRefTable),
      xrefFlushLoop fuel todo w buf it = .ok w1 → w.Frame w1 := by
  induction fuel with
  | zero =>
    intro todo w w1 buf it h
    cases todo with
    | zero =>
      simp only [xrefFlushLoop] at h
      injection h with h
      subst h
      exact Writer.Frame.refl _
    | succ todo => simp [xrefFlushLoop] at h
  | succ fuel ih =>
    intro todo w w1 buf it h
    cases todo with
    | zero =>
      simp only [xrefFlushLoop] at h
      injection h with h
      subst h
      exact Writer.Frame.refl _
    | succ todo =>
      rw [xrefFlushLoop] at h
      split at h
      · exact absurd h (by simp)
      · exact (Writer.deviceWrite_frame _ _).trans (ih _ _ _ _ _ h)

theorem Writer.writeXrefSection_frame (w w1 : Writer) (start : XRefTable) (count : Nat)
    (h : w.writeXrefSection start count = .ok w1) : w.Frame w1 := by
  unfold Writer.writeXrefSection at h
  split at h
  · exact absurd h (by simp)
  · obtain ⟨w2, h2, h3⟩ := Res.bind_ok _ _ _ h
    obtain ⟨w3, h4, h5⟩ := Res.bind_ok _ _ _ h3
    exact ((((w.writeUint_frame _ _ h2).trans (w2.writeChar_frame _)).trans
      (Writer.writeUint_frame _ _ _ h4)).trans (w3.writeChar_frame _)).trans
      (xrefFlushLoop_frame _ _ _ _ _ _ h5)

theorem writeXrefTableLoop_frame (fuel : Nat) :
    ∀ (w w1 : Writer) (l : XRefTable), writeXrefTableLoop fuel w l = .ok w1 → w.Frame w1 := by
  induction fuel with
  | zero =>
    intro w w1 l h
    cases l with
    | nil =>
      simp only [writeXrefTableLoop] at h
      injection h with h
      subst h
      exact Writer.Frame.refl _
    | cons e rest => simp [writeXrefTableLoop] at h
  | succ fuel ih =>
    intro w w1 l h
    cases l with
    | nil =>
      simp only [writeXrefTableLoop] at h
      injection h with h
      subst h
      exact Writer.Frame.refl _
    | cons e rest =>
      rw [writeXrefTableLoop] at h
      split at h
      · exact absurd h (by simp)
      · rename_i w2 h2
        exact (Writer.writeXrefSection_frame _ _ _ _ h2).trans (ih _ _ _ h)

theorem Writer.writeXrefTable_frame (w w1 : Writer) (h : w.writeXrefTable = .ok w1) :
    (w.mDevice ++ bytes "xref\n") <+: w1.mDevice ∧ w1.mXRefTable = w.mXRefTable ∧
      w1.mXRefPos = w.mDevice.length := by
  unfold Writer.writeXrefTable at h
  have hf := writeXrefTableLoop_frame _ _ _ _ h
  exact ⟨hf.1, hf.2.1, hf.2.2⟩

theorem Writer.writePDFHeader_frame (w : Writer) (major minor : Int) :
    w.Frame (w.writePDFHeader major minor) :=
  (w.deviceWrite_frame _).trans (Writer.deviceWrite_frame _ _)

theorem Writer.writeComment_frame (tl : QString → Bytes) (w : Writer) (c : QString) :
    w.Frame (w.writeComment tl c) :=
  ((w.writeCStr_frame _).trans (Writer.writeQString_frame tl _ _)).trans (Writer.writeChar_frame _ _)

theorem Writer.writeTrailerDict_eq (tl : QString → Bytes) (w w1 : Writer)
    (d : List (QString × Value)) (h : w.writeTrailerDict tl d = .ok w1) :
    ∃ mid, w1.mDevice = w.mDevice ++ bytes "\ntrailer\n" ++ mid ++ bytes "\nstartxref\n" ++
        decimal w.mXRefPos ++ bytes "\n%%EOF\n" ∧
      w1.mXRefTable = w.mXRefTable ∧ w1.mXRefPos = w.mXRefPos := by
  unfold Writer.writeTrailerDict at h
  obtain ⟨w2, h2, h3⟩ := Res.bind_ok _ _ _ h
  injection h3 with h3
  subst h3
  obtain ⟨⟨mid, hm⟩, ht, hp⟩ := Writer.writeValue_frame tl _ _ _ h2
  refine ⟨mid, ?_, ht, hp⟩
  have hp2 : w2.mXRefPos = w.mXRefPos := hp
  simp only [Writer.deviceWrite, ← hm, hp2]
  simp [Writer.writeCStr, Writer.deviceWrite]

theorem Writer.writeUint_ok (w w1 : Writer) (value : Nat) (hv : value < 2 ^ 53)
    (h : w.writeUint value = .ok w1) :
    w1.mDevice = w.mDevice ++ decimal value ∧ w1.mXRefTable = w.mXRefTable ∧
      w1.mXRefPos = w.mXRefPos := by
  obtain ⟨b, hb⟩ := w.writeUint_spec value hv
  rw [hb] at h
  injection h with h
  subst h
  exact ⟨rfl, rfl, rfl⟩

theorem Writer.writeObject_eq (tl : QString → Bytes) (w w1 : Writer) (o : Object) (ho : o.WF)
    (h : w.writeObject tl o = .ok w1) :
    (w.mDevice ++ [10] ++ decimal o.objNum ++ [32] ++ decimal o.genNum ++ bytes " obj\n")
        <+: w1.mDevice ∧
      w1.mXRefTable = QMap.insert o.objNum
        (XRefEntry.mk (w.mDevice.length + 1) o.objNum o.genNum XRefType.Used) w.mXRefTable ∧
      w1.mXRefPos = w.mXRefPos := by
  unfold Writer.writeObject at h
  obtain ⟨w3, h3, h⟩ := Res.bind_ok _ _ _ h
  obtain ⟨w4, h4, h⟩ := Res.bind_ok _ _ _ h
  obtain ⟨w5, h5, h⟩ := Res.bind_ok _ _ _ h
  obtain ⟨d3, t3, p3⟩ := Writer.writeUint_ok _ _ _ (by have := ho.1; omega) h3
  obtain ⟨d4, t4, p4⟩ := Writer.writeUint_ok _ _ _ (by have := ho.2; omega) h4
  have hf := Writer.writeValue_frame tl _ _ _ h5
  simp only [pure, Except.pure] at h
  injection h with h
  subst h
  have hfin : w5.Frame (Writer.writeCStr (if o.stream.length ≠ 0 then
      ((w5.writeCStr "\nstream\n").deviceWrite o.stream).writeCStr "\nendstream" else w5)
      "\nendobj\n") := by
    split
    · exact (((w5.writeCStr_frame _).trans (Writer.deviceWrite_frame _ _)).trans
        (Writer.writeCStr_frame _ _)).trans (Writer.writeCStr_frame _ _)
    · exact w5.writeCStr_frame _
  have hall := hf.trans hfin
  refine ⟨?_, ?_, ?_⟩
  · refine List.IsPrefix.trans ?_ hall.1
    simp [Writer.writeCStr, Writer.writeChar, Writer.deviceWrite, d4, d3]
  · rw [hall.2.1]
    simp [Writer.writeCStr, Writer.writeChar, Writer.deviceWrite, t4, t3]
  · rw [hall.2.2]
    simp [Writer.writeCStr, Writer.writeChar, Writer.deviceWrite, p4, p3]

/-! ## `QMap` -/

theorem QMap.find_insert_self {κ β : Type} [LinearOrder κ] [DecidableEq κ] (k : κ) (v : β) (l : List (κ × β)) :
    QMap.find k (QMap.insert k v l) = some v := by
  induction l with
  | nil => simp [QMap.insert, QMap.find]
  | cons e rest ih =>
    obtain ⟨k1, v1⟩ := e
    rw [QMap.insert]
    split
    · simp [QMap.find]
    · split
      · rename_i h1 h2
        rw [QMap.find, if_neg (ne_of_lt h2), ih]
      · simp [QMap.find]

theorem QMap.find_insert_ne {κ β : Type} [LinearOrder κ] [DecidableEq κ] (k k2 : κ) (v : β) (l : List (κ × β)) (h : k2 ≠ k) :
    QMap.find k (QMap.insert k2 v l) = QMap.find k l := by
  induction l with
  | nil => simp [QMap.insert, QMap.find, h]
  | cons e rest ih =>
    obtain ⟨k1, v1⟩ := e
    rw [QMap.insert]
    split
    · simp [QMap.find, h]
    · split
      · simp only [QMap.find, ih]
      · rename_i h1 h2
        have hk : k2 = k1 := le_antisymm (not_lt.mp h2) (not_lt.mp h1)
        subst hk
        simp [QMap.find, h]

theorem QMap.mem_insert {κ β : Type} [LinearOrder κ] (k : κ) (v : β) (l : List (κ × β)) (x : κ × β)
    (h : x ∈ QMap.insert k v l) : x = (k, v) ∨ x ∈ l := by
  induction l with
  | nil => simpa [QMap.insert] using h
  | cons e rest ih =>
    obtain ⟨k1, v1⟩ := e
    rw [QMap.insert] at h
    split at h
    · simpa using h
    · split at h
      · rcases List.mem_cons.mp h with h3 | h3
        · exact Or.inr (by simp [h3])
        · rcases ih h3 with h4 | h4
          · exact Or.inl h4
          · exact Or.inr (List.mem_cons_of_mem _ h4)
      · rcases List.mem_cons.mp h with h3 | h3
        · exact Or.inl h3
        · exact Or.inr (List.mem_cons_of_mem _ h3)

theorem QMap.insert_sorted {κ β : Type} [LinearOrder κ] (k : κ) (v : β) (l : List (κ × β))
    (h : l.Pairwise (fun a b => a.1 < b.1)) :
    (QMap.insert k v l).Pairwise (fun a b => a.1 < b.1) := by
  induction l with
  | nil => simp [QMap.insert]
  | cons e rest ih =>
    obtain ⟨k1, v1⟩ := e
    rw [List.pairwise_cons] at h
    rw [QMap.insert]
    split
    · rename_i h1
      rw [List.pairwise_cons]
      refine ⟨?_, List.pairwise_cons.mpr h⟩
      intro x hx
      rcases List.mem_cons.mp hx with h3 | h3
      · subst h3; exact h1
      · exact lt_trans h1 (h.1 x h3)
    · split
      · rename_i h1 h2
        rw [List.pairwise_cons]
        refine ⟨?_, ih h.2⟩
        intro x hx
        rcases QMap.mem_insert k v rest x hx with h3 | h3
        · subst h3; exact h2
        · exact h.1 x h3
      · rename_i h1 h2
        have hk : k = k1 := le_antisymm (not_lt.mp h2) (not_lt.mp h1)
        subst hk
        exact List.pairwise_cons.mpr h

theorem QMap.ofInserts_sorted {κ β : Type} [LinearOrder κ] (ins : List (κ × β)) :
    (QMap.ofInserts ins).Pairwise (fun a b => a.1 < b.1) := by
  have hgen : ∀ (l : List (κ × β)) (m : List (κ × β)), m.Pairwise (fun a b => a.1 < b.1) →
      (l.foldl (fun m kv => QMap.insert kv.1 kv.2 m) m).Pairwise (fun a b => a.1 < b.1) := by
    intro l
    induction l with
    | nil => intro m hm; simpa using hm
    | cons x xs ih => intro m hm; exact ih _ (QMap.insert_sorted _ _ _ hm)
  exact hgen ins [] List.Pairwise.nil

theorem QMap.find_eq_none {κ β : Type} [DecidableEq κ] (k : κ) (l : List (κ × β)) (h : ∀ x ∈ l, x.1 ≠ k) :
    QMap.find k l = none := by
  induction l with
  | nil => simp [QMap.find]
  | cons e rest ih =>
    obtain ⟨k1, v1⟩ := e
    rw [QMap.find, if_neg (h (k1, v1) (by simp))]
    exact ih (fun x hx => h x (List.mem_cons_of_mem _ hx))

theorem QMap.mem_of_find {κ β : Type} [DecidableEq κ] (k : κ) (v : β) (l : List (κ × β)) (h : QMap.find k l = some v) :
    (k, v) ∈ l := by
  induction l with
  | nil => simp [QMap.find] at h
  | cons e rest ih =>
    obtain ⟨k1, v1⟩ := e
    rw [QMap.find] at h
    split at h
    · rename_i h1
      injection h with h
      subst h; subst h1
      simp
    · exact List.mem_cons_of_mem _ (ih h)

theorem QMap.sorted_ext {κ β : Type} [LinearOrder κ] [DecidableEq κ] (l1 : List (κ × β)) :
    ∀ l2 : List (κ × β), l1.Pairwise (fun a b => a.1 < b.1) → l2.Pairwise (fun a b => a.1 < b.1) →
      (∀ k, QMap.find k l1 = QMap.find k l2) → l1 = l2 := by
  induction l1 with
  | nil =>
    intro l2 _ _ h
    cases l2 with
    | nil => rfl
    | cons e rest =>
      have := h e.1
      simp [QMap.find] at this
  | cons e1 r1 ih =>
    intro l2 h1 h2 h
    obtain ⟨k1, v1⟩ := e1
    cases l2 with
    | nil =>
      have := h k1
      simp [QMap.find] at this
    | cons e2 r2 =>
      obtain ⟨k2, v2⟩ := e2
      rw [List.pairwise_cons] at h1 h2
      have hn1 : QMap.find k1 r1 = none :=
        QMap.find_eq_none k1 r1 (fun x hx => ne_of_gt (h1.1 x hx))
      have hn2 : QMap.find k2 r2 = none :=
        QMap.find_eq_none k2 r2 (fun x hx => ne_of_gt (h2.1 x hx))
      have hk : k1 = k2 := by
        by_contra hne
        have e1 := h k1
        have e2 := h k2
        simp only [QMap.find, if_true, if_neg (Ne.symm hne)] at e1
        simp only [QMap.find, if_true, if_neg hne] at e2
        have m1 := h2.1 _ (QMap.mem_of_find k1 v1 r2 e1.symm)
        have m2 := h1.1 _ (QMap.mem_of_find k2 v2 r1 e2)
        exact absurd (lt_trans m1 m2) (lt_irrefl _)
      subst hk
      have hv : v1 = v2 := by
        have e1 := h k1
        simpa [QMap.find] using e1
      subst hv
      congr 1
      apply ih r2 h1.2 h2.2
      intro k
      by_cases hkk : k1 = k
      · subst hkk; rw [hn1, hn2]
      · have e1 := h k
        simpa [QMap.find, hkk] using e1

theorem QMap.count_le_one {κ β : Type} [LinearOrder κ] [DecidableEq κ] (k : κ) (l : List (κ × β)) (h : l.Pairwise (fun a b => a.1 < b.1)) :
    (l.filter (fun e => e.1 = k)).length ≤ 1 := by
  induction l with
  | nil => simp
  | cons e rest ih =>
    rw [List.pairwise_cons] at h
    by_cases hk : e.1 = k
    · have hnone : rest.filter (fun e => e.1 = k) = [] := by
        rw [List.filter_eq_nil_iff]
        intro x hx
        have := h.1 x hx
        simp only [decide_eq_true_eq]
        intro hx2
        rw [hx2, ← hk] at this
        exact absurd this (lt_irrefl _)
      simp [List.filter_cons, hk, hnone]
    · simp [List.filter_cons, hk, ih h.2]

theorem QMap.count_insert {κ β : Type} [LinearOrder κ] [DecidableEq κ] (k : κ) (v : β) (l : List (κ × β))
    (h : l.Pairwise (fun a b => a.1 < b.1)) :
    ((QMap.insert k v l).filter (fun e => e.1 = k)).length = 1 := by
  have h1 := QMap.count_le_one k _ (QMap.insert_sorted k v l h)
  have h2 : (k, v) ∈ (QMap.insert k v l).filter (fun e => e.1 = k) := by
    rw [List.mem_filter]
    exact ⟨QMap.mem_of_find k v _ (QMap.find_insert_self k v l), by simp⟩
  have h3 := List.length_pos_of_mem h2
  omega

/-! ## Sequences of calls -/

theorem Writer.writeObject_frame (tl : QString → Bytes) (w w1 : Writer) (o : Object)
    (h : w.writeObject tl o = .ok w1) :
    (w.mDevice ++ [10]) <+: w1.mDevice ∧
      w1.mXRefTable = QMap.insert o.objNum
        (XRefEntry.mk (w.mDevice.length + 1) o.objNum o.genNum XRefType.Used) w.mXRefTable ∧
      w1.mXRefPos = w.mXRefPos := by
  unfold Writer.writeObject at h
  obtain ⟨w3, h3, h⟩ := Res.bind_ok _ _ _ h
  obtain ⟨w4, h4, h⟩ := Res.bind_ok _ _ _ h
  obtain ⟨w5, h5, h⟩ := Res.bind_ok _ _ _ h
  have f3 := Writer.writeUint_frame _ _ _ h3
  have f4 := (Writer.writeChar_frame w3 32).trans (Writer.writeUint_frame _ _ _ h4)
  have f5 := (Writer.writeCStr_frame w4 " obj\n").trans (Writer.writeValue_frame tl _ _ _ h5)
  simp only [pure, Except.pure] at h
  injection h with h
  subst h
  have hfin : w5.Frame (Writer.writeCStr (if o.stream.length ≠ 0 then
      ((w5.writeCStr "\nstream\n").deviceWrite o.stream).writeCStr "\nendstream" else w5)
      "\nendobj\n") := by
    split
    · exact (((w5.writeCStr_frame _).trans (Writer.deviceWrite_frame _ _)).trans
        (Writer.writeCStr_frame _ _)).trans (Writer.writeCStr_frame _ _)
    · exact w5.writeCStr_frame _
  have hall := ((f3.trans f4).trans f5).trans hfin
  refine ⟨?_, ?_, ?_⟩
  · refine List.IsPrefix.trans ?_ hall.1
    simp [Writer.writeChar, Writer.deviceWrite]
  · rw [hall.2.1]
    simp [Writer.writeChar, Writer.deviceWrite]
  · rw [hall.2.2]
    simp [Writer.writeChar, Writer.deviceWrite]

theorem Writer.writeTrailer_frame (tl : QString → Bytes) (w w1 : Writer) (root info : Link)
    (uuid : Bytes) (h : w.writeTrailer tl root info uuid = .ok w1) : w.Frame w1 := by
  obtain ⟨mid, h1, h2, h3⟩ := Writer.writeTrailerDict_eq tl _ _ _ h
  exact ⟨⟨bytes "\ntrailer\n" ++ mid ++ bytes "\nstartxref\n" ++ decimal w.mXRefPos ++
    bytes "\n%%EOF\n", by rw [h1]; simp only [List.append_assoc]⟩, h2, h3⟩

theorem Writer.step_extends (tl : QString → Bytes) (w w1 : Writer) (op : Op)
    (h : w.step tl op = .ok w1) : w.mDevice <+: w1.mDevice := by
  cases op with
  | pdfHeader major minor =>
    simp only [Writer.step] at h
    injection h with h
    subst h
    exact (w.writePDFHeader_frame major minor).1
  | comment text =>
    simp only [Writer.step] at h
    injection h with h
    subst h
    exact (w.writeComment_frame tl text).1
  | object o =>
    exact (List.prefix_append _ _).trans (Writer.writeObject_frame tl _ _ _ h).1
  | xrefTable =>
    exact (List.prefix_append _ _).trans (Writer.writeXrefTable_frame _ _ h).1
  | trailer root info uuid =>
    exact (Writer.writeTrailer_frame tl _ _ _ _ _ h).1

theorem Writer.step_table (tl : QString → Bytes) (w w1 : Writer) (op : Op)
    (h : w.step tl op = .ok w1) :
    w1.mXRefTable = w.mXRefTable ∨ ∃ o, op = .object o ∧ w1.mXRefTable = QMap.insert o.objNum
      (XRefEntry.mk (w.mDevice.length + 1) o.objNum o.genNum XRefType.Used) w.mXRefTable := by
  cases op with
  | pdfHeader major minor =>
    simp only [Writer.step] at h
    injection h with h
    subst h
    exact Or.inl (w.writePDFHeader_frame major minor).2.1
  | comment text =>
    simp only [Writer.step] at h
    injection h with h
    subst h
    exact Or.inl (w.writeComment_frame tl text).2.1
  | object o => exact Or.inr ⟨o, rfl, (Writer.writeObject_frame tl _ _ _ h).2.1⟩
  | xrefTable => exact Or.inl (Writer.writeXrefTable_frame _ _ h).2.1
  | trailer root info uuid => exact Or.inl (Writer.writeTrailer_frame tl _ _ _ _ _ h).2.1

theorem Writer.run_cons (tl : QString → Bytes) (w w2 : Writer) (op : Op) (ops : List Op)
    (h : w.run tl (op :: ops) = .ok w2) :
    ∃ w1, w.step tl op = .ok w1 ∧ w1.run tl ops = .ok w2 := by
  rw [Writer.run] at h
  split at h
  · exact absurd h (by simp)
  · rename_i w1 h1
    exact ⟨w1, h1, h⟩

theorem Writer.run_extends (tl : QString → Bytes) (ops : List Op) :
    ∀ (w w1 : Writer), w.run tl ops = .ok w1 → w.mDevice <+: w1.mDevice := by
  induction ops with
  | nil =>
    intro w w1 h
    simp only [Writer.run] at h
    injection h with h
    subst h
    exact List.prefix_refl _
  | cons op ops ih =>
    intro w w1 h
    obtain ⟨w2, h1, h2⟩ := Writer.run_cons tl _ _ _ _ h
    exact (Writer.step_extends tl _ _ _ h1).trans (ih _ _ h2)

theorem Writer.run_sorted (tl : QString → Bytes) (ops : List Op) :
    ∀ (w w1 : Writer), w.run tl ops = .ok w1 → w.mXRefTable.Pairwise (fun a b => a.1 < b.1) →
      w1.mXRefTable.Pairwise (fun a b => a.1 < b.1) := by
  induction ops with
  | nil =>
    intro w w1 h hs
    simp only [Writer.run] at h
    injection h with h
    subst h
    exact hs
  | cons op ops ih =>
    intro w w1 h hs
    obtain ⟨w2, h1, h2⟩ := Writer.run_cons tl _ _ _ _ h
    apply ih _ _ h2
    rcases Writer.step_table tl _ _ _ h1 with h3 | ⟨o, _, h3⟩
    · rw [h3]; exact hs
    · rw [h3]; exact QMap.insert_sorted _ _ _ hs

theorem Writer.new_sorted (device : Bytes) (buf : Buf) :
    (Writer.new device buf).mXRefTable.Pairwise (fun a b => a.1 < b.1) := by
  simp [Writer.new, QMap.insert]

/-- C4: the offset `writeObject` stores for a record is the device offset just
after the blank-line byte, and from then on (after any further calls) the bytes
of the stream at that offset are the decimal objNum, a space, the decimal genNum
and " obj". -/
theorem writeObject_offset (tl : QString → Bytes) (w w1 : Writer) (o : Object) (ho : o.WF)
    (h : w.writeObject tl o = .ok w1) :
    QMap.find o.objNum w1.mXRefTable =
        some (XRefEntry.mk (w.mDevice.length + 1) o.objNum o.genNum XRefType.Used) ∧
      w1.mDevice.take (w.mDevice.length + 1) = w.mDevice ++ [10] ∧
      ∀ (ops : List Op) (w2 : Writer), w1.run tl ops = .ok w2 →
        (decimal o.objNum ++ [32] ++ decimal o.genNum ++ bytes " obj") <+:
          w2.mDevice.drop (w.mDevice.length + 1) := by
  obtain ⟨⟨out, hout⟩, htab, _⟩ := Writer.writeObject_eq tl w w1 o ho h
  refine ⟨?_, ?_, ?_⟩
  · rw [htab, QMap.find_insert_self]
  · rw [← hout]
    simp only [List.append_assoc]
    rw [← List.append_assoc w.mDevice [10], List.take_left']
    simp
  · intro ops w2 hrun
    obtain ⟨out2, hout2⟩ := Writer.run_extends tl ops w1 w2 hrun
    have hb : bytes " obj\n" = bytes " obj" ++ [10] := by decide
    rw [← hout2, ← hout, hb]
    simp only [List.append_assoc]
    rw [← List.append_assoc w.mDevice [10], List.drop_left']
    · exact ⟨[10] ++ (out ++ out2), by simp only [List.append_assoc]⟩
    · simp

theorem writeObject_offset_witness :
    ∃ w1, (Writer.new [] (fun _ => 0)).writeObject id ⟨1, 0, Value.Null, []⟩ = .ok w1 ∧
      QMap.find 1 w1.mXRefTable = some (XRefEntry.mk 1 1 0 XRefType.Used) ∧
      w1.mDevice.take 1 = [10] ∧
      ∀ (ops : List Op) (w2 : Writer), w1.run id ops = .ok w2 →
        (decimal 1 ++ [32] ++ decimal 0 ++ bytes " obj") <+: w2.mDevice.drop 1 := by
  obtain ⟨w1, h1⟩ := Res.exists_ok
    ((Writer.new [] (fun _ => 0)).writeObject id ⟨1, 0, Value.Null, []⟩) (by decide!)
  exact ⟨w1, h1, writeObject_offset id (Writer.new [] (fun _ => 0)) w1 ⟨1, 0, Value.Null, []⟩
    (by decide) h1⟩

/-- C7: when two records with the same object number are written one after the
other, with any calls in between, the table afterwards has exactly one entry for
that number, and it holds the offset and generation recorded by the later call. -/
theorem writeObject_twice (tl : QString → Bytes) (device : Bytes) (buf : Buf)
    (ops1 ops2 : List Op) (o1 o2 : Object) (w2 w3 : Writer) (hsame : o1.objNum = o2.objNum)
    (h1 : (Writer.new device buf).run tl (ops1 ++ [Op.object o1] ++ ops2) = .ok w2)
    (h2 : w2.writeObject tl o2 = .ok w3) :
    (w3.mXRefTable.filter (fun e => e.1 = o1.objNum)).length = 1 ∧
      QMap.find o1.objNum w3.mXRefTable =
        some (XRefEntry.mk (w2.mDevice.length + 1) o2.objNum o2.genNum XRefType.Used) := by
  have hs := Writer.run_sorted tl _ _ _ h1 (Writer.new_sorted device buf)
  obtain ⟨_, htab, _⟩ := Writer.writeObject_frame tl w2 w3 o2 h2
  rw [htab, hsame]
  exact ⟨QMap.count_insert _ _ _ hs, QMap.find_insert_self _ _ _⟩

theorem writeObject_twice_witness :
    ∃ w2 w3, (Writer.new [] (fun _ => 0)).run id
        ([] ++ [Op.object ⟨3, 0, Value.Null, []⟩] ++ [Op.comment []]) = .ok w2 ∧
      w2.writeObject id ⟨3, 1, Value.Bool true, []⟩ = .ok w3 ∧
      (w3.mXRefTable.filter (fun e => e.1 = 3)).length = 1 ∧
      QMap.find 3 w3.mXRefTable = some (XRefEntry.mk (w2.mDevice.length + 1) 3 1 XRefType.Used) := by
  obtain ⟨w2, h2⟩ := Res.exists_ok ((Writer.new [] (fun _ => 0)).run id
    ([] ++ [Op.object ⟨3, 0, Value.Null, []⟩] ++ [Op.comment []])) (by decide!)
  obtain ⟨w3, h3⟩ := Res.exists_ok (w2.writeObject id ⟨3, 1, Value.Bool true, []⟩) (by
    have hv : ∀ w : Writer, (w.writeValue id (Value.Bool true)).toBool = true := by
      intro w; simp [Writer.writeValue, Except.toBool, pure, Except.pure]
    unfold Writer.writeObject
    obtain ⟨b1, hb1⟩ := Writer.writeUint_spec
      { mDevice := (w2.writeChar 10).mDevice, mXRefPos := (w2.writeChar 10).mXRefPos,
        mXRefTable := QMap.insert 3 (XRefEntry.mk (w2.writeChar 10).mDevice.length 3 1 XRefType.Used)
          (w2.writeChar 10).mXRefTable,
        mBuf := (w2.writeChar 10).mBuf } 3 (by norm_num)
    simp only [hb1, bind, Except.bind]
    obtain ⟨b2, hb2⟩ := Writer.writeUint_spec (Writer.writeChar
      { mDevice := (w2.writeChar 10).mDevice ++ decimal 3, mXRefPos := (w2.writeChar 10).mXRefPos,
        mXRefTable := QMap.insert 3 (XRefEntry.mk (w2.writeChar 10).mDevice.length 3 1 XRefType.Used)
          (w2.writeChar 10).mXRefTable,
        mBuf := b1 } 32) 1 (by norm_num)
    simp [hb2, Writer.writeValue, Except.toBool, pure, Except.pure])
  exact ⟨w2, w3, h2, h3, writeObject_twice id [] (fun _ => 0) [] [Op.comment []]
    ⟨3, 0, Value.Null, []⟩ ⟨3, 1, Value.Bool true, []⟩ w2 w3 rfl h2 h3⟩

theorem QMap.length_insert_le {κ β : Type} [LinearOrder κ] (k : κ) (v : β) (l : List (κ × β)) :
    (QMap.insert k v l).length ≤ l.length + 1 := by
  induction l with
  | nil => simp [QMap.insert]
  | cons e rest ih =>
    obtain ⟨k1, v1⟩ := e
    rw [QMap.insert]
    split
    · simp
    · split
      · simp only [List.length_cons]; omega
      · simp

theorem QMap.key_mem_insert {κ β : Type} [LinearOrder κ] [DecidableEq κ] (k k2 : κ) (v : β) (l : List (κ × β))
    (h : ∃ e ∈ l, e.1 = k) : ∃ e ∈ QMap.insert k2 v l, e.1 = k := by
  obtain ⟨e, he, hk⟩ := h
  by_cases h2 : k2 = k
  · exact ⟨(k2, v), QMap.mem_of_find k2 v _ (QMap.find_insert_self k2 v l), h2⟩
  · have hf : QMap.find k l ≠ none := by
      intro hn
      induction l with
      | nil => simp at he
      | cons x xs ih =>
        rw [QMap.find] at hn
        split at hn
        · simp at hn
        · rename_i hne
          rcases List.mem_cons.mp he with h3 | h3
          · subst h3; exact hne hk
          · exact ih h3 hn
    rw [← QMap.find_insert_ne k k2 v l h2] at hf
    obtain ⟨v2, hv2⟩ := Option.ne_none_iff_exists'.mp hf
    exact ⟨(k, v2), QMap.mem_of_find k v2 _ hv2, rfl⟩

/-- What every table reached by writing well-formed objects satisfies. -/
theorem Writer.run_objects_inv (tl : QString → Bytes) (objs : List Object) :
    ∀ (w w1 : Writer), (∀ o ∈ objs, o.WF) → w.run tl (objs.map Op.object) = .ok w1 →
      w.mXRefTable.Pairwise (fun a b => a.1 < b.1) →
      (∀ e ∈ w.mXRefTable, e.2.objNum = e.1 ∧ e.1 < 2 ^ 32) →
      w1.mXRefTable.Pairwise (fun a b => a.1 < b.1) ∧
        (∀ e ∈ w1.mXRefTable, e.2.objNum = e.1 ∧ e.1 < 2 ^ 32) ∧
        w1.mXRefTable.length ≤ w.mXRefTable.length + objs.length ∧
        (∀ k, (∃ e ∈ w1.mXRefTable, e.1 = k) ↔
          ((∃ e ∈ w.mXRefTable, e.1 = k) ∨ ∃ o ∈ objs, o.objNum = k)) := by
  induction objs with
  | nil =>
    intro w w1 _ h hs hg
    simp only [List.map_nil, Writer.run] at h
    injection h with h
    subst h
    exact ⟨hs, hg, by simp, by simp⟩
  | cons o objs ih =>
    intro w w1 hwf h hs hg
    rw [List.map_cons] at h
    obtain ⟨w2, h1, h2⟩ := Writer.run_cons tl _ _ _ _ h
    obtain ⟨_, htab, _⟩ := Writer.writeObject_frame tl w w2 o h1
    have ho := hwf o (by simp)
    have hs2 : w2.mXRefTable.Pairwise (fun a b => a.1 < b.1) := by
      rw [htab]; exact QMap.insert_sorted _ _ _ hs
    have hg2 : ∀ e ∈ w2.mXRefTable, e.2.objNum = e.1 ∧ e.1 < 2 ^ 32 := by
      intro e he
      rw [htab] at he
      rcases QMap.mem_insert _ _ _ _ he with h3 | h3
      · subst h3; exact ⟨rfl, ho.1⟩
      · exact hg e h3
    obtain ⟨r1, r2, r3, r4⟩ := ih w2 w1 (fun x hx => hwf x (by simp [hx])) h2 hs2 hg2
    refine ⟨r1, r2, ?_, ?_⟩
    · have := QMap.length_insert_le o.objNum
        (XRefEntry.mk (w.mDevice.length + 1) o.objNum o.genNum XRefType.Used) w.mXRefTable
      rw [← htab] at this
      simp only [List.length_cons]
      omega
    · intro k
      rw [r4 k]
      constructor
      · rintro (⟨e, he, hk⟩ | ⟨x, hx, hk⟩)
        · rw [htab] at he
          rcases QMap.mem_insert _ _ _ _ he with h3 | h3
          · subst h3; exact Or.inr ⟨o, by simp, hk⟩
          · exact Or.inl ⟨e, h3, hk⟩
        · exact Or.inr ⟨x, by simp [hx], hk⟩
      · rintro (hk | ⟨x, hx, hk⟩)
        · left; rw [htab]; exact QMap.key_mem_insert _ _ _ _ hk
        · rcases List.mem_cons.mp hx with h3 | h3
          · subst h3
            left
            rw [htab]
            exact ⟨_, QMap.mem_of_find _ _ _ (QMap.find_insert_self _ _ _), hk⟩
          · exact Or.inr ⟨x, h3, hk⟩

theorem Writer.new_good (device : Bytes) (buf : Buf) :
    ∀ e ∈ (Writer.new device buf).mXRefTable, e.2.objNum = e.1 ∧ e.1 < 2 ^ 32 := by
  simp [Writer.new, QMap.insert]

/-- C5: in a session of `writePDFHeader`, any number of `writeObject` calls,
`writeXrefTable` and `writeTrailer`, the table is emitted (the call returns),
the text "xref\n" stands at the offset the device had when `writeXrefTable`
started, and the number on the line after "startxref" is that offset.  In the
Catalog/Pages scenario of the specification the offset is 109. -/
theorem startxref_offset :
    (∀ (tl : QString → Bytes) (device : Bytes) (buf : Buf) (major minor : Int)
        (objs : List Object) (root info : Link) (uuid : Bytes) (w1 : Writer),
      (∀ o ∈ objs, o.WF) → objs.length + 1 < 2 ^ 31 →
      (Writer.new device buf).run tl (Op.pdfHeader major minor :: objs.map Op.object) = .ok w1 →
      ∃ w2, w1.writeXrefTable = .ok w2 ∧ w2.mXRefPos = w1.mDevice.length ∧
        ∀ w3, w2.writeTrailer tl root info uuid = .ok w3 →
          ∃ mid, w3.mDevice = w1.mDevice ++ bytes "xref\n" ++ mid ++ bytes "\nstartxref\n" ++
            decimal w1.mDevice.length ++ bytes "\n%%EOF\n") ∧
    (((Writer.new [] (fun _ => 0)).run id scenarioOps).map (fun w => w.mDevice) =
      .ok (bytes ("%PDF-1.4\n%\xE2\xE3\xCF\xD3\n" ++
        "\n1 0 obj\n<<\n/Pages 2 0 R\n/Type /Catalog\n>>\nendobj\n" ++
        "\n2 0 obj\n<<\n/Count 0\n/Type /Pages\n>>\nendobj\n") ++
        bytes "xref\n" ++
        bytes ("0 3\n0000000000 65535 n \n0000000016 00000 n \n0000000066 00000 n \n" ++
          "\ntrailer\n<<\n/ID [<00ff> <00ff> ]\n/Root 1 0 R\n/Size 3\n>>") ++
        bytes "\nstartxref\n" ++ decimal 109 ++ bytes "\n%%EOF\n") ∧
      (bytes ("%PDF-1.4\n%\xE2\xE3\xCF\xD3\n" ++
        "\n1 0 obj\n<<\n/Pages 2 0 R\n/Type /Catalog\n>>\nendobj\n" ++
        "\n2 0 obj\n<<\n/Count 0\n/Type /Pages\n>>\nendobj\n")).length = 109) := by
  refine ⟨?_, by decide!, by decide⟩
  intro tl device buf major minor objs root info uuid w1 hwf hlen hrun
  obtain ⟨w0, h0, hrun2⟩ := Writer.run_cons tl _ _ _ _ hrun
  simp only [Writer.step] at h0
  injection h0 with h0
  have ht0 : w0.mXRefTable = (Writer.new device buf).mXRefTable := by
    rw [← h0]; exact (Writer.writePDFHeader_frame _ _ _).2.1
  obtain ⟨r1, r2, r3, _⟩ := Writer.run_objects_inv tl objs w0 w1 hwf hrun2
    (by rw [ht0]; exact Writer.new_sorted device buf)
    (by rw [ht0]; exact Writer.new_good device buf)
  have hl0 : w0.mXRefTable.length = 1 := by
    rw [ht0]; simp [Writer.new, QMap.insert]
  obtain ⟨b, hb⟩ := w1.writeXrefTable_eq ⟨r1, r2, by omega⟩
  refine ⟨_, hb, rfl, ?_⟩
  intro w3 h3
  obtain ⟨mid, hm, _, _⟩ := Writer.writeTrailerDict_eq tl _ _ _ h3
  exact ⟨(xrefRuns w1.mXRefTable).flatMap xrefSectionBytes ++ bytes "\ntrailer\n" ++ mid,
    by rw [hm]; simp only [List.append_assoc]⟩

theorem startxref_offset_witness :
    ∃ w1, (Writer.new [] (fun _ => 0)).run id
        (Op.pdfHeader 1 4 :: [(⟨1, 0, Value.Null, []⟩ : Object)].map Op.object) = .ok w1 ∧
      ∃ w2, w1.writeXrefTable = .ok w2 ∧ w2.mXRefPos = w1.mDevice.length ∧
        ∀ w3, w2.writeTrailer id ⟨1, 0⟩ ⟨0, 0⟩ [] = .ok w3 →
          ∃ mid, w3.mDevice = w1.mDevice ++ bytes "xref\n" ++ mid ++ bytes "\nstartxref\n" ++
            decimal w1.mDevice.length ++ bytes "\n%%EOF\n" := by
  obtain ⟨w1, h1⟩ := Res.exists_ok ((Writer.new [] (fun _ => 0)).run id
    (Op.pdfHeader 1 4 :: [(⟨1, 0, Value.Null, []⟩ : Object)].map Op.object)) (by decide!)
  exact ⟨w1, h1, startxref_offset.1 id [] (fun _ => 0) 1 4 [⟨1, 0, Value.Null, []⟩] ⟨1, 0⟩ ⟨0, 0⟩ []
    w1 (by decide) (by decide) h1⟩

/-! ## Exactly representable values -/

theorem roundNE_of_dvd (x : Nat) (h : 2 ^ (bitLen x - 53) ∣ x) : roundNE x = x := by
  have hr : x % 2 ^ (bitLen x - 53) = 0 := Nat.mod_eq_zero_of_dvd h
  have hp : 0 < 2 ^ (bitLen x - 53) := Nat.two_pow_pos _
  simp only [roundNE, hr, Nat.mul_zero, hp, if_true]
  exact Nat.div_mul_cancel h

theorem roundNE_mul_pow (n e : Nat) (h : n < 2 ^ 53) : roundNE (n * 2 ^ e) = n * 2 ^ e := by
  apply roundNE_of_dvd
  have hlt : n * 2 ^ e < 2 ^ (53 + e) := by
    rw [pow_add]
    exact Nat.mul_lt_mul_of_pos_right h (Nat.two_pow_pos _)
  have hb := bitLen_le_of_lt _ _ hlt
  exact Dvd.dvd.mul_left (Nat.pow_dvd_pow 2 (by omega)) n

theorem dblOne_eq : dblOne = 2 ^ 1074 := by
  unfold dblOne; rfl

theorem dblOne_pos : 0 < dblOne := by
  rw [dblOne_eq]; exact pow_pos (by norm_num) 1074

theorem roundNE_mul_dblOne (n : Nat) (h : n < 2 ^ 53) : roundNE (n * dblOne) = n * dblOne := by
  rw [dblOne_eq]; exact roundNE_mul_pow n 1074 h

theorem Double.ofNat_eq (n : Nat) (h : n < 2 ^ 53) :
    Double.ofNat n = Double.finite false (n * dblOne) := by
  rw [Double.ofNat, roundNE_mul_dblOne n h]

/-! ## The trailer dictionary -/

theorem XRefTable.foldl_max_ge (t : XRefTable) :
    ∀ m : Nat, m ≤ t.foldl (fun m e => max m e.1) m ∧
      (∀ e ∈ t, e.1 ≤ t.foldl (fun m e => max m e.1) m) ∧
      (t.foldl (fun m e => max m e.1) m = m ∨ ∃ e ∈ t, e.1 = t.foldl (fun m e => max m e.1) m) := by
  induction t with
  | nil => intro m; simp
  | cons x xs ih =>
    intro m
    obtain ⟨h1, h2, h3⟩ := ih (max m x.1)
    simp only [List.foldl_cons]
    refine ⟨le_trans (le_max_left _ _) h1, ?_, ?_⟩
    · intro e he
      rcases List.mem_cons.mp he with h4 | h4
      · subst h4; exact le_trans (le_max_right _ _) h1
      · exact h2 e h4
    · rcases h3 with h4 | ⟨e, he, h4⟩
      · rcases le_total m x.1 with h5 | h5
        · right
          refine ⟨x, by simp, ?_⟩
          rw [h4, max_eq_right h5]
        · left
          rw [h4, max_eq_left h5]
      · exact Or.inr ⟨e, List.mem_cons_of_mem _ he, h4⟩

theorem XRefTable.maxObjNum_spec (t : XRefTable) (h0 : ∃ e ∈ t, e.1 = 0) :
    (∀ e ∈ t, e.1 ≤ t.maxObjNum) ∧ ∃ e ∈ t, e.1 = t.maxObjNum := by
  obtain ⟨_, h2, h3⟩ := XRefTable.foldl_max_ge t 0
  refine ⟨h2, ?_⟩
  rcases h3 with h4 | h4
  · obtain ⟨e, he, hk⟩ := h0
    exact ⟨e, he, by rw [XRefTable.maxObjNum, h4, hk]⟩
  · exact h4

theorem trailerDict_size (t : XRefTable) (root info : Link) (uuid : Bytes) :
    QMap.find (bytes "Size") (trailerDict t root info uuid) =
      some (Value.Number (Double.ofNat (t.maxObjNum + 1))) := by
  have h1 : bytes "ID" ≠ bytes "Size" := by decide
  have h2 : bytes "Info" ≠ bytes "Size" := by decide
  have h3 : bytes "Root" ≠ bytes "Size" := by decide
  unfold trailerDict
  simp only []
  rw [QMap.find_insert_ne _ _ _ _ h1]
  split
  · rw [QMap.find_insert_ne _ _ _ _ h2, QMap.find_insert_ne _ _ _ _ h3, QMap.find_insert_self]
  · rw [QMap.find_insert_ne _ _ _ _ h3, QMap.find_insert_self]

/-- C6: after any sequence of `writeObject` calls the `Size` entry of the
trailer dictionary is the number `M + 1`, where `M` is the largest object
number in the table: `M` is a key of the table, no key is larger, and the keys
are `0` (the sentinel) and the object numbers written, whatever gaps they leave.
With no object written `Size` is `1`. -/
theorem trailer_size :
    (∀ (tl : QString → Bytes) (device : Bytes) (buf : Buf) (objs : List Object)
        (root info : Link) (uuid : Bytes) (w : Writer),
      (∀ o ∈ objs, o.WF) →
      (Writer.new device buf).run tl (objs.map Op.object) = .ok w →
      ∃ M, QMap.find (bytes "Size") (trailerDict w.mXRefTable root info uuid) =
            some (Value.Number (Double.finite false ((M + 1) * dblOne))) ∧
          (∃ e ∈ w.mXRefTable, e.1 = M) ∧ (∀ e ∈ w.mXRefTable, e.1 ≤ M) ∧
          (M = 0 ∨ ∃ o ∈ objs, o.objNum = M) ∧ (∀ o ∈ objs, o.objNum ≤ M)) ∧
    (∀ (device : Bytes) (buf : Buf) (root info : Link) (uuid : Bytes),
      QMap.find (bytes "Size") (trailerDict (Writer.new device buf).mXRefTable root info uuid) =
        some (Value.Number (Double.finite false dblOne))) := by
  constructor
  · intro tl device buf objs root info uuid w hwf hrun
    obtain ⟨_, r2, _, r4⟩ := Writer.run_objects_inv tl objs _ w hwf hrun
      (Writer.new_sorted device buf) (Writer.new_good device buf)
    have h0 : ∃ e ∈ w.mXRefTable, e.1 = 0 :=
      (r4 0).mpr (Or.inl (by simp [Writer.new, QMap.insert]))
    obtain ⟨m1, e, he, hk⟩ := XRefTable.maxObjNum_spec w.mXRefTable h0
    have hlt : w.mXRefTable.maxObjNum + 1 < 2 ^ 53 := by
      have := (r2 e he).2
      rw [hk] at this
      omega
    refine ⟨w.mXRefTable.maxObjNum, ?_, ⟨e, he, hk⟩, m1, ?_, ?_⟩
    · rw [trailerDict_size, Double.ofNat_eq _ hlt]
    · rcases (r4 _).mp ⟨e, he, hk⟩ with h5 | h5
      · left
        obtain ⟨x, hx, hxk⟩ := h5
        simp [Writer.new, QMap.insert] at hx
        rw [← hxk, hx]
      · exact Or.inr h5
    · intro o ho
      obtain ⟨x, hx, hxk⟩ := (r4 o.objNum).mpr (Or.inr ⟨o, ho, rfl⟩)
      rw [← hxk]
      exact m1 x hx
  · intro device buf root info uuid
    rw [trailerDict_size, Double.ofNat_eq _ (by simp [Writer.new, QMap.insert, XRefTable.maxObjNum])]
    simp [Writer.new, QMap.insert, XRefTable.maxObjNum]

theorem trailer_size_witness :
    ∃ w, (Writer.new [] (fun _ => 0)).run id
        ([(⟨2, 0, Value.Null, []⟩ : Object), ⟨7, 0, Value.Null, []⟩].map Op.object) = .ok w ∧
      ∃ M, QMap.find (bytes "Size") (trailerDict w.mXRefTable ⟨2, 0⟩ ⟨0, 0⟩ []) =
            some (Value.Number (Double.finite false ((M + 1) * dblOne))) ∧
          (∃ e ∈ w.mXRefTable, e.1 = M) ∧ (∀ e ∈ w.mXRefTable, e.1 ≤ M) ∧
          (M = 0 ∨ ∃ o ∈ [(⟨2, 0, Value.Null, []⟩ : Object), ⟨7, 0, Value.Null, []⟩], o.objNum = M) ∧
          (∀ o ∈ [(⟨2, 0, Value.Null, []⟩ : Object), ⟨7, 0, Value.Null, []⟩], o.objNum ≤ M) := by
  obtain ⟨w, h⟩ := Res.exists_ok ((Writer.new [] (fun _ => 0)).run id
    ([(⟨2, 0, Value.Null, []⟩ : Object), ⟨7, 0, Value.Null, []⟩].map Op.object)) (by decide!)
  exact ⟨w, h, trailer_size.1 id [] (fun _ => 0) [⟨2, 0, Value.Null, []⟩, ⟨7, 0, Value.Null, []⟩]
    ⟨2, 0⟩ ⟨0, 0⟩ [] w (by decide) h⟩

/-! ## Dictionaries -/

theorem Writer.writeDictItems_shape (tl : QString → Bytes) (kvs : List (QString × Value)) :
    ∀ (w w1 : Writer), w.writeDictItems tl kvs = .ok w1 →
      ∃ chunks : List Bytes, chunks.length = kvs.length ∧
        w1.mDevice = w.mDevice ++
          (List.zipWith (fun kv c => [47] ++ tl kv.1 ++ [32] ++ c ++ [10]) kvs chunks).flatten := by
  induction kvs with
  | nil =>
    intro w w1 h
    rw [Writer.writeDictItems] at h
    injection h with h
    subst h
    exact ⟨[], rfl, by simp⟩
  | cons kv rest ih =>
    intro w w1 h
    obtain ⟨key, value⟩ := kv
    rw [Writer.writeDictItems] at h
    obtain ⟨w2, h2, h3⟩ := Res.bind_ok _ _ _ h
    obtain ⟨⟨c, hc⟩, _, _⟩ := Writer.writeValue_frame tl value _ _ h2
    obtain ⟨chunks, hl, hd⟩ := ih _ _ h3
    refine ⟨c :: chunks, by simp [hl], ?_⟩
    rw [hd]
    simp only [Writer.writeChar, Writer.deviceWrite, ← hc, Writer.writeQString]
    simp

/-- C8: the entries of a dictionary are written in strictly ascending
lexicographic order of their keys, one line `/key value` each, whatever the order
of the insertions that built it; and two dictionaries that hold the same
key-to-value mapping, built by different insertion sequences, are written as the
same bytes. -/
theorem dict_key_order (tl : QString → Bytes) :
    (∀ (w w1 : Writer) (ins : List (QString × Value)),
      w.writeValue tl (Value.Dict (QMap.ofInserts ins)) = .ok w1 →
      (QMap.ofInserts ins).Pairwise (fun a b => a.1 < b.1) ∧
      ∃ chunks : List Bytes, chunks.length = (QMap.ofInserts ins).length ∧
        w1.mDevice = w.mDevice ++ bytes "<<\n" ++
          (List.zipWith (fun kv c => [47] ++ tl kv.1 ++ [32] ++ c ++ [10])
            (QMap.ofInserts ins) chunks).flatten ++ bytes ">>") ∧
    (∀ (w : Writer) (ins1 ins2 : List (QString × Value)),
      (∀ k, QMap.find k (QMap.ofInserts ins1) = QMap.find k (QMap.ofInserts ins2)) →
      w.writeValue tl (Value.Dict (QMap.ofInserts ins1)) =
        w.writeValue tl (Value.Dict (QMap.ofInserts ins2))) := by
  constructor
  · intro w w1 ins h
    refine ⟨QMap.ofInserts_sorted ins, ?_⟩
    rw [Writer.writeValue] at h
    obtain ⟨w2, h2, h3⟩ := Res.bind_ok _ _ _ h
    injection h3 with h3
    subst h3
    obtain ⟨chunks, hl, hd⟩ := Writer.writeDictItems_shape tl _ _ _ h2
    exact ⟨chunks, hl, by simp [Writer.writeCStr, Writer.deviceWrite, hd]⟩
  · intro w ins1 ins2 h
    rw [QMap.sorted_ext _ _ (QMap.ofInserts_sorted ins1) (QMap.ofInserts_sorted ins2) h]

theorem dict_key_order_witness :
    ((Writer.new [] (fun _ => 0)).writeValue id (Value.Dict (QMap.ofInserts
        [(bytes "Type", Value.Name (bytes "Pages")), (bytes "Count", Value.Null)]))).map
          (fun w => w.mDevice) = .ok (bytes "<<\n/Count null\n/Type /Pages\n>>") ∧
      (Writer.new [] (fun _ => 0)).writeValue id (Value.Dict (QMap.ofInserts
        [(bytes "Type", Value.Name (bytes "Pages")), (bytes "Count", Value.Null)])) =
      (Writer.new [] (fun _ => 0)).writeValue id (Value.Dict (QMap.ofInserts
        [(bytes "Count", Value.Null), (bytes "Type", Value.Name (bytes "Pages"))])) :=
  ⟨by decide!, (dict_key_order id).2 (Writer.new [] (fun _ => 0))
    [(bytes "Type", Value.Name (bytes "Pages")), (bytes "Count", Value.Null)]
    [(bytes "Count", Value.Null), (bytes "Type", Value.Name (bytes "Pages"))]
    (by
      intro k
      have e1 : QMap.ofInserts [(bytes "Type", Value.Name (bytes "Pages")), (bytes "Count", Value.Null)]
          = [(bytes "Count", Value.Null), (bytes "Type", Value.Name (bytes "Pages"))] := by
        simp [QMap.ofInserts, QMap.insert, show bytes "Count" < bytes "Type" by decide]
      have e2 : QMap.ofInserts [(bytes "Count", Value.Null), (bytes "Type", Value.Name (bytes "Pages"))]
          = [(bytes "Count", Value.Null), (bytes "Type", Value.Name (bytes "Pages"))] := by
        simp [QMap.ofInserts, QMap.insert, show bytes "Count" < bytes "Type" by decide,
          show ¬ bytes "Type" < bytes "Count" by decide]
      rw [e1, e2])⟩

/-! ## Rounding to the nearest double -/

theorem bitLen_mono (x y : Nat) (h : x ≤ y) : bitLen x ≤ bitLen y :=
  bitLen_le_of_lt x _ (lt_of_le_of_lt h (lt_two_pow_bitLen y))

/-- Significand, remainder and exponent of the rounding of `x`. -/
theorem roundNE_spec (x : Nat) :
    ∃ m r : Nat, x = m * 2 ^ (bitLen x - 53) + r ∧ r < 2 ^ (bitLen x - 53) ∧ m < 2 ^ 53 ∧
      (1 ≤ bitLen x - 53 → 2 ^ 52 ≤ m) ∧
      ((2 * r < 2 ^ (bitLen x - 53) ∧ roundNE x = m * 2 ^ (bitLen x - 53)) ∨
       (2 ^ (bitLen x - 53) < 2 * r ∧ roundNE x = (m + 1) * 2 ^ (bitLen x - 53)) ∨
       (2 * r = 2 ^ (bitLen x - 53) ∧ m % 2 = 0 ∧ roundNE x = m * 2 ^ (bitLen x - 53)) ∨
       (2 * r = 2 ^ (bitLen x - 53) ∧ m % 2 = 1 ∧ roundNE x = (m + 1) * 2 ^ (bitLen x - 53))) := by
  have hp : 0 < 2 ^ (bitLen x - 53) := Nat.two_pow_pos _
  refine ⟨x / 2 ^ (bitLen x - 53), x % 2 ^ (bitLen x - 53), ?_, Nat.mod_lt _ hp, ?_, ?_, ?_⟩
  · rw [Nat.mul_comm]; exact (Nat.div_add_mod _ _).symm
  · rw [Nat.div_lt_iff_lt_mul hp, ← pow_add]
    exact lt_of_lt_of_le (lt_two_pow_bitLen x) (Nat.pow_le_pow_right (by norm_num) (by omega))
  · intro hk
    rw [Nat.le_div_iff_mul_le hp, ← pow_add]
    have hx : x ≠ 0 := by
      intro h0
      subst h0
      simp [bitLen, bitLenAux] at hk
    have h1 := two_pow_bitLen_le x hx
    have e : 52 + (bitLen x - 53) = bitLen x - 1 := by omega
    rw [e]; exact h1
  · unfold roundNE
    simp only []
    by_cases h1 : 2 * (x % 2 ^ (bitLen x - 53)) < 2 ^ (bitLen x - 53)
    · exact Or.inl ⟨h1, by rw [if_pos h1]⟩
    · by_cases h2 : 2 ^ (bitLen x - 53) < 2 * (x % 2 ^ (bitLen x - 53))
      · exact Or.inr (Or.inl ⟨h2, by rw [if_neg h1, if_pos h2]⟩)
      · have h3 : 2 * (x % 2 ^ (bitLen x - 53)) = 2 ^ (bitLen x - 53) := by omega
        by_cases h4 : x / 2 ^ (bitLen x - 53) % 2 = 0
        · exact Or.inr (Or.inr (Or.inl ⟨h3, h4, by rw [if_neg h1, if_neg h2, if_pos h4]⟩))
        · exact Or.inr (Or.inr (Or.inr ⟨h3, by omega, by rw [if_neg h1, if_neg h2, if_neg h4]⟩))

theorem roundNE_le_add (x : Nat) : 2 * roundNE x ≤ 2 * x + 2 ^ (bitLen x - 53) := by
  obtain ⟨m, r, hx, hr, _, _, hc⟩ := roundNE_spec x
  rcases hc with ⟨h1, h2⟩ | ⟨h1, h2⟩ | ⟨h1, _, h2⟩ | ⟨h1, _, h2⟩ <;> rw [h2] <;>
    (generalize 2 ^ (bitLen x - 53) = p at *; first | omega | (rw [Nat.add_mul]; omega))

theorem le_roundNE_add (x : Nat) : 2 * x ≤ 2 * roundNE x + 2 ^ (bitLen x - 53) := by
  obtain ⟨m, r, hx, hr, _, _, hc⟩ := roundNE_spec x
  rcases hc with ⟨h1, h2⟩ | ⟨h1, h2⟩ | ⟨h1, _, h2⟩ | ⟨h1, _, h2⟩ <;> rw [h2] <;>
    (generalize 2 ^ (bitLen x - 53) = p at *; first | omega | (rw [Nat.add_mul]; omega))

theorem roundNE_dvd (x : Nat) : 2 ^ (bitLen x - 53) ∣ roundNE x := by
  obtain ⟨m, r, _, _, _, _, hc⟩ := roundNE_spec x
  rcases hc with ⟨_, h2⟩ | ⟨_, h2⟩ | ⟨_, _, h2⟩ | ⟨_, _, h2⟩ <;> rw [h2] <;>
    exact Dvd.intro_left _ rfl

theorem roundNE_mono (x y : Nat) (h : x ≤ y) : roundNE x ≤ roundNE y := by
  obtain ⟨mx, rx, hx, hrx, hmx, _, hcx⟩ := roundNE_spec x
  obtain ⟨my, ry, hy, hry, _, hmy, hcy⟩ := roundNE_spec y
  have hk := bitLen_mono x y h
  have hxu : roundNE x ≤ (mx + 1) * 2 ^ (bitLen x - 53) := by
    rcases hcx with ⟨_, h2⟩ | ⟨_, h2⟩ | ⟨_, _, h2⟩ | ⟨_, _, h2⟩ <;> rw [h2] <;>
      (rw [Nat.add_mul]; omega)
  have hyl : my * 2 ^ (bitLen y - 53) ≤ roundNE y := by
    rcases hcy with ⟨_, h2⟩ | ⟨_, h2⟩ | ⟨_, _, h2⟩ | ⟨_, _, h2⟩ <;> rw [h2] <;>
      (rw [Nat.add_mul]; omega)
  rcases Nat.lt_or_ge (bitLen x - 53) (bitLen y - 53) with hlt | hge
  · have h52 := hmy (by omega)
    have e1 : (mx + 1) * 2 ^ (bitLen x - 53) ≤ 2 ^ 53 * 2 ^ (bitLen x - 53) :=
      Nat.mul_le_mul_right _ (by omega)
    have e2 : 2 ^ 53 * 2 ^ (bitLen x - 53) ≤ 2 ^ 52 * 2 ^ (bitLen y - 53) := by
      rw [← pow_add, ← pow_add]
      exact Nat.pow_le_pow_right (by norm_num) (by omega)
    have e3 : 2 ^ 52 * 2 ^ (bitLen y - 53) ≤ my * 2 ^ (bitLen y - 53) :=
      Nat.mul_le_mul_right _ h52
    omega
  · have hkk : bitLen x - 53 = bitLen y - 53 := by omega
    rw [hkk] at hx hrx hcx hxu
    generalize 2 ^ (bitLen y - 53) = p at *
    rcases Nat.lt_or_ge mx my with hm | hm
    · have : (mx + 1) * p ≤ my * p := Nat.mul_le_mul_right _ (by omega)
      omega
    · have hmm : mx = my := by
        by_contra hne
        have : (my + 1) * p ≤ mx * p := Nat.mul_le_mul_right _ (by omega)
        rw [Nat.add_mul] at this
        omega
      subst hmm
      rcases hcx with ⟨a1, a2⟩ | ⟨a1, a2⟩ | ⟨a1, a3, a2⟩ | ⟨a1, a3, a2⟩ <;>
        rcases hcy with ⟨b1, b2⟩ | ⟨b1, b2⟩ | ⟨b1, b3, b2⟩ | ⟨b1, b3, b2⟩ <;>
        rw [a2, b2] <;> first
          | exact Nat.le_refl _
          | (rw [Nat.add_mul]; omega)

theorem roundNE_idem (x : Nat) : roundNE (roundNE x) = roundNE x := by
  obtain ⟨m, r, _, _, hm, _, hc⟩ := roundNE_spec x
  have hform : ∃ m2, m2 ≤ 2 ^ 53 ∧ roundNE x = m2 * 2 ^ (bitLen x - 53) := by
    rcases hc with ⟨_, h2⟩ | ⟨_, h2⟩ | ⟨_, _, h2⟩ | ⟨_, _, h2⟩
    · exact ⟨m, by omega, h2⟩
    · exact ⟨m + 1, by omega, h2⟩
    · exact ⟨m, by omega, h2⟩
    · exact ⟨m + 1, by omega, h2⟩
  obtain ⟨m2, hm2, h2⟩ := hform
  rw [h2]
  rcases Nat.lt_or_ge m2 (2 ^ 53) with hlt | hge
  · exact roundNE_mul_pow m2 _ hlt
  · have e : m2 = 2 ^ 53 := by omega
    rw [e, ← pow_add]
    have := roundNE_mul_pow 1 (53 + (bitLen x - 53)) (by norm_num)
    simpa using this

/-! ## The fractional digits -/

theorem fixedDecimal_msd (j : Nat) :
    ∀ f : Nat, fixedDecimal (j + 1) f = (f / 10 ^ j % 10 + 48) :: fixedDecimal j (f % 10 ^ j) := by
  induction j with
  | zero => intro f; simp [fixedDecimal, Nat.mod_one]
  | succ j ih =>
    intro f
    rw [fixedDecimal, ih (f / 10)]
    have e1 : f / 10 / 10 ^ j = f / 10 ^ (j + 1) := by
      rw [Nat.div_div_eq_div_mul, pow_succ, Nat.mul_comm]
    have e2 : f / 10 % 10 ^ j = f % 10 ^ (j + 1) / 10 := by
      rw [pow_succ, Nat.mul_comm, Nat.mod_mul_right_div_self]
    have e3 : f % 10 ^ (j + 1) % 10 = f % 10 := by
      rw [pow_succ]
      exact Nat.mod_mul_left_mod _ _ _
    rw [e1, e2]
    conv_rhs => rw [fixedDecimal, e3]
    simp

theorem stripTrailingZeros_fixed_zero (j : Nat) : stripTrailingZeros (fixedDecimal j 0) = [] := by
  induction j with
  | zero => simp [fixedDecimal, stripTrailingZeros]
  | succ j ih =>
    rw [fixedDecimal_msd]
    simp [stripTrailingZeros, ih]

theorem stripTrailingZeros_cons (c : Nat) (l : Bytes)
    (h : stripTrailingZeros l ≠ [] ∨ c ≠ 48) :
    stripTrailingZeros (c :: l) = c :: stripTrailingZeros l := by
  rw [stripTrailingZeros]
  cases hl : stripTrailingZeros l with
  | nil =>
    rcases h with h | h
    · exact absurd hl h
    · simp [h]
  | cons r rs => rfl

theorem stripTrailingZeros_fixed_ne (j : Nat) :
    ∀ f : Nat, f ≠ 0 → f < 10 ^ j → stripTrailingZeros (fixedDecimal j f) ≠ [] := by
  induction j with
  | zero => intro f h0 h; simp at h; exact absurd h h0
  | succ j ih =>
    intro f h0 h
    rw [fixedDecimal_msd]
    have hd : f / 10 ^ j < 10 := by
      rw [Nat.div_lt_iff_lt_mul (Nat.pos_of_ne_zero (by positivity))]
      rw [pow_succ] at h
      omega
    by_cases hz : f % 10 ^ j = 0
    · have hdz : f / 10 ^ j ≠ 0 := by
        intro hq
        have := Nat.div_add_mod f (10 ^ j)
        rw [hq, hz] at this
        simp at this
        exact h0 this.symm
      rw [stripTrailingZeros_cons _ _ (Or.inr (by rw [Nat.mod_eq_of_lt hd]; omega))]
      simp
    · rw [stripTrailingZeros_cons _ _ (Or.inl (ih _ hz (Nat.mod_lt _ (by positivity))))]
      simp

theorem Buf.read_set_succ (s : Buf) (base res c : Nat) :
    (s.set (base + res) c).read base (res + 1) = s.read base res ++ [c] := by
  rw [Buf.read_succ]
  have e : (s.set (base + res) c).read base res = s.read base res := by
    apply Buf.read_congr
    intro j _ hj
    simp only [Buf.set]
    rw [if_neg (by omega)]
  rw [e]
  simp [Buf.set]

theorem Buf.read_set_end (s : Buf) (base res c : Nat) :
    (s.set (base + res) c).read base res = s.read base res := by
  apply Buf.read_congr
  intro j _ hj
  simp only [Buf.set]
  rw [if_neg (by omega)]

/-- The digit loop on a remainder below the current power of ten: it returns,
and it has appended the digits without their trailing zeros. -/
theorem sPrintDoubleLoop_spec (base j : Nat) :
    ∀ (fuel : Nat) (s : Buf) (res f : Nat), j < fuel → f < 10 ^ j →
      ∃ s2, sPrintDoubleLoop base fuel s res (10 ^ j) f =
          .ok (s2, res + (stripTrailingZeros (fixedDecimal j f)).length) ∧
        s2.read base (res + (stripTrailingZeros (fixedDecimal j f)).length) =
          s.read base res ++ stripTrailingZeros (fixedDecimal j f) ∧
        ∀ i, i < base + res → s2 i = s i := by
  induction j with
  | zero =>
    intro fuel s res f hf h
    have h0 : f = 0 := by simpa using h
    subst h0
    cases fuel with
    | zero => omega
    | succ fuel => exact ⟨s, by simp [sPrintDoubleLoop, fixedDecimal, stripTrailingZeros], by
        simp [fixedDecimal, stripTrailingZeros], fun _ _ => rfl⟩
  | succ j ih =>
    intro fuel s res f hf h
    cases fuel with
    | zero => omega
    | succ fuel =>
      by_cases h0 : f = 0
      · subst h0
        exact ⟨s, by simp [sPrintDoubleLoop, stripTrailingZeros_fixed_zero], by
          simp [stripTrailingZeros_fixed_zero], fun _ _ => rfl⟩
      · have hmul : 10 ^ (j + 1) / 10 = 10 ^ j := by
          rw [pow_succ]; exact Nat.mul_div_cancel _ (by norm_num)
        have hpos : 10 ^ j ≠ 0 := by positivity
        have hd : f / 10 ^ j < 10 := by
          rw [Nat.div_lt_iff_lt_mul (Nat.pos_of_ne_zero hpos)]
          rw [pow_succ] at h
          omega
        have hsub : f - f / 10 ^ j * 10 ^ j = f % 10 ^ j := by
          have := Nat.div_add_mod f (10 ^ j)
          rw [Nat.mul_comm] at this
          omega
        have hch : (f / 10 ^ j + 48) % 256 = f / 10 ^ j % 10 + 48 := by
          rw [Nat.mod_eq_of_lt hd, Nat.mod_eq_of_lt (by omega)]
        obtain ⟨s2, h2, h3, h4⟩ := ih fuel (s.set (base + res) ((f / 10 ^ j + 48) % 256)) (res + 1)
          (f % 10 ^ j) (by omega) (Nat.mod_lt _ (Nat.pos_of_ne_zero hpos))
        have hstrip : stripTrailingZeros (fixedDecimal (j + 1) f) =
            (f / 10 ^ j % 10 + 48) :: stripTrailingZeros (fixedDecimal j (f % 10 ^ j)) := by
          rw [fixedDecimal_msd]
          apply stripTrailingZeros_cons
          by_cases hz : f % 10 ^ j = 0
          · right
            have hdz : f / 10 ^ j ≠ 0 := by
              intro hq
              have := Nat.div_add_mod f (10 ^ j)
              rw [hq, hz] at this
              simp at this
              exact h0 this.symm
            rw [Nat.mod_eq_of_lt hd]; omega
          · exact Or.inl (stripTrailingZeros_fixed_ne j _ hz (Nat.mod_lt _ (Nat.pos_of_ne_zero hpos)))
        refine ⟨s2, ?_, ?_, ?_⟩
        · rw [sPrintDoubleLoop]
          simp only [h0, if_false, hmul, hpos, hsub, h2, hstrip, List.length_cons]
          congr 2
          omega
        · rw [hstrip]
          simp only [List.length_cons]
          have e : res + ((stripTrailingZeros (fixedDecimal j (f % 10 ^ j))).length + 1) =
              res + 1 + (stripTrailingZeros (fixedDecimal j (f % 10 ^ j))).length := by omega
          rw [e, h3, Buf.read_set_succ, hch]
          simp
        · intro i hi
          rw [h4 i (by omega)]
          simp only [Buf.set]
          rw [if_neg (by omega)]

/-! ## The remainder `fract` -/

theorem add_le_of_dvd_of_lt (p a b : Nat) (ha : p ∣ a) (hb : p ∣ b) (h : a < b) : a + p ≤ b := by
  obtain ⟨x, hx⟩ := ha
  obtain ⟨y, hy⟩ := hb
  subst hx; subst hy
  have hxy : x < y := by
    by_contra hc
    have : p * y ≤ p * x := Nat.mul_le_mul_left _ (by omega)
    omega
  have : p * (x + 1) ≤ p * y := Nat.mul_le_mul_left _ (by omega)
  rw [Nat.mul_add] at this
  omega

theorem precision_mul_dblOne (n : Nat) :
    n * precision * dblOne = (n * 48828125) * 2 ^ (11 + 1074) := by
  rw [pow_add, precision, dblOne_eq]
  generalize (2 : Nat) ^ 1074 = D
  ring

theorem roundNE_precision_mul (n : Nat) (h : n < 184467441) :
    roundNE (n * precision * dblOne) = n * precision * dblOne := by
  rw [precision_mul_dblOne]
  exact roundNE_mul_pow (n * 48828125) (11 + 1074) (by omega)

/-- The rounded product stays below the next multiple of `10^11`. -/
theorem roundNE_product_lt (q : Nat) (hq : roundNE q = q) (hn : q / dblOne < 184467441) :
    roundNE (q * precision) < (q / dblOne + 1) * precision * dblOne := by
  have hD : 0 < dblOne := dblOne_pos
  have hqlt : q < (q / dblOne + 1) * dblOne := by
    have := Nat.div_add_mod q dblOne
    have := Nat.mod_lt q hD
    rw [Nat.add_mul, Nat.mul_comm]
    omega
  have hqb : q < 2 ^ (28 + 1074) := by
    have e1 : (q / dblOne + 1) * dblOne ≤ 2 ^ 28 * dblOne := Nat.mul_le_mul_right _ (by omega)
    rw [pow_add, ← dblOne_eq]
    exact lt_of_lt_of_le hqlt e1
  have hbl : bitLen q ≤ 28 + 1074 := bitLen_le_of_lt _ _ hqb
  have hdq : 2 ^ (bitLen q - 53) ∣ q := by
    have := roundNE_dvd q
    rwa [hq] at this
  have hdD : 2 ^ (bitLen q - 53) ∣ (q / dblOne + 1) * dblOne := by
    have hk : bitLen q - 53 ≤ 1074 := by omega
    apply Dvd.dvd.mul_left
    rw [dblOne_eq]
    exact pow_dvd_pow 2 hk
  have hstep := add_le_of_dvd_of_lt _ _ _ hdq hdD hqlt
  have hP : q * precision + 2 ^ (bitLen q - 53) * precision ≤
      (q / dblOne + 1) * precision * dblOne := by
    have := Nat.mul_le_mul_right precision hstep
    rw [Nat.add_mul] at this
    calc q * precision + 2 ^ (bitLen q - 53) * precision
        ≤ (q / dblOne + 1) * dblOne * precision := this
      _ = (q / dblOne + 1) * precision * dblOne := by ring
  have hPb : q * precision < 2 ^ (bitLen q + 37) := by
    rw [pow_add]
    exact Nat.mul_lt_mul'' (lt_two_pow_bitLen q) (by norm_num [precision])
  have hkP : bitLen (q * precision) - 53 ≤ (bitLen q - 53) + 37 := by
    have := bitLen_le_of_lt _ _ hPb
    omega
  have hpow : 2 ^ (bitLen (q * precision) - 53) ≤ 2 ^ (bitLen q - 53) * 2 ^ 37 := by
    rw [← pow_add]
    exact Nat.pow_le_pow_right (by norm_num) hkP
  have herr := roundNE_le_add (q * precision)
  have hX : 0 < 2 ^ (bitLen q - 53) := Nat.two_pow_pos _
  simp only [precision] at hP herr hpow ⊢
  generalize 2 ^ (bitLen q - 53) = X at *
  generalize 2 ^ (bitLen (q * 100000000000) - 53) = Y at *
  generalize roundNE (q * 100000000000) = a at *
  generalize (q / dblOne + 1) * 100000000000 * dblOne = T at *
  omega

theorem fractOf_small (q : Nat) (hq : roundNE q = q) (hn : q / dblOne < 184467441) :
    fractOf q (q / dblOne) = .ok (roundedFract q) ∧ roundedFract q < precision := by
  have hD : 0 < dblOne := dblOne_pos
  have hnp : q / dblOne * precision < 2 ^ 64 := by
    simp only [precision]; omega
  have hb : roundNE (q / dblOne * precision % 2 ^ 64 * dblOne) = q / dblOne * precision * dblOne := by
    rw [Nat.mod_eq_of_lt hnp]
    exact roundNE_precision_mul _ hn
  have hle : q / dblOne * precision * dblOne ≤ q * precision := by
    have := Nat.div_mul_le_self q dblOne
    calc q / dblOne * precision * dblOne = q / dblOne * dblOne * precision := by ring
      _ ≤ q * precision := Nat.mul_le_mul_right _ this
  have hba : q / dblOne * precision * dblOne ≤ roundNE (q * precision) := by
    have := roundNE_mono _ _ hle
    rwa [roundNE_precision_mul _ hn] at this
  have haT := roundNE_product_lt q hq hn
  have hdiff : roundNE (q * precision) - q / dblOne * precision * dblOne < precision * dblOne := by
    have e : (q / dblOne + 1) * precision * dblOne =
        q / dblOne * precision * dblOne + precision * dblOne := by ring
    have key : ∀ A B C T : Nat, T = B + C → A < T → B ≤ A → A - B < C := by
      intro A B C T h1 h2 h3; omega
    exact key _ _ _ _ e haT hba
  have hexact : roundNE (roundNE (q * precision) - q / dblOne * precision * dblOne) =
      roundNE (q * precision) - q / dblOne * precision * dblOne := by
    by_cases h0 : q / dblOne = 0
    · have hz : q / dblOne * precision * dblOne = 0 := by rw [h0]; simp
      rw [hz, Nat.sub_zero]
      exact roundNE_idem _
    · apply roundNE_of_dvd
      have hb1 : precision * dblOne ≤ q / dblOne * precision * dblOne := by
        have h1 : 1 ≤ q / dblOne := Nat.one_le_iff_ne_zero.mpr h0
        have h2 : 1 * precision ≤ q / dblOne * precision := Nat.mul_le_mul_right _ h1
        rw [Nat.one_mul] at h2
        exact Nat.mul_le_mul_right _ h2
      have hlt : roundNE (q * precision) - q / dblOne * precision * dblOne < q * precision :=
        lt_of_lt_of_le hdiff (le_trans hb1 hle)
      have hk1 : bitLen (roundNE (q * precision) - q / dblOne * precision * dblOne) ≤
          bitLen (q * precision) := bitLen_mono _ _ (Nat.le_of_lt hlt)
      have hpd : precision * dblOne < 2 ^ (37 + 1074) := by
        rw [pow_add, ← dblOne_eq]
        exact Nat.mul_lt_mul_of_pos_right (by norm_num [precision]) hD
      have hk2 : bitLen (roundNE (q * precision) - q / dblOne * precision * dblOne) ≤ 37 + 1074 :=
        bitLen_le_of_lt _ _ (lt_trans hdiff hpd)
      generalize hbl : bitLen (roundNE (q * precision) - q / dblOne * precision * dblOne) = bl
        at hk1 hk2 ⊢
      apply Nat.dvd_sub'
      · exact Dvd.dvd.trans (Nat.pow_dvd_pow 2 (by omega)) (roundNE_dvd (q * precision))
      · have hk3 : bl - 53 ≤ 11 + 1074 := by omega
        rw [precision_mul_dblOne]
        exact Dvd.dvd.mul_left (pow_dvd_pow 2 hk3) _
  have hdiv : (roundNE (q * precision) - q / dblOne * precision * dblOne) / dblOne =
      roundedFract q := by
    rw [roundedFract, Nat.mul_comm (q / dblOne * precision) dblOne, Nat.sub_mul_div]
    rw [Nat.mul_comm]; exact hba
  have hfr : roundedFract q < precision := by
    rw [← hdiv, Nat.div_lt_iff_lt_mul hD]
    exact hdiff
  refine ⟨?_, hfr⟩
  unfold fractOf
  simp only [hb, hba, if_true, hexact, toQuint64, hdiv]
  rw [if_pos (lt_trans hfr (by norm_num [precision]))]

/-! ## `sPrintDouble` -/

theorem sPrintDouble_nonneg (s : Buf) (base q : Nat) :
    sPrintDouble s base (Double.finite false q) = sPrintDoubleAbs s base q := by
  unfold sPrintDouble
  rfl

theorem sPrintDouble_neg (s : Buf) (base q : Nat) (h : q ≠ 0) :
    sPrintDouble s base (Double.finite true q) =
      match sPrintDoubleAbs (s.set base 45) (base + 1) q with
      | .error e => .error e
      | .ok (s1, len) => .ok (s1, len + 1) := by
  cases q with
  | zero => exact absurd rfl h
  | succ q => rfl

theorem precision_eq : precision = 10 ^ 11 := by
  norm_num [precision]

/-- The part of `sPrintDouble` after the sign, on a value whose integral part is
below `184467441`. -/
theorem sPrintDoubleAbs_small (s : Buf) (base q : Nat) (hq : roundNE q = q)
    (hn : q / dblOne < 184467441) :
    ∃ s1, sPrintDoubleAbs s base q =
        .ok (s1, (doubleText (q / dblOne) (roundedFract q)).length) ∧
      s1.read base (doubleText (q / dblOne) (roundedFract q)).length =
        doubleText (q / dblOne) (roundedFract q) ∧
      ∀ i, i < base → s1 i = s i := by
  obtain ⟨hf, hr⟩ := fractOf_small q hq hn
  obtain ⟨s1, h1, h2, h3⟩ := sPrintUint_spec s base (q / dblOne) (by omega)
  have htq : toQuint64 q = .ok (q / dblOne) := by
    unfold toQuint64
    rw [if_pos (by omega)]
  unfold sPrintDoubleAbs
  simp only [htq, hf, h1]
  by_cases h0 : roundedFract q = 0
  · refine ⟨s1.set (base + (decimal (q / dblOne)).length) 0, ?_, ?_, ?_⟩
    · simp [h0, doubleText]
    · simp only [doubleText, h0, if_true, List.append_nil]
      rw [Buf.read_set_end, h2]
    · intro i hi
      simp only [Buf.set]
      rw [if_neg (by omega)]
      exact h3 i hi
  · have hr11 : roundedFract q < 10 ^ 11 := by rw [← precision_eq]; exact hr
    obtain ⟨s2, l1, l2, l3⟩ := sPrintDoubleLoop_spec base 11 12
      (s1.set (base + (decimal (q / dblOne)).length) 46) ((decimal (q / dblOne)).length + 1)
      (roundedFract q) (by omega) hr11
    have hpad : padDecimal 11 (roundedFract q) = fixedDecimal 11 (roundedFract q) :=
      padDecimal_eq_fixed 10 _ hr11
    have hlen : (doubleText (q / dblOne) (roundedFract q)).length =
        (decimal (q / dblOne)).length + 1 +
          (stripTrailingZeros (fixedDecimal 11 (roundedFract q))).length := by
      simp [doubleText, h0, hpad]
      omega
    refine ⟨s2.set (base + ((decimal (q / dblOne)).length + 1 +
      (stripTrailingZeros (fixedDecimal 11 (roundedFract q))).length)) 0, ?_, ?_, ?_⟩
    · simp only [h0, ne_eq, not_false_eq_true, if_true, precision_eq, l1, hlen]
    · rw [hlen, Buf.read_set_end, l2, Buf.read_set_succ, h2]
      simp [doubleText, h0, hpad]
    · intro i hi
      simp only [Buf.set]
      rw [if_neg (by omega), l3 i (by omega)]
      simp only [Buf.set]
      rw [if_neg (by omega)]
      exact h3 i hi

/-- C9 (amended): for every finite non-negative double whose integral part `n`
is below 184467441 (so that `n * 10^11` fits 64 bits), `sPrintDouble` returns
and writes the decimal digits of `n`, followed exactly when
`r = floor(fl(value * 10^11)) - n * 10^11` is not zero (`fl` rounds the product
to the nearest double) by a point and the 11-digit zero-padded decimal of `r`
without its trailing zeros; `r < 10^11`.  Witnesses: 0 gives "0", 3.5 gives
"3.5", 3.0 gives "3". -/
theorem sPrintDouble_text :
    (∀ (s : Buf) (base q : Nat), isDoubleMag q → q / dblOne < 184467441 →
      roundedFract q < 10 ^ 11 ∧
      ∃ s1, sPrintDouble s base (Double.finite false q) =
          .ok (s1, (doubleText (q / dblOne) (roundedFract q)).length) ∧
        s1.read base (doubleText (q / dblOne) (roundedFract q)).length =
          doubleText (q / dblOne) (roundedFract q)) ∧
    (∀ (s : Buf) (base : Nat), ∃ s1,
      sPrintDouble s base (Double.finite false 0) = .ok (s1, 1) ∧ s1.read base 1 = bytes "0") ∧
    (∀ (s : Buf) (base : Nat), ∃ s1,
      sPrintDouble s base (Double.finite false (7 * 2 ^ 1073)) = .ok (s1, 3) ∧
        s1.read base 3 = bytes "3.5") ∧
    (∀ (s : Buf) (base : Nat), ∃ s1,
      sPrintDouble s base (Double.finite false (3 * 2 ^ 1074)) = .ok (s1, 1) ∧
        s1.read base 1 = bytes "3") := by
  have main : ∀ (s : Buf) (base q : Nat), isDoubleMag q → q / dblOne < 184467441 →
      roundedFract q < 10 ^ 11 ∧
      ∃ s1, sPrintDouble s base (Double.finite false q) =
          .ok (s1, (doubleText (q / dblOne) (roundedFract q)).length) ∧
        s1.read base (doubleText (q / dblOne) (roundedFract q)).length =
          doubleText (q / dblOne) (roundedFract q) := by
    intro s base q hq hn
    obtain ⟨s1, h1, h2, _⟩ := sPrintDoubleAbs_small s base q hq.1 hn
    refine ⟨?_, s1, ?_, h2⟩
    · rw [← precision_eq]; exact (fractOf_small q hq.1 hn).2
    · rw [sPrintDouble_nonneg]; exact h1
  refine ⟨main, ?_, ?_, ?_⟩
  · intro s base
    have e : doubleText (0 / dblOne) (roundedFract 0) = bytes "0" := by decide!
    obtain ⟨_, s1, h1, h2⟩ := main s base 0 (by decide!) (by decide!)
    rw [e] at h1 h2
    exact ⟨s1, h1, h2⟩
  · intro s base
    have e : doubleText (7 * 2 ^ 1073 / dblOne) (roundedFract (7 * 2 ^ 1073)) = bytes "3.5" := by
      decide!
    obtain ⟨_, s1, h1, h2⟩ := main s base (7 * 2 ^ 1073) (by decide!) (by decide!)
    rw [e] at h1 h2
    exact ⟨s1, h1, h2⟩
  · intro s base
    have e : doubleText (3 * 2 ^ 1074 / dblOne) (roundedFract (3 * 2 ^ 1074)) = bytes "3" := by
      decide!
    obtain ⟨_, s1, h1, h2⟩ := main s base (3 * 2 ^ 1074) (by decide!) (by decide!)
    rw [e] at h1 h2
    exact ⟨s1, h1, h2⟩

theorem sPrintDouble_text_witness :
    isDoubleMag (2 ^ 1072) ∧ 2 ^ 1072 / dblOne < 184467441 ∧
      roundedFract (2 ^ 1072) < 10 ^ 11 ∧
      ∃ s1, sPrintDouble (fun _ => 0) 0 (Double.finite false (2 ^ 1072)) =
          .ok (s1, (doubleText (2 ^ 1072 / dblOne) (roundedFract (2 ^ 1072))).length) ∧
        s1.read 0 (doubleText (2 ^ 1072 / dblOne) (roundedFract (2 ^ 1072))).length =
          doubleText (2 ^ 1072 / dblOne) (roundedFract (2 ^ 1072)) :=
  ⟨by decide!, by decide!, sPrintDouble_text.1 (fun _ => 0) 0 (2 ^ 1072) (by decide!) (by decide!)⟩

/-- C9 as stated fails.  At 184467440.5, a double whose integral part fits 64
bits, the stated formula gives "184467440.5" and the code writes
"184467440.49999998976" (the product `value * 10^11` is rounded to a double
before the integral part is subtracted).  At 184467441.0 the stated formula
gives "184467441" and the code writes "184467441.", the byte 0x97 and
"3709549568" (`n * precision` has wrapped modulo `2^64`). -/
theorem sPrintDouble_claimed_text_fails :
    (isDoubleMag (368934881 * 2 ^ 1073) ∧ 368934881 * 2 ^ 1073 / dblOne < 2 ^ 64 ∧
      claimedDoubleText (368934881 * 2 ^ 1073) = bytes "184467440.5" ∧
      (sPrintDouble (fun _ => 0) 0 (Double.finite false (368934881 * 2 ^ 1073))).map
        (fun r => r.1.read 0 r.2) = .ok (bytes "184467440.49999998976")) ∧
    (isDoubleMag (184467441 * 2 ^ 1074) ∧ 184467441 * 2 ^ 1074 / dblOne < 2 ^ 64 ∧
      claimedDoubleText (184467441 * 2 ^ 1074) = bytes "184467441" ∧
      (sPrintDouble (fun _ => 0) 0 (Double.finite false (184467441 * 2 ^ 1074))).map
        (fun r => r.1.read 0 r.2) = .ok (bytes "184467441." ++ [151] ++ bytes "3709549568")) := by
  refine ⟨⟨by decide!, by decide!, by decide!, by decide!⟩,
    ⟨by decide!, by decide!, by decide!, by decide!⟩⟩

/-! ## The remainder after the 64-bit product has wrapped -/

theorem two_pow_mul_dblOne (e : Nat) : 2 ^ e * dblOne = 2 ^ (e + 1074) := by
  rw [pow_add, dblOne_eq]

theorem roundNE_two_pow_mul_dblOne (e : Nat) : roundNE (2 ^ e * dblOne) = 2 ^ e * dblOne := by
  rw [two_pow_mul_dblOne]
  have := roundNE_mul_pow 1 (e + 1074) (by norm_num)
  simpa using this

theorem bitLen_mul_dblOne_le (x e : Nat) (h : x < 2 ^ e) : bitLen (x * dblOne) ≤ e + 1074 := by
  apply bitLen_le_of_lt
  rw [← two_pow_mul_dblOne]
  exact Nat.mul_lt_mul_of_pos_right h dblOne_pos

/-- When the integral part is 184467441 or more and the conversion of the
difference is defined, the remainder is one of two values just below `2^64`. -/
theorem fractOf_large (q fract : Nat) (hn : 184467441 ≤ q / dblOne)
    (h : fractOf q (q / dblOne) = .ok fract) :
    q / dblOne < 368934882 ∧ (fract = 2 ^ 64 - 4096 ∨ fract = 2 ^ 64 - 2048) := by
  have hD := dblOne_pos
  have hle : q / dblOne * precision * dblOne ≤ q * precision := by
    have := Nat.div_mul_le_self q dblOne
    calc q / dblOne * precision * dblOne = q / dblOne * dblOne * precision := by ring
      _ ≤ q * precision := Nat.mul_le_mul_right _ this
  have ha0 := roundNE_mono _ _ hle
  have hW : q / dblOne * precision % 2 ^ 64 < 2 ^ 64 := Nat.mod_lt _ (by norm_num)
  have hb : roundNE (q / dblOne * precision % 2 ^ 64 * dblOne) ≤ 2 ^ 64 * dblOne := by
    have := roundNE_mono _ _ (Nat.mul_le_mul_right dblOne (Nat.le_of_lt hW))
    rwa [roundNE_two_pow_mul_dblOne] at this
  have hX64 : 2 ^ 64 ≤ q / dblOne * precision := by
    simp only [precision]; omega
  by_cases hbig : 2 ^ 65 ≤ q / dblOne * precision
  · exfalso
    have h1 := roundNE_mono _ _ (Nat.mul_le_mul_right dblOne hbig)
    rw [roundNE_two_pow_mul_dblOne] at h1
    have e65 : 2 ^ 65 * dblOne = 2 ^ 64 * dblOne + 2 ^ 64 * dblOne := by ring
    have hba : roundNE (q / dblOne * precision % 2 ^ 64 * dblOne) ≤ roundNE (q * precision) := by
      omega
    have hdiff : 2 ^ 64 * dblOne ≤
        roundNE (q * precision) - roundNE (q / dblOne * precision % 2 ^ 64 * dblOne) := by
      omega
    have h2 := roundNE_mono _ _ hdiff
    rw [roundNE_two_pow_mul_dblOne] at h2
    have h3 : 2 ^ 64 ≤ roundNE (roundNE (q * precision) -
        roundNE (q / dblOne * precision % 2 ^ 64 * dblOne)) / dblOne := by
      rw [Nat.le_div_iff_mul_le hD]; exact h2
    unfold fractOf at h
    simp only [hba, if_true, toQuint64] at h
    rw [if_neg (by omega)] at h
    exact absurd h (by simp)
  · have hX65 : q / dblOne * precision < 2 ^ 65 := by omega
    have hnlt : q / dblOne < 368934882 := by
      simp only [precision] at hX65; omega
    refine ⟨hnlt, ?_⟩
    have hWeq : q / dblOne * precision = q / dblOne * precision % 2 ^ 64 + 2 ^ 64 := by
      have := Nat.div_add_mod (q / dblOne * precision) (2 ^ 64)
      have hdiv : q / dblOne * precision / 2 ^ 64 = 1 := by
        apply Nat.div_eq_of_lt_le <;> omega
      rw [hdiv] at this
      omega
    have hP : q / dblOne * precision * dblOne =
        q / dblOne * precision % 2 ^ 64 * dblOne + 2 ^ 64 * dblOne := by
      conv_lhs => rw [hWeq]
      ring
    have hk1 : 2 ^ (bitLen (q / dblOne * precision * dblOne) - 53) ≤ 4096 * dblOne := by
      have := bitLen_mul_dblOne_le _ 65 hX65
      have e : 4096 * dblOne = 2 ^ (12 + 1074) := by
        rw [← two_pow_mul_dblOne]; norm_num
      have hk : bitLen (q / dblOne * precision * dblOne) - 53 ≤ 12 + 1074 := by omega
      rw [e]
      generalize 12 + 1074 = E at hk ⊢
      exact Nat.pow_le_pow_of_le_right (by norm_num) hk
    have hk2 : 2 ^ (bitLen (q / dblOne * precision % 2 ^ 64 * dblOne) - 53) ≤ 2048 * dblOne := by
      have := bitLen_mul_dblOne_le _ 64 hW
      have e : 2048 * dblOne = 2 ^ (11 + 1074) := by
        rw [← two_pow_mul_dblOne]; norm_num
      have hk : bitLen (q / dblOne * precision % 2 ^ 64 * dblOne) - 53 ≤ 11 + 1074 := by omega
      rw [e]
      generalize 11 + 1074 = E at hk ⊢
      exact Nat.pow_le_pow_of_le_right (by norm_num) hk
    have e1 := le_roundNE_add (q / dblOne * precision * dblOne)
    have e2 := roundNE_le_add (q / dblOne * precision % 2 ^ 64 * dblOne)
    have hlow : (2 ^ 64 - 3072) * dblOne + roundNE (q / dblOne * precision % 2 ^ 64 * dblOne) ≤
        roundNE (q * precision) := by
      have e3 : (2 ^ 64 - 3072) * dblOne + 3072 * dblOne = 2 ^ 64 * dblOne := by
        rw [← Nat.add_mul]; norm_num
      omega
    have hba : roundNE (q / dblOne * precision % 2 ^ 64 * dblOne) ≤ roundNE (q * precision) := by
      omega
    have hL : (2 ^ 52 - 1) * 2 ^ (12 + 1074) ≤
        roundNE (q * precision) - roundNE (q / dblOne * precision % 2 ^ 64 * dblOne) := by
      have e4 : (2 ^ 52 - 1) * 2 ^ (12 + 1074) = (2 ^ 64 - 4096) * dblOne := by
        rw [← two_pow_mul_dblOne, ← Nat.mul_assoc]; norm_num
      have e5 : (2 ^ 64 - 4096) * dblOne + 1024 * dblOne = (2 ^ 64 - 3072) * dblOne := by
        rw [← Nat.add_mul]; norm_num
      rw [e4]
      omega
    have hLr := roundNE_mono _ _ hL
    rw [roundNE_mul_pow _ _ (by norm_num)] at hLr
    have hbl : 63 + 1074 < bitLen (roundNE (q * precision) -
        roundNE (q / dblOne * precision % 2 ^ 64 * dblOne)) := by
      apply lt_bitLen_of_le
      refine le_trans ?_ hL
      have e6 : (2 : Nat) ^ (63 + 1074) = 2 ^ 51 * 2 ^ (12 + 1074) := by
        rw [← pow_add]
      rw [e6]
      exact Nat.mul_le_mul_right _ (by norm_num)
    have hdvd : 2 ^ (11 + 1074) ∣ roundNE (roundNE (q * precision) -
        roundNE (q / dblOne * precision % 2 ^ 64 * dblOne)) :=
      Dvd.dvd.trans (pow_dvd_pow 2 (by omega)) (roundNE_dvd _)
    unfold fractOf at h
    simp only [hba, if_true, toQuint64] at h
    split at h
    · rename_i hlt
      injection h with h
      obtain ⟨t, ht⟩ := hdvd
      have e7 : (2 : Nat) ^ (11 + 1074) * t = t * 2048 * dblOne := by
        rw [← two_pow_mul_dblOne]
        generalize dblOne = D
        ring
      rw [ht, e7] at hlt h hLr
      rw [Nat.mul_div_cancel _ hD] at hlt h
      have e8 : (2 ^ 52 - 1) * 2 ^ (12 + 1074) = (2 ^ 64 - 4096) * dblOne := by
        rw [← two_pow_mul_dblOne, ← Nat.mul_assoc]; norm_num
      rw [e8] at hLr
      have hge : 2 ^ 64 - 4096 ≤ t * 2048 := Nat.le_of_mul_le_mul_right hLr hD
      omega
    · exact absurd h (by simp)

/-! ## The characters `sPrintDouble` writes -/

theorem decimal_digits (n : Nat) : ∀ c ∈ decimal n, 48 ≤ c ∧ c ≤ 57 := by
  induction n using Nat.strong_induction_on with
  | _ n ih =>
    intro c hc
    by_cases h : n < 10
    · rw [decimal_lt_ten n h] at hc
      simp at hc
      omega
    · rw [decimal_ge_ten n (by omega)] at hc
      rcases List.mem_append.mp hc with h1 | h1
      · exact ih (n / 10) (by omega) c h1
      · simp at h1
        omega

theorem fixedDecimal_digits (j : Nat) : ∀ (f : Nat), ∀ c ∈ fixedDecimal j f, 48 ≤ c ∧ c ≤ 57 := by
  induction j with
  | zero => intro f c hc; simp [fixedDecimal] at hc
  | succ j ih =>
    intro f c hc
    rw [fixedDecimal] at hc
    rcases List.mem_append.mp hc with h1 | h1
    · exact ih _ c h1
    · simp at h1
      omega

theorem stripTrailingZeros_last (l : Bytes) :
    ∀ c, (stripTrailingZeros l).getLast? = some c → c ≠ 48 ∧ c ∈ l := by
  induction l with
  | nil => intro c h; simp [stripTrailingZeros] at h
  | cons c0 rest ih =>
    intro c h
    rw [stripTrailingZeros] at h
    cases hr : stripTrailingZeros rest with
    | nil =>
      rw [hr] at h
      by_cases h48 : c0 = 48
      · simp [h48] at h
      · simp [h48] at h
        subst h
        exact ⟨h48, by simp⟩
    | cons r rs =>
      rw [hr] at h ih
      simp only [List.getLast?_cons_cons] at h
      obtain ⟨h1, h2⟩ := ih c h
      exact ⟨h1, List.mem_cons_of_mem _ h2⟩

theorem stripTrailingZeros_fixed_last (j f : Nat) (h0 : f ≠ 0) (h : f < 10 ^ j) :
    ∃ c, (stripTrailingZeros (fixedDecimal j f)).getLast? = some c ∧ 49 ≤ c ∧ c ≤ 57 := by
  have hne := stripTrailingZeros_fixed_ne j f h0 h
  obtain ⟨c, hc⟩ : ∃ c, (stripTrailingZeros (fixedDecimal j f)).getLast? = some c := by
    cases hl : stripTrailingZeros (fixedDecimal j f) with
    | nil => exact absurd hl hne
    | cons x xs => exact ⟨_, List.getLast?_eq_getLast _ (by simp)⟩
  obtain ⟨h1, h2⟩ := stripTrailingZeros_last _ c hc
  have := fixedDecimal_digits j f c h2
  exact ⟨c, hc, by omega, by omega⟩

/-- The digit loop entered with `mul = 10^11` on any remainder that is not a
multiple of `10^10`: one character for the quotient by `10^10`, then the digits
of the rest without their trailing zeros. -/
theorem sPrintDoubleLoop_first (base : Nat) (s : Buf) (res f : Nat)
    (h0 : f % 10 ^ 10 ≠ 0) :
    ∃ s2, sPrintDoubleLoop base 12 s res precision f =
        .ok (s2, res + 1 + (stripTrailingZeros (fixedDecimal 10 (f % 10 ^ 10))).length) ∧
      s2.read base (res + 1 + (stripTrailingZeros (fixedDecimal 10 (f % 10 ^ 10))).length) =
        s.read base res ++ [(f / 10 ^ 10 + 48) % 256] ++
          stripTrailingZeros (fixedDecimal 10 (f % 10 ^ 10)) ∧
      ∀ i, i < base + res → s2 i = s i := by
  have hf : f ≠ 0 := by
    intro hz; subst hz; simp at h0
  have hsub : f - f / 10 ^ 10 * 10 ^ 10 = f % 10 ^ 10 := by
    have := Nat.div_add_mod f (10 ^ 10)
    rw [Nat.mul_comm] at this
    omega
  obtain ⟨s2, h2, h3, h4⟩ := sPrintDoubleLoop_spec base 10 11
    (s.set (base + res) ((f / 10 ^ 10 + 48) % 256)) (res + 1) (f % 10 ^ 10) (by omega)
    (Nat.mod_lt _ (by norm_num))
  refine ⟨s2, ?_, ?_, ?_⟩
  · rw [sPrintDoubleLoop]
    have hm : precision / 10 = 10 ^ 10 := by norm_num [precision]
    simp only [hf, if_false, hm, hsub]
    rw [if_neg (by norm_num)]
    exact h2
  · rw [h3, Buf.read_set_succ]
  · intro i hi
    rw [h4 i (by omega)]
    simp only [Buf.set]
    rw [if_neg (by omega)]

/-- The shape of every text the unsigned part of `sPrintDouble` returns. -/
theorem sPrintDoubleAbs_form (s : Buf) (base q : Nat) (hq : roundNE q = q) (s1 : Buf) (len : Nat)
    (h : sPrintDoubleAbs s base q = .ok (s1, len)) :
    ∃ fract T, fractOf q (q / dblOne) = .ok fract ∧ (∀ i, i < base → s1 i = s i) ∧
      s1.read base len = decimal (q / dblOne) ++ (if fract = 0 then [] else 46 :: T) ∧
      (fract ≠ 0 → ∃ c, T.getLast? = some c ∧ 49 ≤ c ∧ c ≤ 57) := by
  by_cases hn : q / dblOne < 184467441
  · obtain ⟨hf, hr⟩ := fractOf_small q hq hn
    obtain ⟨s2, h1, h2, h3⟩ := sPrintDoubleAbs_small s base q hq hn
    rw [h1] at h
    injection h with h
    injection h with hs hl
    subst hs; subst hl
    have hr11 : roundedFract q < 10 ^ 11 := by rw [← precision_eq]; exact hr
    refine ⟨roundedFract q, stripTrailingZeros (padDecimal 11 (roundedFract q)), hf, h3, ?_, ?_⟩
    · rw [h2, doubleText]
    · intro h0
      rw [padDecimal_eq_fixed 10 _ hr11]
      exact stripTrailingZeros_fixed_last 11 _ h0 hr11
  · unfold sPrintDoubleAbs at h
    unfold toQuint64 at h
    split at h
    · exact absurd h (by simp)
    · rename_i n hn2
      split at hn2
      · injection hn2 with hn2
        subst hn2
        split at h
        · exact absurd h (by simp)
        · rename_i fract hfr
          obtain ⟨hlt, hcases⟩ := fractOf_large q fract (by omega) hfr
          obtain ⟨s2, u1, u2, u3⟩ := sPrintUint_spec s base (q / dblOne) (by omega)
          rw [u1] at h
          simp only [] at h
          have hmod : fract % 10 ^ 10 ≠ 0 := by
            rcases hcases with hc | hc <;> rw [hc] <;> norm_num
          have hf0 : fract ≠ 0 := by
            intro hz; rw [hz] at hmod; simp at hmod
          obtain ⟨s3, l1, l2, l3⟩ := sPrintDoubleLoop_first base
            (s2.set (base + (decimal (q / dblOne)).length) 46) ((decimal (q / dblOne)).length + 1)
            fract hmod
          rw [if_pos hf0, l1] at h
          simp only [] at h
          injection h with h
          injection h with hs hl
          subst hs; subst hl
          refine ⟨fract, [(fract / 10 ^ 10 + 48) % 256] ++
            stripTrailingZeros (fixedDecimal 10 (fract % 10 ^ 10)), hfr, ?_, ?_, ?_⟩
          · intro i hi
            simp only [Buf.set]
            rw [if_neg (by omega), l3 i (by omega)]
            simp only [Buf.set]
            rw [if_neg (by omega)]
            exact u3 i hi
          · rw [Buf.read_set_end, l2, Buf.read_set_succ, u2, if_neg hf0]
            simp
          · intro _
            obtain ⟨c, hc, hb⟩ := stripTrailingZeros_fixed_last 10 (fract % 10 ^ 10) hmod
              (Nat.mod_lt _ (by norm_num))
            refine ⟨c, ?_, hb⟩
            rw [List.getLast?_append, hc]
            simp
      · exact absurd hn2 (by simp)

/-- The digit loop entered with `mul = 10^11` returns on every remainder: the
bound of twelve rounds is never what stops it. -/
theorem sPrintDoubleLoop_returns (base : Nat) (s : Buf) (res f : Nat) :
    ∃ r, sPrintDoubleLoop base 12 s res precision f = .ok r := by
  by_cases h0 : f % 10 ^ 10 = 0
  · by_cases hf : f = 0
    · exact ⟨(s, res), by rw [sPrintDoubleLoop, if_pos hf]⟩
    · have hm : precision / 10 = 10 ^ 10 := by norm_num [precision]
      have hsub : f - f / 10 ^ 10 * 10 ^ 10 = 0 := by
        have := Nat.div_add_mod f (10 ^ 10)
        rw [Nat.mul_comm] at this
        omega
      refine ⟨(s.set (base + res) ((f / 10 ^ 10 + 48) % 256), res + 1), ?_⟩
      rw [sPrintDoubleLoop]
      simp only [hf, if_false, hm, hsub]
      rw [if_neg (by norm_num), sPrintDoubleLoop]
      simp
  · obtain ⟨s2, h2, _, _⟩ := sPrintDoubleLoop_first base s res f h0
    exact ⟨_, h2⟩

theorem Buf.read_shift (s : Buf) (base len : Nat) :
    s.read base (len + 1) = s base :: s.read (base + 1) len := by
  simp only [Buf.read, List.range_succ_eq_map, List.map_cons, List.map_map, Nat.add_zero]
  congr 1
  apply List.map_congr_left
  intro j _
  simp only [Function.comp]
  congr 1
  omega

theorem point_of_form (n fract : Nat) (T : Bytes)
    (hT : fract ≠ 0 → ∃ c, T.getLast? = some c ∧ 49 ≤ c ∧ c ≤ 57) :
    (46 ∈ decimal n ++ (if fract = 0 then [] else 46 :: T) → fract ≠ 0) ∧
      (46 ∈ decimal n ++ (if fract = 0 then [] else 46 :: T) →
        ∃ c, (decimal n ++ (if fract = 0 then [] else 46 :: T)).getLast? = some c ∧
          49 ≤ c ∧ c ≤ 57) := by
  have hmem : 46 ∈ decimal n ++ (if fract = 0 then [] else 46 :: T) → fract ≠ 0 := by
    intro h hz
    rw [if_pos hz, List.append_nil] at h
    have := decimal_digits n 46 h
    omega
  refine ⟨hmem, ?_⟩
  intro h
  have hf := hmem h
  obtain ⟨c, hc, hb⟩ := hT hf
  refine ⟨c, ?_, hb⟩
  rw [if_neg hf, List.getLast?_append, List.getLast?_cons, hc]
  simp

/-- In every text `sPrintDouble` returns, a point appears only if the remainder
`fract` the code computes (also a wrapped one) is not zero, and a text with a
point ends in a digit '1'..'9': never in '0', never in the point. -/
theorem sPrintDouble_point (s : Buf) (base : Nat) (d : Double) (hd : d.WF) (s1 : Buf) (len : Nat)
    (h : sPrintDouble s base d = .ok (s1, len)) :
    ∃ neg q fract, d = Double.finite neg q ∧ fractOf q (q / dblOne) = .ok fract ∧
      (46 ∈ s1.read base len → fract ≠ 0) ∧
      (46 ∈ s1.read base len → ∃ c, (s1.read base len).getLast? = some c ∧ 49 ≤ c ∧ c ≤ 57) := by
  cases d with
  | nan =>
    have e : sPrintDouble s base Double.nan = .error .undefined := rfl
    rw [e] at h
    exact absurd h (by simp)
  | inf neg =>
    have e : sPrintDouble s base (Double.inf neg) = .error .undefined := by
      cases neg <;> rfl
    rw [e] at h
    exact absurd h (by simp)
  | finite neg q =>
    have hq : roundNE q = q := hd.1
    by_cases hneg : neg = true ∧ q ≠ 0
    · obtain ⟨hn1, hn2⟩ := hneg
      subst hn1
      rw [sPrintDouble_neg s base q hn2] at h
      split at h
      · exact absurd h (by simp)
      · rename_i s2 len2 habs
        injection h with h
        injection h with hs hl
        subst hs; subst hl
        obtain ⟨fract, T, hf, hpres, hread, hT⟩ :=
          sPrintDoubleAbs_form (s.set base 45) (base + 1) q hq s2 len2 habs
        have h45 : s2 base = 45 := by
          rw [hpres base (by omega)]
          simp [Buf.set]
        obtain ⟨p1, p2⟩ := point_of_form (q / dblOne) fract T hT
        refine ⟨true, q, fract, rfl, hf, ?_, ?_⟩
        · intro hm
          rw [Buf.read_shift, h45, hread] at hm
          rcases List.mem_cons.mp hm with h1 | h1
          · omega
          · exact p1 h1
        · intro hm
          rw [Buf.read_shift, h45, hread] at hm ⊢
          rcases List.mem_cons.mp hm with h1 | h1
          · omega
          · obtain ⟨c, hc, hb⟩ := p2 h1
            refine ⟨c, ?_, hb⟩
            rw [List.getLast?_cons, hc]
            simp
    · have habs : sPrintDouble s base (Double.finite neg q) = sPrintDoubleAbs s base q := by
        cases neg with
        | false => exact sPrintDouble_nonneg s base q
        | true =>
          have hz : q = 0 := by
            by_contra hc
            exact hneg ⟨rfl, hc⟩
          subst hz
          rfl
      rw [habs] at h
      obtain ⟨fract, T, hf, _, hread, hT⟩ := sPrintDoubleAbs_form s base q hq s1 len h
      obtain ⟨p1, p2⟩ := point_of_form (q / dblOne) fract T hT
      refine ⟨neg, q, fract, rfl, hf, ?_, ?_⟩
      · intro hm
        rw [hread] at hm
        exact p1 hm
      · intro hm
        rw [hread] at hm ⊢
        exact p2 hm

/-- The text of a double, of either sign, with an integral part below 184467441. -/
theorem sPrintDouble_small_text (s : Buf) (base : Nat) (neg : Bool) (q : Nat)
    (hq : roundNE q = q) (hn : q / dblOne < 184467441) :
    ∃ s1 len, sPrintDouble s base (Double.finite neg q) = .ok (s1, len) ∧
      (s1.read base len = doubleText (q / dblOne) (roundedFract q) ∨
        s1.read base len = 45 :: doubleText (q / dblOne) (roundedFract q)) := by
  by_cases hneg : neg = true ∧ q ≠ 0
  · obtain ⟨hn1, hn2⟩ := hneg
    subst hn1
    obtain ⟨s1, h1, h2, h3⟩ := sPrintDoubleAbs_small (s.set base 45) (base + 1) q hq hn
    refine ⟨s1, (doubleText (q / dblOne) (roundedFract q)).length + 1, ?_, Or.inr ?_⟩
    · rw [sPrintDouble_neg s base q hn2, h1]
    · rw [Buf.read_shift, h2, h3 base (by omega)]
      simp [Buf.set]
  · have habs : sPrintDouble s base (Double.finite neg q) = sPrintDoubleAbs s base q := by
      cases neg with
      | false => exact sPrintDouble_nonneg s base q
      | true =>
        have hz : q = 0 := by
          by_contra hc
          exact hneg ⟨rfl, hc⟩
        subst hz
        rfl
    obtain ⟨s1, h1, h2, _⟩ := sPrintDoubleAbs_small s base q hq hn
    exact ⟨s1, _, by rw [habs, h1], Or.inl h2⟩

/-- C10 (amended): for every finite double, of either sign, whose magnitude has
an integral part `n` below 184467441, `sPrintDouble` returns, the text has a
point exactly when `r = floor(fl(|value| * 10^11)) - n * 10^11` is not zero
(`fl` rounds the product to the nearest double), and a text with a point ends
in a digit '1'..'9': never in '0', never in the point. -/
theorem sPrintDouble_point_rounded (s : Buf) (base : Nat) (neg : Bool) (q : Nat)
    (hq : isDoubleMag q) (hn : q / dblOne < 184467441) :
    ∃ s1 len, sPrintDouble s base (Double.finite neg q) = .ok (s1, len) ∧
      (46 ∈ s1.read base len ↔ roundedFract q ≠ 0) ∧
      (46 ∈ s1.read base len →
        ∃ c, (s1.read base len).getLast? = some c ∧ 49 ≤ c ∧ c ≤ 57) := by
  obtain ⟨s1, len, h1, h2⟩ := sPrintDouble_small_text s base neg q hq.1 hn
  have hr11 : roundedFract q < 10 ^ 11 := by
    rw [← precision_eq]; exact (fractOf_small q hq.1 hn).2
  obtain ⟨p1, p2⟩ := point_of_form (q / dblOne) (roundedFract q)
    (stripTrailingZeros (padDecimal 11 (roundedFract q))) (by
      intro h0
      rw [padDecimal_eq_fixed 10 _ hr11]
      exact stripTrailingZeros_fixed_last 11 _ h0 hr11)
  have hback : roundedFract q ≠ 0 → 46 ∈ doubleText (q / dblOne) (roundedFract q) := by
    intro h0
    rw [doubleText, if_neg h0]
    simp
  refine ⟨s1, len, h1, ?_, ?_⟩
  · rcases h2 with h2 | h2
    · rw [h2]
      exact ⟨p1, hback⟩
    · rw [h2]
      constructor
      · intro hm
        rcases List.mem_cons.mp hm with h | h
        · omega
        · exact p1 h
      · intro h0
        exact List.mem_cons_of_mem _ (hback h0)
  · rcases h2 with h2 | h2
    · rw [h2]
      exact p2
    · rw [h2]
      intro hm
      rcases List.mem_cons.mp hm with h | h
      · omega
      · obtain ⟨c, hc, hb⟩ := p2 h
        refine ⟨c, ?_, hb⟩
        rw [List.getLast?_cons]
        unfold doubleText
        rw [hc]
        simp

theorem sPrintDouble_point_rounded_witness :
    isDoubleMag (2 ^ 1072) ∧ 2 ^ 1072 / dblOne < 184467441 ∧
    ∃ s1 len, sPrintDouble (fun _ => 0) 0 (Double.finite true (2 ^ 1072)) = .ok (s1, len) ∧
      (46 ∈ s1.read 0 len ↔ roundedFract (2 ^ 1072) ≠ 0) ∧
      (46 ∈ s1.read 0 len → ∃ c, (s1.read 0 len).getLast? = some c ∧ 49 ≤ c ∧ c ≤ 57) :=
  ⟨by decide!, by decide!,
    sPrintDouble_point_rounded (fun _ => 0) 0 true (2 ^ 1072) (by decide!) (by decide!)⟩

/-- C10 as stated fails.  At the double nearest to 11.00000000001, which is
below it, the truncated fractional remainder `floor((value - 11) * 10^11)` is 0
and the code writes "11.00000000001", a text with a point (the product
`value * 10^11` is rounded up to a double before the integral part is
subtracted).  At 184467441.0 the remainder is 0 as well, under both readings,
and the text has a point: the code's `fract` is `2^64 - 2048` (`n * precision`
has wrapped modulo `2^64`). -/
theorem sPrintDouble_point_fails :
    (isDoubleMag (6192449487640061 * 2 ^ 1025) ∧
      6192449487640061 * 2 ^ 1025 / dblOne = 11 ∧
      6192449487640061 * 2 ^ 1025 % dblOne ≠ 0 ∧
      exactFract (6192449487640061 * 2 ^ 1025) = 0 ∧
      (sPrintDouble (fun _ => 0) 0 (Double.finite false (6192449487640061 * 2 ^ 1025))).map
        (fun r => r.1.read 0 r.2) = .ok (bytes "11.00000000001") ∧
      46 ∈ bytes "11.00000000001") ∧
    (isDoubleMag (184467441 * 2 ^ 1074) ∧ 184467441 * 2 ^ 1074 % dblOne = 0 ∧
      exactFract (184467441 * 2 ^ 1074) = 0 ∧ roundedFract (184467441 * 2 ^ 1074) = 0 ∧
      fractOf (184467441 * 2 ^ 1074) 184467441 = .ok (2 ^ 64 - 2048) ∧
      (sPrintDouble (fun _ => 0) 0 (Double.finite false (184467441 * 2 ^ 1074))).map
        (fun r => r.1.read 0 r.2) = .ok (bytes "184467441." ++ [151] ++ bytes "3709549568") ∧
      46 ∈ bytes "184467441." ++ [151] ++ bytes "3709549568") := by
  refine ⟨⟨by decide!, by decide!, by decide!, by decide!, by decide!, by decide⟩,
    ⟨by decide!, by decide!, by decide!, by decide!, by decide!, by decide!, by decide⟩⟩

/-! ## Negative doubles -/

/-- The text of the unsigned part of `sPrintDouble` past the bound of the scaled
product, where the remainder is one of two wrapped values. -/
theorem sPrintDoubleAbs_large (s : Buf) (base q fract : Nat) (hn : 184467441 ≤ q / dblOne)
    (hfr : fractOf q (q / dblOne) = .ok fract) :
    ∃ s1, sPrintDoubleAbs s base q = .ok (s1, (decimal (q / dblOne) ++ 46 ::
          (fract / 10 ^ 10 + 48) % 256 :: stripTrailingZeros (fixedDecimal 10 (fract % 10 ^ 10))).length) ∧
      s1.read base (decimal (q / dblOne) ++ 46 ::
          (fract / 10 ^ 10 + 48) % 256 :: stripTrailingZeros (fixedDecimal 10 (fract % 10 ^ 10))).length =
        decimal (q / dblOne) ++ 46 ::
          (fract / 10 ^ 10 + 48) % 256 :: stripTrailingZeros (fixedDecimal 10 (fract % 10 ^ 10)) ∧
      ∀ i, i < base → s1 i = s i := by
  obtain ⟨hlt, hcases⟩ := fractOf_large q fract hn hfr
  obtain ⟨s2, u1, u2, u3⟩ := sPrintUint_spec s base (q / dblOne) (by omega)
  have hmod : fract % 10 ^ 10 ≠ 0 := by
    rcases hcases with hc | hc <;> rw [hc] <;> norm_num
  have hf0 : fract ≠ 0 := by
    intro hz; rw [hz] at hmod; simp at hmod
  obtain ⟨s3, l1, l2, l3⟩ := sPrintDoubleLoop_first base
    (s2.set (base + (decimal (q / dblOne)).length) 46) ((decimal (q / dblOne)).length + 1)
    fract hmod
  have htq : toQuint64 q = .ok (q / dblOne) := by
    unfold toQuint64
    rw [if_pos (by omega)]
  have hlen : (decimal (q / dblOne) ++ 46 ::
      (fract / 10 ^ 10 + 48) % 256 :: stripTrailingZeros (fixedDecimal 10 (fract % 10 ^ 10))).length =
      (decimal (q / dblOne)).length + 1 + 1 +
        (stripTrailingZeros (fixedDecimal 10 (fract % 10 ^ 10))).length := by
    simp only [List.length_append, List.length_cons]
    omega
  rw [hlen]
  refine ⟨s3.set (base + ((decimal (q / dblOne)).length + 1 + 1 +
      (stripTrailingZeros (fixedDecimal 10 (fract % 10 ^ 10))).length)) 0, ?_, ?_, ?_⟩
  · unfold sPrintDoubleAbs
    rw [htq]
    simp only []
    rw [hfr]
    simp only []
    rw [u1]
    simp only []
    rw [if_pos hf0, l1]
  · rw [Buf.read_set_end, l2, Buf.read_set_succ, u2]
    simp
  · intro i hi
    simp only [Buf.set]
    rw [if_neg (by omega), l3 i (by omega)]
    simp only [Buf.set]
    rw [if_neg (by omega)]
    exact u3 i hi

/-- Whether the unsigned part of `sPrintDouble` returns, the length it returns
and the text it writes depend on the value only, not on the buffer. -/
theorem sPrintDoubleAbs_text (q : Nat) (hq : roundNE q = q) :
    (∀ (s : Buf) (base : Nat), ∃ e, sPrintDoubleAbs s base q = .error e) ∨
    (∃ text : Bytes, ∀ (s : Buf) (base : Nat), ∃ s1,
      sPrintDoubleAbs s base q = .ok (s1, text.length) ∧ s1.read base text.length = text ∧
        ∀ i, i < base → s1 i = s i) := by
  by_cases hn : q / dblOne < 184467441
  · right
    exact ⟨_, fun s base => sPrintDoubleAbs_small s base q hq hn⟩
  · by_cases h64 : q / dblOne < 2 ^ 64
    · cases hfr : fractOf q (q / dblOne) with
      | error e =>
        left
        intro s base
        refine ⟨e, ?_⟩
        unfold sPrintDoubleAbs toQuint64
        rw [if_pos h64]
        simp only []
        rw [hfr]
      | ok fract =>
        right
        exact ⟨_, fun s base => sPrintDoubleAbs_large s base q fract (by omega) hfr⟩
    · left
      intro s base
      refine ⟨.undefined, ?_⟩
      unfold sPrintDoubleAbs toQuint64
      rw [if_neg h64]

/-- C11: for every double `value < 0`, `sPrintDouble(value)` is the call of
`sPrintDouble(-value)` one byte further, after `'-'`: whenever `sPrintDouble`
returns on `-value` (in any buffer) it returns on `value`, with a length one
more and the text `'-'` followed by the text of `-value`, and conversely.
Witnesses: -42 gives "-42" and -0.25 gives "-0.25". -/
theorem sPrintDouble_negative :
    (∀ (d : Double), d.WF → d.ltZero = true →
      (∀ (s : Buf) (base : Nat), sPrintDouble s base d =
        match sPrintDouble (s.set base 45) (base + 1) d.neg with
        | .error e => .error e
        | .ok (s1, len) => .ok (s1, len + 1)) ∧
      (∀ (s s0 s2 : Buf) (base base0 len : Nat), sPrintDouble s0 base0 d.neg = .ok (s2, len) →
        ∃ s1, sPrintDouble s base d = .ok (s1, len + 1) ∧
          s1.read base (len + 1) = 45 :: s2.read base0 len) ∧
      (∀ (s s1 : Buf) (base len1 : Nat), sPrintDouble s base d = .ok (s1, len1) →
        ∀ (s0 : Buf) (base0 : Nat), ∃ s2 len, sPrintDouble s0 base0 d.neg = .ok (s2, len) ∧
          len1 = len + 1 ∧ s1.read base len1 = 45 :: s2.read base0 len)) ∧
    (∀ (s : Buf) (base : Nat), ∃ s1,
      sPrintDouble s base (Double.finite true (42 * 2 ^ 1074)) = .ok (s1, 3) ∧
        s1.read base 3 = bytes "-42") ∧
    (∀ (s : Buf) (base : Nat), ∃ s1,
      sPrintDouble s base (Double.finite true (2 ^ 1072)) = .ok (s1, 5) ∧
        s1.read base 5 = bytes "-0.25") := by
  have neg : ∀ (s : Buf) (base q : Nat) (text : Bytes), q ≠ 0 →
      (∀ (s : Buf) (base : Nat), ∃ s1,
        sPrintDoubleAbs s base q = .ok (s1, text.length) ∧ s1.read base text.length = text ∧
          ∀ i, i < base → s1 i = s i) →
      ∃ s1, sPrintDouble s base (Double.finite true q) = .ok (s1, text.length + 1) ∧
        s1.read base (text.length + 1) = 45 :: text := by
    intro s base q text h0 ht
    obtain ⟨s1, h1, h2, h3⟩ := ht (s.set base 45) (base + 1)
    refine ⟨s1, ?_, ?_⟩
    · rw [sPrintDouble_neg s base q h0, h1]
    · rw [Buf.read_shift, h2, h3 base (by omega)]
      simp [Buf.set]
  refine ⟨?_, ?_, ?_⟩
  · intro d hwf hneg
    cases d with
    | nan => simp [Double.ltZero] at hneg
    | inf sg =>
      cases sg with
      | false => simp [Double.ltZero] at hneg
      | true =>
        have e1 : ∀ (s : Buf) (base : Nat),
            sPrintDouble s base (Double.inf true) = .error .undefined := fun _ _ => rfl
        have e2 : ∀ (s : Buf) (base : Nat),
            sPrintDouble s base (Double.inf true).neg = .error .undefined := fun _ _ => rfl
        refine ⟨?_, ?_, ?_⟩
        · intro s base
          rw [e1, e2]
        · intro s s0 s2 base base0 len h
          rw [e2] at h
          exact absurd h (by simp)
        · intro s s1 base len1 h
          rw [e1] at h
          exact absurd h (by simp)
    | finite sg q =>
      cases sg with
      | false => simp [Double.ltZero] at hneg
      | true =>
        have h0 : q ≠ 0 := by
          intro hz; subst hz; simp [Double.ltZero] at hneg
        have hq : roundNE q = q := hwf.1
        have en : (Double.finite true q).neg = Double.finite false q := rfl
        rw [en]
        refine ⟨?_, ?_, ?_⟩
        · intro s base
          rw [sPrintDouble_neg s base q h0, sPrintDouble_nonneg]
        · intro s s0 s2 base base0 len h
          rw [sPrintDouble_nonneg] at h
          rcases sPrintDoubleAbs_text q hq with herr | ⟨text, ht⟩
          · obtain ⟨e, he⟩ := herr s0 base0
            rw [he] at h
            exact absurd h (by simp)
          · obtain ⟨s3, t1, t2, _⟩ := ht s0 base0
            rw [t1] at h
            injection h with h
            injection h with hs hl
            subst hs; subst hl
            rw [t2]
            exact neg s base q text h0 ht
        · intro s s1 base len1 h s0 base0
          rcases sPrintDoubleAbs_text q hq with herr | ⟨text, ht⟩
          · obtain ⟨e, he⟩ := herr (s.set base 45) (base + 1)
            rw [sPrintDouble_neg s base q h0, he] at h
            exact absurd h (by simp)
          · obtain ⟨s3, n1, n2⟩ := neg s base q text h0 ht
            rw [n1] at h
            injection h with h
            injection h with hs hl
            subst hs; subst hl
            obtain ⟨s2, t1, t2, _⟩ := ht s0 base0
            refine ⟨s2, text.length, ?_, rfl, ?_⟩
            · rw [sPrintDouble_nonneg]; exact t1
            · rw [n2, t2]
  · intro s base
    have e : doubleText (42 * 2 ^ 1074 / dblOne) (roundedFract (42 * 2 ^ 1074)) = bytes "42" := by
      decide!
    have := neg s base (42 * 2 ^ 1074) (bytes "42") (by norm_num) (fun s base => by
      have := sPrintDoubleAbs_small s base (42 * 2 ^ 1074) (by decide!) (by decide!)
      rw [e] at this
      exact this)
    exact this
  · intro s base
    have e : doubleText (2 ^ 1072 / dblOne) (roundedFract (2 ^ 1072)) = bytes "0.25" := by
      decide!
    have := neg s base (2 ^ 1072) (bytes "0.25") (by norm_num) (fun s base => by
      have := sPrintDoubleAbs_small s base (2 ^ 1072) (by decide!) (by decide!)
      rw [e] at this
      exact this)
    exact this

theorem sPrintDouble_negative_witness :
    (Double.finite true (2 ^ 1072)).WF ∧ (Double.finite true (2 ^ 1072)).ltZero = true ∧
      ∃ s1, sPrintDouble (fun _ => 0) 0 (Double.finite true (2 ^ 1072)) = .ok (s1, 4 + 1) ∧
        s1.read 0 (4 + 1) = bytes "-0.25" := by
  have e : doubleText (2 ^ 1072 / dblOne) (roundedFract (2 ^ 1072)) = bytes "0.25" := by
    decide!
  obtain ⟨s2, h2, h3, _⟩ := sPrintDoubleAbs_small (fun _ => 0) 0 (2 ^ 1072) (by decide!) (by decide!)
  have hl : (bytes "0.25").length = 4 := by decide
  rw [e, hl] at h2 h3
  have en : (Double.finite true (2 ^ 1072)).neg = Double.finite false (2 ^ 1072) := rfl
  have h2n : sPrintDouble (fun _ => 0) 0 (Double.finite true (2 ^ 1072)).neg = .ok (s2, 4) := by
    rw [en, sPrintDouble_nonneg]
    exact h2
  obtain ⟨s1, h1, h4⟩ :=
    (sPrintDouble_negative.1 (Double.finite true (2 ^ 1072)) (by decide!) (by decide!)).2.1
      (fun _ => 0) (fun _ => 0) s2 0 0 4 h2n
  refine ⟨by decide!, by decide!, s1, h1, ?_⟩
  rw [h4, h3]
  decide

/-! ## Integers past the precision of a double -/

theorem sPrintUintLoop_shift (base k : Nat) :
    ∀ (i : Nat) (s : Buf) (n : Nat), decimalLen n ≤ i →
      sPrintUintLoop base (k + i) s n = sPrintUintLoop (base + k) i s n := by
  intro i
  induction i with
  | zero =>
    intro s n h
    have := decimal_length_pos n
    simp only [decimalLen] at h
    omega
  | succ i ih =>
    intro s n h
    rw [← Nat.add_assoc, sPrintUintLoop, sPrintUintLoop, Nat.add_assoc base k i]
    by_cases h10 : n / 10 ≠ 0
    · rw [if_pos h10, if_pos h10]
      have hl := decimalLen_ge_ten n (by omega)
      exact ih _ _ (by omega)
    · rw [if_neg h10, if_neg h10]

/-- When the length computed from the logarithm is one more than the number of
digits, `sPrintUint` leaves the first byte as it was, writes the digits one byte
further and returns the longer length. -/
theorem sPrintUint_overshoot (s : Buf) (base value : Nat) (h0 : value ≠ 0)
    (h : log10Len value = decimalLen value + 1) :
    ∃ s1, sPrintUint s base value = .ok (s1, decimalLen value + 1) ∧ s1 base = s base ∧
      s1.read (base + 1) (decimalLen value) = decimal value ∧
      s1 (base + (decimalLen value + 1)) = 0 := by
  obtain ⟨s1, h1, h2, h3⟩ := sPrintUintLoop_spec (base + 1) (decimalLen value)
    (s.set (base + (decimalLen value + 1)) 0) value rfl
  refine ⟨s1, ?_, ?_, h2, ?_⟩
  · unfold sPrintUint
    simp only [h0, ne_eq, not_false_eq_true, if_true, h]
    have e := sPrintUintLoop_shift base 1 (decimalLen value)
      (s.set (base + (decimalLen value + 1)) 0) value (Nat.le_refl _)
    rw [Nat.add_comm 1 (decimalLen value)] at e
    rw [e, h1]
  · rw [h3 base (Or.inl (by omega))]
    simp only [Buf.set]
    rw [if_neg (by omega)]
  · rw [h3 _ (Or.inr (by omega))]
    simp [Buf.set]

/-- C12 fails at `value = 9999999999999999` (`10^16 - 1`), a `quint64`: the
conversion to `double` rounds it to `10^16`, the length computed from the
logarithm is 17, and `sPrintUint` returns 17 for a number of 16 digits, leaves
`s[0]` as it was and writes the 16 digits from `s[1]` on. -/
theorem sPrintUint_length_overshoot :
    9999999999999999 < 2 ^ 64 ∧ roundNE 9999999999999999 = 10 ^ 16 ∧
    (decimal 9999999999999999).length = 16 ∧
    ∀ (s : Buf) (base : Nat), ∃ s1,
      sPrintUint s base 9999999999999999 = .ok (s1, 17) ∧ s1 base = s base ∧
        s1.read (base + 1) 16 = decimal 9999999999999999 ∧ s1 (base + 17) = 0 := by
  refine ⟨by norm_num, by decide!, by decide!, ?_⟩
  intro s base
  have hl : decimalLen 9999999999999999 = 16 := by decide!
  have := sPrintUint_overshoot s base 9999999999999999 (by norm_num) (by decide!)
  rw [hl] at this
  exact this

theorem sPrintInt_neg (s : Buf) (base : Nat) (value : Int) (h : value < 0)
    (hmin : value ≠ -(2 ^ 63)) :
    sPrintInt s base value =
      match sPrintUint (s.set base 45) (base + 1) ((-value).toNat % 2 ^ 64) with
      | .error e => .error e
      | .ok (s1, len) => .ok (s1, len + 1) := by
  unfold sPrintInt
  rw [if_pos h, if_neg hmin]

/-- C13 fails at `value = -9999999999999999`, a `qint64`: `sPrintInt` returns 18
for a text of 17 characters, writes `'-'` at `s[0]`, leaves `s[1]` as it was and
writes the 16 digits from `s[2]` on (the length `sPrintUint` computes from the
logarithm of the absolute value is one too many).  At the minimum value `-2^63`
the negation overflows the signed type.  At -42 the text is "-42" of length 3. -/
theorem sPrintInt_length_overshoot :
    (-(2 : Int) ^ 63 ≤ -9999999999999999 ∧
      (bytes "-9999999999999999").length = 17) ∧
    (∀ (s : Buf) (base : Nat), ∃ s1,
      sPrintInt s base (-9999999999999999) = .ok (s1, 18) ∧ s1 base = 45 ∧
        s1 (base + 1) = s (base + 1) ∧
        s1.read (base + 2) 16 = decimal 9999999999999999) ∧
    (∀ (s : Buf) (base : Nat), sPrintInt s base (-(2 ^ 63)) = .error .undefined) ∧
    (∀ (s : Buf) (base : Nat), ∃ s1,
      sPrintInt s base (-42) = .ok (s1, 3) ∧ s1.read base 3 = bytes "-42") := by
  refine ⟨⟨by norm_num, by decide⟩, ?_, ?_, ?_⟩
  · intro s base
    have hl : decimalLen 9999999999999999 = 16 := by decide!
    obtain ⟨s1, h1, h2, h3, _⟩ := sPrintUint_overshoot (s.set base 45) (base + 1)
      9999999999999999 (by norm_num) (by decide!)
    rw [hl] at h1 h3
    have hv : (-(-9999999999999999 : Int)).toNat % 2 ^ 64 = 9999999999999999 := by decide
    refine ⟨s1, ?_, ?_, ?_, h3⟩
    · rw [sPrintInt_neg s base _ (by norm_num) (by norm_num), hv, h1]
    · obtain ⟨s2, u1, _, u3⟩ : ∃ s2, sPrintUint (s.set base 45) (base + 1) 9999999999999999 =
          .ok (s2, 17) ∧ True ∧ ∀ j, j < base + 1 → s2 j = (s.set base 45) j := by
        unfold sPrintUint at h1 ⊢
        have hlog : log10Len 9999999999999999 = 17 := by decide!
        simp only [ne_eq, OfNat.ofNat_ne_zero, not_false_eq_true, if_true, hlog] at h1 ⊢
        cases hloop : sPrintUintLoop (base + 1) 17 ((s.set base 45).set (base + 1 + 17) 0)
            9999999999999999 with
        | error e => rw [hloop] at h1; exact absurd h1 (by simp)
        | ok s2 =>
          refine ⟨s2, rfl, trivial, ?_⟩
          intro j hj
          have e := sPrintUintLoop_shift (base + 1) 1 16
            ((s.set base 45).set (base + 1 + 17) 0) 9999999999999999 (by rw [hl])
          obtain ⟨s3, l1, _, l3⟩ := sPrintUintLoop_spec (base + 1 + 1) 16
            ((s.set base 45).set (base + 1 + 17) 0) 9999999999999999 hl
          rw [show (1 : Nat) + 16 = 17 from rfl] at e
          rw [e, l1] at hloop
          injection hloop with hloop
          subst hloop
          rw [l3 j (Or.inl (by omega))]
          simp only [Buf.set]
          rw [if_neg (by omega)]
      rw [h1] at u1
      injection u1 with u1
      injection u1 with u1 _
      subst u1
      rw [u3 base (by omega)]
      simp [Buf.set]
    · rw [h2]
      simp only [Buf.set]
      rw [if_neg (by omega)]
  · intro s base
    unfold sPrintInt
    rw [if_pos (by norm_num), if_pos rfl]
  · intro s base
    obtain ⟨s1, h1, h2, h3⟩ := sPrintUint_spec (s.set base 45) (base + 1) 42 (by norm_num)
    have hd : decimal 42 = bytes "42" := by decide
    have hv : (-(-42 : Int)).toNat % 2 ^ 64 = 42 := by decide
    rw [hd] at h1 h2
    have hl : (bytes "42").length = 2 := by decide
    rw [hl] at h1 h2
    refine ⟨s1, ?_, ?_⟩
    · rw [sPrintInt_neg s base _ (by norm_num) (by norm_num), hv, h1]
    · rw [Buf.read_shift, h2, h3 base (by omega)]
      simp only [Buf.set, if_true]
      decide

/-! ## Containers -/

theorem Writer.writeArrayItems_written (tl : QString → Bytes) (values : List Value) :
    ∀ (w w1 : Writer), w.writeArrayItems tl values = .ok w1 →
      ∃ chunks : List Bytes, List.Forall₂ (Value.WrittenAs tl) values chunks ∧
        w1.mDevice = w.mDevice ++ (chunks.map (fun c => c ++ bytes " ")).flatten := by
  induction values with
  | nil =>
    intro w w1 h
    rw [Writer.writeArrayItems] at h
    injection h with h
    subst h
    exact ⟨[], List.Forall₂.nil, by simp⟩
  | cons v rest ih =>
    intro w w1 h
    rw [Writer.writeArrayItems] at h
    obtain ⟨w2, h2, h3⟩ := Res.bind_ok _ _ _ h
    obtain ⟨⟨c, hc⟩, _, _⟩ := Writer.writeValue_frame tl v _ _ h2
    obtain ⟨chunks, hl, hd⟩ := ih _ _ h3
    refine ⟨c :: chunks, List.Forall₂.cons ⟨w, w2, h2, hc.symm⟩ hl, ?_⟩
    rw [hd]
    simp only [Writer.writeCStr, Writer.deviceWrite, ← hc]
    simp

theorem Writer.writeArrayItems_returns (tl : QString → Bytes) (values : List Value)
    (hv : ∀ v ∈ values, ∀ w : Writer, ∃ w1, w.writeValue tl v = .ok w1) :
    ∀ (w : Writer), ∃ w1, w.writeArrayItems tl values = .ok w1 := by
  induction values with
  | nil => intro w; exact ⟨w, by rw [Writer.writeArrayItems]; rfl⟩
  | cons v rest ih =>
    intro w
    obtain ⟨w2, h2⟩ := hv v (List.mem_cons_self _ _) w
    obtain ⟨w3, h3⟩ := ih (fun u hu => hv u (List.mem_cons_of_mem _ hu)) (w2.writeCStr " ")
    refine ⟨w3, ?_⟩
    rw [Writer.writeArrayItems, h2]
    exact h3

theorem Writer.writeDictItems_written (tl : QString → Bytes) (kvs : List (QString × Value)) :
    ∀ (w w1 : Writer), w.writeDictItems tl kvs = .ok w1 →
      ∃ chunks : List Bytes, List.Forall₂ (fun kv c => Value.WrittenAs tl kv.2 c) kvs chunks ∧
        w1.mDevice = w.mDevice ++
          (List.zipWith (fun kv c => bytes "/" ++ tl kv.1 ++ bytes " " ++ c ++ bytes "\n")
            kvs chunks).flatten := by
  induction kvs with
  | nil =>
    intro w w1 h
    rw [Writer.writeDictItems] at h
    injection h with h
    subst h
    exact ⟨[], List.Forall₂.nil, by simp⟩
  | cons kv rest ih =>
    intro w w1 h
    obtain ⟨key, value⟩ := kv
    rw [Writer.writeDictItems] at h
    obtain ⟨w2, h2, h3⟩ := Res.bind_ok _ _ _ h
    obtain ⟨⟨c, hc⟩, _, _⟩ := Writer.writeValue_frame tl value _ _ h2
    obtain ⟨chunks, hl, hd⟩ := ih _ _ h3
    refine ⟨c :: chunks, List.Forall₂.cons ⟨_, w2, h2, hc.symm⟩ hl, ?_⟩
    rw [hd]
    simp only [Writer.writeChar, Writer.deviceWrite, ← hc, Writer.writeQString]
    have e1 : bytes "/" = [47] := by decide
    have e2 : bytes " " = [32] := by decide
    have e3 : bytes "\n" = [10] := by decide
    simp [e1, e2, e3]

theorem Writer.writeDictItems_returns (tl : QString → Bytes) (kvs : List (QString × Value))
    (hv : ∀ kv ∈ kvs, ∀ w : Writer, ∃ w1, w.writeValue tl kv.2 = .ok w1) :
    ∀ (w : Writer), ∃ w1, w.writeDictItems tl kvs = .ok w1 := by
  induction kvs with
  | nil => intro w; exact ⟨w, by rw [Writer.writeDictItems]; rfl⟩
  | cons kv rest ih =>
    intro w
    obtain ⟨key, value⟩ := kv
    obtain ⟨w2, h2⟩ := hv (key, value) (List.mem_cons_self _ _)
      (((w.writeChar 47).writeQString tl key).writeChar 32)
    obtain ⟨w3, h3⟩ := ih (fun u hu => hv u (List.mem_cons_of_mem _ hu)) (w2.writeChar 10)
    refine ⟨w3, ?_⟩
    rw [Writer.writeDictItems, h2]
    exact h3

/-- C16: a call of `writeValue` on an Array that returns has appended `[`, then,
for each element in the order of the sequence, the bytes `writeValue` writes
for that element followed by one space, then `]`; it returns whenever
`writeValue` returns on every element; the empty Array is written as `[]`, and
the three elements `true`, `null`, `false` are written in that order. -/
theorem array_serialization (tl : QString → Bytes) :
    (∀ (w w1 : Writer) (values : List Value), w.writeValue tl (Value.Array values) = .ok w1 →
      ∃ chunks : List Bytes, List.Forall₂ (Value.WrittenAs tl) values chunks ∧
        w1.mDevice = w.mDevice ++ bytes "[" ++ (chunks.map (fun c => c ++ bytes " ")).flatten ++
          bytes "]") ∧
    (∀ (values : List Value), (∀ v ∈ values, ∀ w : Writer, ∃ w1, w.writeValue tl v = .ok w1) →
      ∀ w : Writer, ∃ w1, w.writeValue tl (Value.Array values) = .ok w1) ∧
    (∀ w : Writer, ∃ w1, w.writeValue tl (Value.Array []) = .ok w1 ∧
      w1.mDevice = w.mDevice ++ bytes "[]") ∧
    (∀ w : Writer, ∃ w1,
      w.writeValue tl (Value.Array [Value.Bool true, Value.Null, Value.Bool false]) = .ok w1 ∧
      w1.mDevice = w.mDevice ++ bytes "[true null false ]") := by
  refine ⟨?_, ?_, ?_, ?_⟩
  · intro w w1 values h
    rw [Writer.writeValue] at h
    obtain ⟨w2, h2, h3⟩ := Res.bind_ok _ _ _ h
    injection h3 with h3
    subst h3
    obtain ⟨chunks, hl, hd⟩ := Writer.writeArrayItems_written tl _ _ _ h2
    exact ⟨chunks, hl, by simp [Writer.writeCStr, Writer.deviceWrite, hd]⟩
  · intro values hv w
    obtain ⟨w2, h2⟩ := Writer.writeArrayItems_returns tl values hv (w.writeCStr "[")
    refine ⟨w2.writeCStr "]", ?_⟩
    rw [Writer.writeValue, h2]
    rfl
  · intro w
    refine ⟨(w.writeCStr "[").writeCStr "]", ?_, ?_⟩
    · rw [Writer.writeValue, Writer.writeArrayItems]
      rfl
    · simp only [Writer.writeCStr, Writer.deviceWrite, List.append_assoc]
      rfl
  · intro w
    refine ⟨(((((((w.writeCStr "[").writeCStr "true").writeCStr " ").writeCStr "null").writeCStr
      " ").writeCStr "false").writeCStr " ").writeCStr "]", ?_, ?_⟩
    · rw [Writer.writeValue, Writer.writeArrayItems, Writer.writeValue]
      simp only [pure, Except.pure, bind, Except.bind, if_true]
      rw [Writer.writeArrayItems, Writer.writeValue]
      simp only [pure, Except.pure, bind, Except.bind]
      rw [Writer.writeArrayItems, Writer.writeValue]
      simp only [pure, Except.pure, bind, Except.bind]
      rw [Writer.writeArrayItems]
      rfl
    · simp only [Writer.writeCStr, Writer.deviceWrite, List.append_assoc]
      rfl

theorem array_serialization_witness :
    ∃ w1, (Writer.new [] (fun _ => 0)).writeValue id
        (Value.Array [Value.Name (bytes "B"), Value.Name (bytes "A")]) = .ok w1 ∧
      ∃ chunks : List Bytes,
        List.Forall₂ (Value.WrittenAs id) [Value.Name (bytes "B"), Value.Name (bytes "A")] chunks ∧
        w1.mDevice = (Writer.new [] (fun _ => 0)).mDevice ++ bytes "[" ++
          (chunks.map (fun c => c ++ bytes " ")).flatten ++ bytes "]" := by
  obtain ⟨w1, h1⟩ := Res.exists_ok ((Writer.new [] (fun _ => 0)).writeValue id
    (Value.Array [Value.Name (bytes "B"), Value.Name (bytes "A")])) (by decide!)
  exact ⟨w1, h1, (array_serialization id).1 _ w1 _ h1⟩

/-- C15: a call of `writeValue` on a Dict that returns has appended `<<` and a
newline, then, for each entry in the order of the map (ascending keys), `/`, the
key, a space, the bytes `writeValue` writes for the value of the entry and a
newline, then `>>`; it returns whenever `writeValue` returns on every value of
the Dict; the empty Dict is written as `<<`, a newline and `>>`. -/
theorem dict_serialization (tl : QString → Bytes) :
    (∀ (w w1 : Writer) (values : List (QString × Value)),
      w.writeValue tl (Value.Dict values) = .ok w1 →
      ∃ chunks : List Bytes, List.Forall₂ (fun kv c => Value.WrittenAs tl kv.2 c) values chunks ∧
        w1.mDevice = w.mDevice ++ bytes "<<\n" ++
          (List.zipWith (fun kv c => bytes "/" ++ tl kv.1 ++ bytes " " ++ c ++ bytes "\n")
            values chunks).flatten ++ bytes ">>") ∧
    (∀ (values : List (QString × Value)),
      (∀ kv ∈ values, ∀ w : Writer, ∃ w1, w.writeValue tl kv.2 = .ok w1) →
      ∀ w : Writer, ∃ w1, w.writeValue tl (Value.Dict values) = .ok w1) ∧
    (∀ w : Writer, ∃ w1, w.writeValue tl (Value.Dict []) = .ok w1 ∧
      w1.mDevice = w.mDevice ++ bytes "<<\n>>") ∧
    (∀ (ins : List (QString × Value)), (QMap.ofInserts ins).Pairwise (fun a b => a.1 < b.1)) := by
  refine ⟨?_, ?_, ?_, fun ins => QMap.ofInserts_sorted ins⟩
  · intro w w1 values h
    rw [Writer.writeValue] at h
    obtain ⟨w2, h2, h3⟩ := Res.bind_ok _ _ _ h
    injection h3 with h3
    subst h3
    obtain ⟨chunks, hl, hd⟩ := Writer.writeDictItems_written tl _ _ _ h2
    exact ⟨chunks, hl, by simp [Writer.writeCStr, Writer.deviceWrite, hd]⟩
  · intro values hv w
    obtain ⟨w2, h2⟩ := Writer.writeDictItems_returns tl values hv (w.writeCStr "<<\n")
    refine ⟨w2.writeCStr ">>", ?_⟩
    rw [Writer.writeValue, h2]
    rfl
  · intro w
    refine ⟨(w.writeCStr "<<\n").writeCStr ">>", ?_, ?_⟩
    · rw [Writer.writeValue, Writer.writeDictItems]
      rfl
    · simp only [Writer.writeCStr, Writer.deviceWrite, List.append_assoc]
      rfl

theorem dict_serialization_witness :
    ∃ w1, (Writer.new [] (fun _ => 0)).writeValue id
        (Value.Dict [(bytes "Count", Value.Null), (bytes "Type", Value.Name (bytes "Pages"))]) =
          .ok w1 ∧
      w1.mDevice = bytes "<<\n/Count null\n/Type /Pages\n>>" ∧
      ∃ chunks : List Bytes,
        List.Forall₂ (fun kv c => Value.WrittenAs id kv.2 c)
          [(bytes "Count", Value.Null), (bytes "Type", Value.Name (bytes "Pages"))] chunks ∧
        w1.mDevice = (Writer.new [] (fun _ => 0)).mDevice ++ bytes "<<\n" ++
          (List.zipWith (fun kv c => bytes "/" ++ id kv.1 ++ bytes " " ++ c ++ bytes "\n")
            [(bytes "Count", Value.Null), (bytes "Type", Value.Name (bytes "Pages"))]
              chunks).flatten ++ bytes ">>" := by
  obtain ⟨w1, h1⟩ := Res.exists_ok ((Writer.new [] (fun _ => 0)).writeValue id
    (Value.Dict [(bytes "Count", Value.Null), (bytes "Type", Value.Name (bytes "Pages"))]))
    (by decide!)
  have hd : ((Writer.new [] (fun _ => 0)).writeValue id
      (Value.Dict [(bytes "Count", Value.Null), (bytes "Type", Value.Name (bytes "Pages"))])).map
        (fun w => w.mDevice) = .ok (bytes "<<\n/Count null\n/Type /Pages\n>>") := by decide!
  rw [h1] at hd
  injection hd with hd
  exact ⟨w1, h1, hd, (dict_serialization id).1 _ w1 _ h1⟩

/-- C17: for every LiteralString with payload bytes `b`, `writeValue` returns
and appends exactly `(`, the bytes `b` unchanged, and `)`: parentheses and
backslashes of the payload are written as they are. -/
theorem literal_string_serialization (tl : QString → Bytes) :
    (∀ (w : Writer) (b : Bytes), ∃ w1, w.writeValue tl (Value.LiteralString b) = .ok w1 ∧
      w1.mDevice = w.mDevice ++ bytes "(" ++ b ++ bytes ")") ∧
    ((Writer.new [] (fun _ => 0)).writeValue tl (Value.LiteralString (bytes "a(b)\\c"))).map
      (fun w => w.mDevice) = .ok (bytes "(a(b)\\c)") := by
  refine ⟨?_, ?_⟩
  · intro w b
    refine ⟨((w.writeCStr "(").deviceWrite b).writeCStr ")", ?_, ?_⟩
    · rw [Writer.writeValue]
      rfl
    · simp [Writer.writeCStr, Writer.deviceWrite]
  · rw [Writer.writeValue]
    decide

/-! ## The bytes of an object -/

/-- C14: a call of `writeObject` that returns has appended exactly a newline,
the decimal `objNum`, a space, the decimal `genNum`, ` obj` and a newline, the
bytes `writeValue` writes for the value, then, if and only if the stream payload
is not empty, `stream` between two newlines, the payload unchanged, a newline and
`endstream`, and finally `endobj` between two newlines; it returns whenever
`writeValue` returns on the value. -/
theorem writeObject_bytes (tl : QString → Bytes) :
    (∀ (w w1 : Writer) (o : Object), o.WF → w.writeObject tl o = .ok w1 →
      ∃ ser : Bytes, Value.WrittenAs tl o.value ser ∧
        w1.mDevice = w.mDevice ++ bytes "\n" ++ decimal o.objNum ++ bytes " " ++
          decimal o.genNum ++ bytes " obj\n" ++ ser ++
          (if o.stream = [] then [] else bytes "\nstream\n" ++ o.stream ++ bytes "\nendstream") ++
          bytes "\nendobj\n") ∧
    (∀ (o : Object), o.WF → (∀ w : Writer, ∃ w1, w.writeValue tl o.value = .ok w1) →
      ∀ w : Writer, ∃ w1, w.writeObject tl o = .ok w1) := by
  constructor
  · intro w w1 o ho h
    unfold Writer.writeObject at h
    obtain ⟨w3, h3, h⟩ := Res.bind_ok _ _ _ h
    obtain ⟨w4, h4, h⟩ := Res.bind_ok _ _ _ h
    obtain ⟨w5, h5, h⟩ := Res.bind_ok _ _ _ h
    obtain ⟨d3, _, _⟩ := Writer.writeUint_ok _ _ _ (by have := ho.1; omega) h3
    obtain ⟨d4, _, _⟩ := Writer.writeUint_ok _ _ _ (by have := ho.2; omega) h4
    obtain ⟨⟨ser, hser⟩, _, _⟩ := Writer.writeValue_frame tl _ _ _ h5
    simp only [pure, Except.pure] at h
    injection h with h
    subst h
    refine ⟨ser, ⟨_, w5, h5, hser.symm⟩, ?_⟩
    have e1 : bytes "\n" = [10] := by decide
    have e2 : bytes " " = [32] := by decide
    have hd5 : w5.mDevice = w.mDevice ++ [10] ++ decimal o.objNum ++ [32] ++ decimal o.genNum ++
        bytes " obj\n" ++ ser := by
      rw [← hser]
      simp [Writer.writeCStr, Writer.writeChar, Writer.deviceWrite, d4, d3]
    by_cases hs : o.stream = []
    · have hl : ¬ (o.stream.length ≠ 0) := by simp [hs]
      rw [if_neg hl, if_pos hs]
      simp only [Writer.writeCStr, Writer.deviceWrite, hd5, e1, e2, List.append_nil]
    · have hl : o.stream.length ≠ 0 := by
        intro hz
        exact hs (List.length_eq_zero.mp hz)
      rw [if_pos hl, if_neg hs]
      simp only [Writer.writeCStr, Writer.deviceWrite, hd5, e1, e2, List.append_assoc]
  · intro o ho hv w
    unfold Writer.writeObject
    simp only [bind, Except.bind, pure, Except.pure]
    split
    · rename_i e h3
      obtain ⟨b3, hb⟩ := Writer.writeUint_spec _ o.objNum (by have := ho.1; omega)
      rw [hb] at h3
      exact absurd h3 (by simp)
    · rename_i w3 h3
      split
      · rename_i e h4
        obtain ⟨b4, hb⟩ := Writer.writeUint_spec _ o.genNum (by have := ho.2; omega)
        rw [hb] at h4
        exact absurd h4 (by simp)
      · rename_i w4 h4
        obtain ⟨w5, h5⟩ := hv (w4.writeCStr " obj\n")
        rw [h5]
        exact ⟨_, rfl⟩

theorem writeObject_bytes_witness :
    ∃ w1, (Writer.new [] (fun _ => 0)).writeObject id
        ⟨3, 0, Value.Dict [(bytes "Length", Value.Number (Double.ofNat 2))], bytes "hi"⟩ = .ok w1 ∧
      w1.mDevice = bytes "\n3 0 obj\n<<\n/Length 2\n>>\nstream\nhi\nendstream\nendobj\n" ∧
      ∃ ser : Bytes,
        Value.WrittenAs id (Value.Dict [(bytes "Length", Value.Number (Double.ofNat 2))]) ser ∧
        w1.mDevice = (Writer.new [] (fun _ => 0)).mDevice ++ bytes "\n" ++ decimal 3 ++ bytes " " ++
          decimal 0 ++ bytes " obj\n" ++ ser ++
          (if bytes "hi" = [] then [] else bytes "\nstream\n" ++ bytes "hi" ++ bytes "\nendstream") ++
          bytes "\nendobj\n" := by
  obtain ⟨w1, h1⟩ := Res.exists_ok ((Writer.new [] (fun _ => 0)).writeObject id
    ⟨3, 0, Value.Dict [(bytes "Length", Value.Number (Double.ofNat 2))], bytes "hi"⟩) (by decide!)
  have hd : ((Writer.new [] (fun _ => 0)).writeObject id
      ⟨3, 0, Value.Dict [(bytes "Length", Value.Number (Double.ofNat 2))], bytes "hi"⟩).map
        (fun w => w.mDevice) =
      .ok (bytes "\n3 0 obj\n<<\n/Length 2\n>>\nstream\nhi\nendstream\nendobj\n") := by decide!
  rw [h1] at hd
  injection hd with hd
  exact ⟨w1, h1, hd, (writeObject_bytes id).1 _ w1 _ (by decide) h1⟩

/-! ## The free entry of the table -/

theorem QMap.find_of_mem {κ β : Type} [LinearOrder κ] [DecidableEq κ] (k : κ) (v : β) :
    ∀ (l : List (κ × β)), l.Pairwise (fun a b => a.1 < b.1) → (k, v) ∈ l →
      QMap.find k l = some v := by
  intro l
  induction l with
  | nil => intro _ h; simp at h
  | cons e rest ih =>
    intro hs hm
    obtain ⟨k1, v1⟩ := e
    rw [List.pairwise_cons] at hs
    rcases List.mem_cons.mp hm with h1 | h1
    · injection h1 with h2 h3
      subst h2; subst h3
      simp [QMap.find]
    · have hlt : k1 < k := hs.1 (k, v) h1
      rw [QMap.find, if_neg (ne_of_lt hlt)]
      exact ih hs.2 h1

theorem Writer.run_find_other (tl : QString → Bytes) (k : Nat) (ops : List Op) :
    ∀ (w w1 : Writer), (∀ o, Op.object o ∈ ops → o.objNum ≠ k) → w.run tl ops = .ok w1 →
      QMap.find k w1.mXRefTable = QMap.find k w.mXRefTable := by
  induction ops with
  | nil =>
    intro w w1 _ h
    simp only [Writer.run] at h
    injection h with h
    subst h
    rfl
  | cons op ops ih =>
    intro w w1 hk h
    obtain ⟨w2, h2, h3⟩ := Writer.run_cons tl w w1 op ops h
    rw [ih w2 w1 (fun o ho => hk o (List.mem_cons_of_mem _ ho)) h3]
    rcases Writer.step_table tl w w2 op h2 with ht | ⟨o, ho, ht⟩
    · rw [ht]
    · rw [ht, QMap.find_insert_ne _ _ _ _ (hk o (by rw [ho]; exact List.mem_cons_self _ _))]

/-- C18: the table of a freshly constructed Writer holds exactly one entry,
under object number 0, with pos 0, generation 65535 and state Free; after every
sequence of calls in which every `writeObject` has a positive object number, the
table still holds that entry under object number 0, with the same pos,
generation and state, and no other entry with object number 0. -/
theorem free_entry_invariant (tl : QString → Bytes) (device : Bytes) (buf : Buf) :
    (Writer.new device buf).mXRefTable = [(0, XRefEntry.mk 0 0 65535 XRefType.Free)] ∧
    ∀ (ops : List Op) (w : Writer), (∀ o, Op.object o ∈ ops → 0 < o.objNum) →
      (Writer.new device buf).run tl ops = .ok w →
      QMap.find 0 w.mXRefTable = some (XRefEntry.mk 0 0 65535 XRefType.Free) ∧
        (0, XRefEntry.mk 0 0 65535 XRefType.Free) ∈ w.mXRefTable ∧
        ∀ e ∈ w.mXRefTable, e.1 = 0 → e.2 = XRefEntry.mk 0 0 65535 XRefType.Free := by
  have hnew : (Writer.new device buf).mXRefTable = [(0, XRefEntry.mk 0 0 65535 XRefType.Free)] := by
    simp [Writer.new, QMap.insert]
  refine ⟨hnew, ?_⟩
  intro ops w hpos h
  have hf : QMap.find 0 w.mXRefTable = some (XRefEntry.mk 0 0 65535 XRefType.Free) := by
    rw [Writer.run_find_other tl 0 ops _ w (fun o ho => by have := hpos o ho; omega) h, hnew]
    simp [QMap.find]
  have hs := Writer.run_sorted tl ops _ w h (Writer.new_sorted device buf)
  refine ⟨hf, QMap.mem_of_find _ _ _ hf, ?_⟩
  intro e he h0
  obtain ⟨k, v⟩ := e
  simp only at h0
  subst h0
  have := QMap.find_of_mem 0 v _ hs he
  rw [hf] at this
  injection this with this
  exact this.symm

theorem free_entry_invariant_witness :
    ∃ w, (Writer.new [] (fun _ => 0)).run id
        [Op.object ⟨2, 0, Value.Null, []⟩, Op.object ⟨1, 0, Value.Null, []⟩] = .ok w ∧
      QMap.find 0 w.mXRefTable = some (XRefEntry.mk 0 0 65535 XRefType.Free) ∧
        (0, XRefEntry.mk 0 0 65535 XRefType.Free) ∈ w.mXRefTable ∧
        ∀ e ∈ w.mXRefTable, e.1 = 0 → e.2 = XRefEntry.mk 0 0 65535 XRefType.Free := by
  obtain ⟨w, h⟩ := Res.exists_ok ((Writer.new [] (fun _ => 0)).run id
    [Op.object ⟨2, 0, Value.Null, []⟩, Op.object ⟨1, 0, Value.Null, []⟩]) (by decide!)
  refine ⟨w, h, (free_entry_invariant id [] (fun _ => 0)).2 _ w ?_ h⟩
  intro o ho
  simp only [List.mem_cons, Op.object.injEq, List.mem_singleton, List.not_mem_nil, or_false] at ho
  rcases ho with ho | ho <;> rw [ho] <;> decide

/-! ## The keys of the trailer dictionary -/

/-- C19: the dictionary `writeTrailer(root, info)` builds holds, in the order of
its keys, ID, then Info exactly when the object number of `info` is not zero,
then Root and Size, and no other key; Root and Info hold the given references,
and ID holds an Array of exactly two HexString elements, both the same; it is
the dictionary `writeTrailer(root, info)` passes on to be written. -/
theorem trailerDict_keys (t : XRefTable) (root info : Link) (uuid : Bytes) :
    trailerDict t root info uuid =
      (if info.objNum ≠ 0 then
        [(bytes "ID", Value.Array [Value.HexString uuid, Value.HexString uuid]),
          (bytes "Info", Value.Link info), (bytes "Root", Value.Link root),
          (bytes "Size", Value.Number (Double.ofNat (t.maxObjNum + 1)))]
      else
        [(bytes "ID", Value.Array [Value.HexString uuid, Value.HexString uuid]),
          (bytes "Root", Value.Link root),
          (bytes "Size", Value.Number (Double.ofNat (t.maxObjNum + 1)))]) ∧
    (trailerDict t root info uuid).map Prod.fst =
      (if info.objNum ≠ 0 then [bytes "ID", bytes "Info", bytes "Root", bytes "Size"]
      else [bytes "ID", bytes "Root", bytes "Size"]) ∧
    QMap.find (bytes "Root") (trailerDict t root info uuid) = some (Value.Link root) ∧
    QMap.find (bytes "Info") (trailerDict t root info uuid) =
      (if info.objNum ≠ 0 then some (Value.Link info) else none) ∧
    QMap.find (bytes "ID") (trailerDict t root info uuid) =
      some (Value.Array [Value.HexString uuid, Value.HexString uuid]) ∧
    (∀ (tl : QString → Bytes) (w : Writer), w.writeTrailer tl root info uuid =
      w.writeTrailerDict tl (trailerDict w.mXRefTable root info uuid)) := by
  have c1 : bytes "Root" < bytes "Size" := by decide
  have c2 : bytes "Info" < bytes "Root" := by decide
  have c3 : bytes "ID" < bytes "Info" := by decide
  have c4 : bytes "ID" < bytes "Root" := by decide
  have n1 : bytes "ID" ≠ bytes "Root" := by decide
  have n2 : bytes "ID" ≠ bytes "Info" := by decide
  have n3 : bytes "Info" ≠ bytes "Root" := by decide
  have n4 : bytes "Root" ≠ bytes "Info" := by decide
  have n5 : bytes "Size" ≠ bytes "Info" := by decide
  have main : trailerDict t root info uuid =
      (if info.objNum ≠ 0 then
        [(bytes "ID", Value.Array [Value.HexString uuid, Value.HexString uuid]),
          (bytes "Info", Value.Link info), (bytes "Root", Value.Link root),
          (bytes "Size", Value.Number (Double.ofNat (t.maxObjNum + 1)))]
      else
        [(bytes "ID", Value.Array [Value.HexString uuid, Value.HexString uuid]),
          (bytes "Root", Value.Link root),
          (bytes "Size", Value.Number (Double.ofNat (t.maxObjNum + 1)))]) := by
    unfold trailerDict
    by_cases h : info.objNum ≠ 0
    · simp only [h, ne_eq, not_false_eq_true, if_true, QMap.insert, c1, c2, c3]
    · simp only [h, if_false, QMap.insert, c1, c4, if_true]
  refine ⟨main, ?_, ?_, ?_, ?_, fun _ _ => rfl⟩
  · rw [main]
    split <;> rfl
  · rw [main]
    split
    · simp only [QMap.find, n1, n3, if_false, if_true]
    · simp only [QMap.find, n1, if_false, if_true]
  · rw [main]
    split
    · simp only [QMap.find, n2, if_false, if_true]
    · simp only [QMap.find, n2, n4, n5, if_false]
  · rw [main]
    split <;> simp only [QMap.find, if_true]

/-! ## The faults of `writeValue` -/

theorem sPrintUintLoop_fault (base : Nat) :
    ∀ (i : Nat) (s : Buf) (n : Nat) (e : Fault), sPrintUintLoop base i s n = .error e →
      e = .undefined := by
  intro i
  induction i with
  | zero =>
    intro s n e h
    rw [sPrintUintLoop] at h
    injection h with h
    exact h.symm
  | succ i ih =>
    intro s n e h
    rw [sPrintUintLoop] at h
    split at h
    · exact ih _ _ _ h
    · exact absurd h (by simp)

theorem sPrintUint_fault (s : Buf) (base value : Nat) (e : Fault)
    (h : sPrintUint s base value = .error e) : e = .undefined := by
  unfold sPrintUint at h
  simp only [] at h
  split at h
  · rename_i e1 h1
    injection h with h
    subst h
    exact sPrintUintLoop_fault _ _ _ _ _ h1
  · exact absurd h (by simp)

theorem toQuint64_fault (q : Nat) (e : Fault) (h : toQuint64 q = .error e) : e = .undefined := by
  unfold toQuint64 at h
  split at h
  · exact absurd h (by simp)
  · injection h with h
    exact h.symm

theorem fractOf_fault (q n : Nat) (e : Fault) (h : fractOf q n = .error e) : e = .undefined := by
  unfold fractOf at h
  simp only [] at h
  split at h
  · exact toQuint64_fault _ _ h
  · split at h
    · exact absurd h (by simp)
    · injection h with h
      exact h.symm

theorem sPrintDoubleLoop_fault (base : Nat) :
    ∀ (fuel : Nat) (s : Buf) (res mul fract : Nat) (e : Fault),
      sPrintDoubleLoop base fuel s res mul fract = .error e → e = .undefined := by
  intro fuel
  induction fuel with
  | zero =>
    intro s res mul fract e h
    rw [sPrintDoubleLoop] at h
    injection h with h
    exact h.symm
  | succ fuel ih =>
    intro s res mul fract e h
    rw [sPrintDoubleLoop] at h
    split at h
    · exact absurd h (by simp)
    · simp only [] at h
      split at h
      · injection h with h
        exact h.symm
      · exact ih _ _ _ _ _ h

theorem sPrintDoubleAbs_fault (s : Buf) (base q : Nat) (e : Fault)
    (h : sPrintDoubleAbs s base q = .error e) : e = .undefined := by
  unfold sPrintDoubleAbs at h
  split at h
  · rename_i e1 h1
    injection h with h
    subst h
    exact toQuint64_fault _ _ h1
  · split at h
    · rename_i e1 h1
      injection h with h
      subst h
      exact fractOf_fault _ _ _ h1
    · split at h
      · rename_i e1 h1
        injection h with h
        subst h
        exact sPrintUint_fault _ _ _ _ h1
      · split at h
        · split at h
          · rename_i e1 h1
            injection h with h
            subst h
            exact sPrintDoubleLoop_fault _ _ _ _ _ _ _ h1
          · exact absurd h (by simp)
        · exact absurd h (by simp)

theorem sPrintDouble_fault (s : Buf) (base : Nat) (d : Double) (e : Fault)
    (h : sPrintDouble s base d = .error e) : e = .undefined := by
  cases d with
  | nan =>
    have e1 : sPrintDouble s base Double.nan = .error .undefined := rfl
    rw [e1] at h
    injection h with h
    exact h.symm
  | inf sg =>
    have e1 : sPrintDouble s base (Double.inf sg) = .error .undefined := by
      cases sg <;> rfl
    rw [e1] at h
    injection h with h
    exact h.symm
  | finite sg q =>
    cases sg with
    | false =>
      rw [sPrintDouble_nonneg] at h
      exact sPrintDoubleAbs_fault _ _ _ _ h
    | true =>
      by_cases h0 : q = 0
      · subst h0
        have e1 : sPrintDouble s base (Double.finite true 0) = sPrintDoubleAbs s base 0 := rfl
        rw [e1] at h
        exact sPrintDoubleAbs_fault _ _ _ _ h
      · rw [sPrintDouble_neg s base q h0] at h
        split at h
        · rename_i e1 h1
          injection h with h
          subst h
          exact sPrintDoubleAbs_fault _ _ _ _ h1
        · exact absurd h (by simp)

theorem Writer.writeUint_fault (w : Writer) (value : Nat) (e : Fault)
    (h : w.writeUint value = .error e) : e = .undefined := by
  unfold Writer.writeUint at h
  split at h
  · rename_i e1 h1
    injection h with h
    subst h
    exact sPrintUint_fault _ _ _ _ h1
  · exact absurd h (by simp)

theorem Writer.writeDouble_fault (w : Writer) (value : Double) (e : Fault)
    (h : w.writeDouble value = .error e) : e = .undefined := by
  unfold Writer.writeDouble at h
  split at h
  · rename_i e1 h1
    injection h with h
    subst h
    exact sPrintDouble_fault _ _ _ _ h1
  · exact absurd h (by simp)

theorem Res.bind_error {α β : Type} (x : Res α) (f : α → Res β) (e : Fault) :
    x >>= f = .error e ↔ (x = .error e ∨ ∃ a, x = .ok a ∧ f a = .error e) := by
  cases x with
  | error e1 =>
    simp only [bind, Except.bind]
    constructor
    · intro h
      injection h with h
      subst h
      exact Or.inl rfl
    · intro h
      rcases h with h | ⟨a, h, _⟩
      · injection h with h
        subst h
        rfl
      · exact absurd h (by simp)
  | ok a =>
    simp only [bind, Except.bind]
    constructor
    · intro h; exact Or.inr ⟨a, rfl, h⟩
    · intro h
      rcases h with h | ⟨a1, h, h2⟩
      · exact absurd h (by simp)
      · injection h with h
        subst h
        exact h2

mutual
theorem Writer.writeValue_unknown_iff (tl : QString → Bytes) :
    ∀ (v : Value) (w : Writer) (p t : Nat),
      w.writeValue tl v = .error (.unknownValue p t) ↔ w.reachesUnknown tl v p t
  | .Array values, w, p, t => by
    rw [Writer.writeValue, Writer.reachesUnknown, Res.bind_error,
      Writer.writeArrayItems_unknown_iff tl values]
    constructor
    · intro h
      rcases h with h | ⟨a, _, h⟩
      · exact h
      · exact absurd h (by simp [pure, Except.pure])
    · intro h; exact Or.inl h
  | .Bool value, w, p, t => by
    rw [Writer.writeValue, Writer.reachesUnknown]
    simp [pure, Except.pure]
  | .Dict values, w, p, t => by
    rw [Writer.writeValue, Writer.reachesUnknown, Res.bind_error,
      Writer.writeDictItems_unknown_iff tl values]
    constructor
    · intro h
      rcases h with h | ⟨a, _, h⟩
      · exact h
      · exact absurd h (by simp [pure, Except.pure])
    · intro h; exact Or.inl h
  | .HexString value, w, p, t => by
    rw [Writer.writeValue, Writer.reachesUnknown]
    simp [pure, Except.pure]
  | .Link link, w, p, t => by
    rw [Writer.writeValue, Writer.reachesUnknown, Res.bind_error]
    constructor
    · intro h
      rcases h with h | ⟨a, _, h⟩
      · exact absurd (Writer.writeUint_fault _ _ _ h) (by simp)
      · rw [Res.bind_error] at h
        rcases h with h | ⟨b, _, h⟩
        · exact absurd (Writer.writeUint_fault _ _ _ h) (by simp)
        · exact absurd h (by simp [pure, Except.pure])
    · intro h; exact absurd h id
  | .LiteralString value, w, p, t => by
    rw [Writer.writeValue, Writer.reachesUnknown]
    simp [pure, Except.pure]
  | .Name value, w, p, t => by
    rw [Writer.writeValue, Writer.reachesUnknown]
    simp [pure, Except.pure]
  | .Null, w, p, t => by
    rw [Writer.writeValue, Writer.reachesUnknown]
    simp [pure, Except.pure]
  | .Number value, w, p, t => by
    rw [Writer.writeValue, Writer.reachesUnknown]
    constructor
    · intro h
      exact absurd (Writer.writeDouble_fault _ _ _ h) (by simp)
    · intro h; exact absurd h id
  | .Unknown tag, w, p, t => by
    rw [Writer.writeValue, Writer.reachesUnknown]
    constructor
    · intro h
      injection h with h
      injection h with h1 h2
      exact ⟨h1.symm, h2.symm⟩
    · intro h
      rw [h.1, h.2]
theorem Writer.writeArrayItems_unknown_iff (tl : QString → Bytes) :
    ∀ (values : List Value) (w : Writer) (p t : Nat),
      w.writeArrayItems tl values = .error (.unknownValue p t) ↔
        w.reachesUnknownItems tl values p t
  | [], w, p, t => by
    rw [Writer.writeArrayItems, Writer.reachesUnknownItems]
    simp [pure, Except.pure]
  | v :: rest, w, p, t => by
    rw [Writer.writeArrayItems, Writer.reachesUnknownItems, Res.bind_error,
      Writer.writeValue_unknown_iff tl v]
    constructor
    · intro h
      rcases h with h | ⟨a, h1, h2⟩
      · exact Or.inl h
      · exact Or.inr ⟨a, h1, (Writer.writeArrayItems_unknown_iff tl rest _ p t).mp h2⟩
    · intro h
      rcases h with h | ⟨a, h1, h2⟩
      · exact Or.inl h
      · exact Or.inr ⟨a, h1, (Writer.writeArrayItems_unknown_iff tl rest _ p t).mpr h2⟩
theorem Writer.writeDictItems_unknown_iff (tl : QString → Bytes) :
    ∀ (values : List (QString × Value)) (w : Writer) (p t : Nat),
      w.writeDictItems tl values = .error (.unknownValue p t) ↔
        w.reachesUnknownEntries tl values p t
  | [], w, p, t => by
    rw [Writer.writeDictItems, Writer.reachesUnknownEntries]
    simp [pure, Except.pure]
  | (key, v) :: rest, w, p, t => by
    rw [Writer.writeDictItems, Writer.reachesUnknownEntries, Res.bind_error,
      Writer.writeValue_unknown_iff tl v]
    constructor
    · intro h
      rcases h with h | ⟨a, h1, h2⟩
      · exact Or.inl h
      · exact Or.inr ⟨a, h1, (Writer.writeDictItems_unknown_iff tl rest _ p t).mp h2⟩
    · intro h
      rcases h with h | ⟨a, h1, h2⟩
      · exact Or.inl h
      · exact Or.inr ⟨a, h1, (Writer.writeDictItems_unknown_iff tl rest _ p t).mpr h2⟩
end

mutual
theorem Writer.reachesUnknown_spec (tl : QString → Bytes) :
    ∀ (v : Value) (w : Writer) (p t : Nat), w.reachesUnknown tl v p t →
      unknownFree v = false ∧ w.mDevice.length ≤ p
  | .Array values, w, p, t, h => by
    rw [Writer.reachesUnknown] at h
    obtain ⟨h1, h2⟩ := Writer.reachesUnknownItems_spec tl values _ p t h
    rw [unknownFree]
    refine ⟨h1, ?_⟩
    simp only [Writer.writeCStr, Writer.deviceWrite, List.length_append] at h2
    omega
  | .Bool value, w, p, t, h => by rw [Writer.reachesUnknown] at h; exact absurd h id
  | .Dict values, w, p, t, h => by
    rw [Writer.reachesUnknown] at h
    obtain ⟨h1, h2⟩ := Writer.reachesUnknownEntries_spec tl values _ p t h
    rw [unknownFree]
    refine ⟨h1, ?_⟩
    simp only [Writer.writeCStr, Writer.deviceWrite, List.length_append] at h2
    omega
  | .HexString value, w, p, t, h => by rw [Writer.reachesUnknown] at h; exact absurd h id
  | .Link link, w, p, t, h => by rw [Writer.reachesUnknown] at h; exact absurd h id
  | .LiteralString value, w, p, t, h => by rw [Writer.reachesUnknown] at h; exact absurd h id
  | .Name value, w, p, t, h => by rw [Writer.reachesUnknown] at h; exact absurd h id
  | .Null, w, p, t, h => by rw [Writer.reachesUnknown] at h; exact absurd h id
  | .Number value, w, p, t, h => by rw [Writer.reachesUnknown] at h; exact absurd h id
  | .Unknown tag, w, p, t, h => by
    rw [Writer.reachesUnknown] at h
    rw [unknownFree]
    exact ⟨rfl, by omega⟩
theorem Writer.reachesUnknownItems_spec (tl : QString → Bytes) :
    ∀ (values : List Value) (w : Writer) (p t : Nat), w.reachesUnknownItems tl values p t →
      unknownFreeList values = false ∧ w.mDevice.length ≤ p
  | [], w, p, t, h => by rw [Writer.reachesUnknownItems] at h; exact absurd h id
  | v :: rest, w, p, t, h => by
    rw [Writer.reachesUnknownItems] at h
    rw [unknownFreeList]
    rcases h with h | ⟨w1, h1, h2⟩
    · obtain ⟨u1, u2⟩ := Writer.reachesUnknown_spec tl v w p t h
      exact ⟨by simp [u1], u2⟩
    · obtain ⟨u1, u2⟩ := Writer.reachesUnknownItems_spec tl rest _ p t h2
      obtain ⟨⟨c, hc⟩, _, _⟩ := Writer.writeValue_frame tl v _ _ h1
      refine ⟨by simp [u1], ?_⟩
      simp only [Writer.writeCStr, Writer.deviceWrite, List.length_append, ← hc] at u2
      omega
theorem Writer.reachesUnknownEntries_spec (tl : QString → Bytes) :
    ∀ (values : List (QString × Value)) (w : Writer) (p t : Nat),
      w.reachesUnknownEntries tl values p t →
      unknownFreeEntries values = false ∧ w.mDevice.length ≤ p
  | [], w, p, t, h => by rw [Writer.reachesUnknownEntries] at h; exact absurd h id
  | (key, v) :: rest, w, p, t, h => by
    rw [Writer.reachesUnknownEntries] at h
    rw [unknownFreeEntries]
    rcases h with h | ⟨w1, h1, h2⟩
    · obtain ⟨u1, u2⟩ := Writer.reachesUnknown_spec tl v _ p t h
      refine ⟨by simp [u1], ?_⟩
      simp only [Writer.writeChar, Writer.writeQString, Writer.deviceWrite,
        List.length_append] at u2
      omega
    · obtain ⟨u1, u2⟩ := Writer.reachesUnknownEntries_spec tl rest _ p t h2
      obtain ⟨⟨c, hc⟩, _, _⟩ := Writer.writeValue_frame tl v _ _ h1
      refine ⟨by simp [u1], ?_⟩
      simp only [Writer.writeChar, Writer.writeQString, Writer.deviceWrite, List.length_append,
        ← hc] at u2
      omega
end

/-- C20: `writeValue` raises UnknownValueError with offset `pos` and kind `tag`
if and only if its traversal reaches a value of an unknown kind `tag` (the value
itself, or one nested in an Array or Dict, after the opening bytes of the
containers and the earlier siblings have been written) when the sink offset is
`pos`; at top level that is the offset of the call; a value that raises is not
built only from the nine kinds, the offset is never before the one of the call,
and a value built only from the nine kinds never raises.  For an unknown kind in
a Dict that is the second element of an Array, the offset is the one after `[`,
the first element, a space, the opening of the Dict, `/`, the key and a space. -/
theorem unknown_value_error (tl : QString → Bytes) :
    (∀ (w : Writer) (v : Value) (pos tag : Nat),
      w.writeValue tl v = .error (.unknownValue pos tag) ↔ w.reachesUnknown tl v pos tag) ∧
    (∀ (w : Writer) (tag : Nat),
      w.writeValue tl (Value.Unknown tag) = .error (.unknownValue w.mDevice.length tag)) ∧
    (∀ (w : Writer) (v : Value) (pos tag : Nat),
      w.writeValue tl v = .error (.unknownValue pos tag) →
        unknownFree v = false ∧ w.mDevice.length ≤ pos) ∧
    (∀ (w : Writer) (v : Value), unknownFree v = true →
      ∀ (pos tag : Nat), w.writeValue tl v ≠ .error (.unknownValue pos tag)) ∧
    (∀ (w : Writer) (key : QString),
      w.writeValue tl (Value.Array [Value.Null, Value.Dict [(key, Value.Unknown 7)]]) =
        .error (.unknownValue (w.mDevice ++ bytes "[null <<\n/" ++ tl key ++ bytes " ").length 7)) := by
  refine ⟨?_, ?_, ?_, ?_, ?_⟩
  · intro w v pos tag
    exact Writer.writeValue_unknown_iff tl v w pos tag
  · intro w tag
    rw [Writer.writeValue]
  · intro w v pos tag h
    exact Writer.reachesUnknown_spec tl v w pos tag
      ((Writer.writeValue_unknown_iff tl v w pos tag).mp h)
  · intro w v hv pos tag h
    have := (Writer.reachesUnknown_spec tl v w pos tag
      ((Writer.writeValue_unknown_iff tl v w pos tag).mp h)).1
    rw [hv] at this
    exact absurd this (by simp)
  · intro w key
    rw [Writer.writeValue_unknown_iff, Writer.reachesUnknown, Writer.reachesUnknownItems]
    right
    refine ⟨(w.writeCStr "[").writeCStr "null", by rw [Writer.writeValue]; rfl, ?_⟩
    rw [Writer.reachesUnknownItems]
    left
    rw [Writer.reachesUnknown, Writer.reachesUnknownEntries]
    left
    rw [Writer.reachesUnknown]
    refine ⟨?_, rfl⟩
    simp only [Writer.writeCStr, Writer.writeChar, Writer.writeQString, Writer.deviceWrite,
      List.length_append]
    have e1 : (bytes "[null <<\n/").length = 10 := by decide
    have e2 : (bytes "[").length = 1 := by decide
    have e3 : (bytes "null").length = 4 := by decide
    have e4 : (bytes " ").length = 1 := by decide
    have e5 : (bytes "<<\n").length = 3 := by decide
    rw [e1, e2, e3, e4, e5]
    simp only [List.length_cons, List.length_nil]

theorem unknown_value_error_witness :
    unknownFree (Value.Array [Value.Null, Value.Dict [(bytes "A", Value.Bool true)]]) = true ∧
      ∀ (pos tag : Nat), (Writer.new [] (fun _ => 0)).writeValue id
        (Value.Array [Value.Null, Value.Dict [(bytes "A", Value.Bool true)]]) ≠
          .error (.unknownValue pos tag) :=
  ⟨by decide, (unknown_value_error id).2.2.2.1 (Writer.new [] (fun _ => 0))
    (Value.Array [Value.Null, Value.Dict [(bytes "A", Value.Bool true)]]) (by decide)⟩

/-! ## The header and comments -/

/-- C21: for every major and minor version, `writePDFHeader` appends exactly
`%PDF-`, the decimal major, a point, the decimal minor and a newline, then the
six bytes `%`, 0xE2, 0xE3, 0xCF, 0xD3 and a newline, each of the four bytes
after `%` being 128 or more; the table and the recorded table position stay as
they were; `writePDFHeader(1, 4)` on an empty sink writes 15 bytes. -/
theorem writePDFHeader_bytes :
    (∀ (w : Writer) (majorVersion minorVersion : Int),
      (w.writePDFHeader majorVersion minorVersion).mDevice =
        w.mDevice ++ bytes "%PDF-" ++ decimalInt majorVersion ++ bytes "." ++
          decimalInt minorVersion ++ bytes "\n" ++ [37, 0xE2, 0xE3, 0xCF, 0xD3, 10] ∧
      (w.writePDFHeader majorVersion minorVersion).mXRefTable = w.mXRefTable ∧
      (w.writePDFHeader majorVersion minorVersion).mXRefPos = w.mXRefPos) ∧
    (∀ (major minor : Nat), decimalInt (major : Int) = decimal major ∧
      decimalInt (minor : Int) = decimal minor) ∧
    (∀ b ∈ [0xE2, 0xE3, 0xCF, 0xD3], 128 ≤ b ∧ b < 256) ∧
    (∀ (buf : Buf), ((Writer.new [] buf).writePDFHeader 1 4).mDevice =
        bytes "%PDF-1.4\n" ++ [37, 0xE2, 0xE3, 0xCF, 0xD3, 10] ∧
      ((Writer.new [] buf).writePDFHeader 1 4).mDevice.length = 15) := by
  refine ⟨?_, ?_, ?_, ?_⟩
  · intro w major minor
    refine ⟨?_, rfl, rfl⟩
    simp only [Writer.writePDFHeader, Writer.deviceWrite, List.append_assoc]
  · intro major minor
    exact ⟨rfl, rfl⟩
  · decide
  · intro buf
    constructor
    · simp only [Writer.writePDFHeader, Writer.deviceWrite, Writer.new]
      decide
    · simp only [Writer.writePDFHeader, Writer.deviceWrite, Writer.new]
      decide

theorem splitLines_ne_nil (t : QString) : splitLines t ≠ [] := by
  cases t with
  | nil => simp [splitLines]
  | cons c rest =>
    rw [splitLines]
    split
    · simp
    · split <;> simp

theorem splitLines_cons (c : Nat) (rest : QString) :
    ∃ l ls, splitLines rest = l :: ls ∧
      splitLines (c :: rest) = if c = 10 then [] :: l :: ls else (c :: l) :: ls := by
  cases h : splitLines rest with
  | nil => exact absurd h (splitLines_ne_nil rest)
  | cons l ls =>
    refine ⟨l, ls, rfl, ?_⟩
    rw [splitLines, h]

theorem splitLines_length (t : QString) : (splitLines t).length = 1 + t.count 10 := by
  induction t with
  | nil => simp [splitLines]
  | cons c rest ih =>
    obtain ⟨l, ls, h1, h2⟩ := splitLines_cons c rest
    rw [h2]
    rw [h1] at ih
    by_cases hc : c = 10
    · subst hc
      simp only [if_true, List.length_cons, List.count_cons_self] at ih ⊢
      omega
    · rw [if_neg hc, List.count_cons_of_ne (fun h => hc h.symm)]
      simpa using ih

theorem splitLines_no_newline (t : QString) : ∀ l ∈ splitLines t, 10 ∉ l := by
  induction t with
  | nil => simp [splitLines]
  | cons c rest ih =>
    obtain ⟨l, ls, h1, h2⟩ := splitLines_cons c rest
    rw [h2]
    rw [h1] at ih
    intro x hx
    by_cases hc : c = 10
    · rw [if_pos hc] at hx
      rcases List.mem_cons.mp hx with h | h
      · subst h; simp
      · exact ih x h
    · rw [if_neg hc] at hx
      rcases List.mem_cons.mp hx with h | h
      · subst h
        have := ih l (List.mem_cons_self _ _)
        simp only [List.mem_cons, not_or]
        exact ⟨fun h => hc h.symm, this⟩
      · exact ih x (List.mem_cons_of_mem _ h)

/-- Every line of a text, each after the separator `sep`, where the text has
the separator for each of its newlines. -/
theorem splitLines_flatten (sep : QString) (f : QString → QString)
    (hnil : f [] = []) (hnl : ∀ rest, f (10 :: rest) = sep ++ f rest)
    (hc : ∀ c rest, c ≠ 10 → f (c :: rest) = c :: f rest) (t : QString) :
    sep ++ f t = ((splitLines t).map (fun l => sep ++ l)).flatten := by
  induction t with
  | nil => simp [splitLines, hnil]
  | cons c rest ih =>
    obtain ⟨l, ls, h1, h2⟩ := splitLines_cons c rest
    rw [h2]
    rw [h1] at ih
    simp only [List.map_cons, List.flatten_cons] at ih
    by_cases h10 : c = 10
    · subst h10
      rw [if_pos rfl, hnl]
      simp only [List.map_cons, List.flatten_cons, List.append_nil]
      rw [ih]
    · rw [if_neg h10, hc c rest h10]
      simp only [List.map_cons, List.flatten_cons]
      have e : f rest = l ++ (ls.map (fun l => sep ++ l)).flatten := by
        have := ih
        rw [List.append_assoc] at this
        exact List.append_cancel_left this
      rw [e]
      simp

theorem flatten_map_hom (tl : QString → Bytes) (hom : ∀ a b, tl (a ++ b) = tl a ++ tl b)
    (ls : List QString) : tl ls.flatten = (ls.map tl).flatten := by
  have hnil : tl [] = [] := by
    have h := hom [] []
    simp only [List.append_nil] at h
    have hl := congrArg List.length h
    simp only [List.length_append] at hl
    exact List.length_eq_zero.mp (by omega)
  induction ls with
  | nil => simpa using hnil
  | cons l ls ih => simp [hom, ih]

/-- C22: for every comment text, `writeComment` appends a newline and `%`, the
text in which every newline is followed by an inserted `%`, and a newline.  The
lines of the text are the pieces between its newlines, one more than it has
newlines; the text written is every line, in order, each directly after a
newline and `%`; for an encoding that acts piece by piece and keeps the
newline and `%`, the bytes written are every encoded line, each directly after
a newline and `%`, and a final newline. -/
theorem writeComment_lines (tl : QString → Bytes) :
    (∀ (w : Writer) (text : QString), (w.writeComment tl text).mDevice =
        w.mDevice ++ bytes "\n%" ++ tl (replaceNewlines text) ++ bytes "\n" ∧
      (w.writeComment tl text).mXRefTable = w.mXRefTable ∧
      (w.writeComment tl text).mXRefPos = w.mXRefPos) ∧
    (∀ (text : QString),
      (10 :: text = ((splitLines text).map (fun l => 10 :: l)).flatten ∧
        ∀ l ∈ splitLines text, 10 ∉ l) ∧
      (splitLines text).length = 1 + text.count 10 ∧
      bytes "\n%" ++ replaceNewlines text =
        ((splitLines text).map (fun l => bytes "\n%" ++ l)).flatten) ∧
    ((∀ a b, tl (a ++ b) = tl a ++ tl b) → tl (bytes "\n%") = bytes "\n%" →
      ∀ (w : Writer) (text : QString), (w.writeComment tl text).mDevice =
        w.mDevice ++ ((splitLines text).map (fun l => bytes "\n%" ++ tl l)).flatten ++
          bytes "\n") := by
  have e1 : bytes "\n%" = [10, 37] := by decide
  have e2 : bytes "\n" = [10] := by decide
  have hrep : ∀ text : QString, bytes "\n%" ++ replaceNewlines text =
      ((splitLines text).map (fun l => bytes "\n%" ++ l)).flatten := by
    intro text
    exact splitLines_flatten (bytes "\n%") replaceNewlines rfl
      (fun rest => by rw [replaceNewlines, if_pos rfl, e1]; rfl)
      (fun c rest h => by rw [replaceNewlines, if_neg h]) text
  have hdev : ∀ (w : Writer) (text : QString), (w.writeComment tl text).mDevice =
      w.mDevice ++ bytes "\n%" ++ tl (replaceNewlines text) ++ bytes "\n" := by
    intro w text
    simp only [Writer.writeComment, Writer.writeCStr, Writer.writeQString, Writer.writeChar,
      Writer.deviceWrite, e2]
  refine ⟨fun w text => ⟨hdev w text, rfl, rfl⟩, ?_, ?_⟩
  · intro text
    refine ⟨⟨?_, splitLines_no_newline text⟩, splitLines_length text, hrep text⟩
    have := splitLines_flatten [10] id rfl (fun rest => rfl) (fun c rest _ => rfl) text
    simpa using this
  · intro hom hsep w text
    rw [hdev]
    have h1 : bytes "\n%" ++ tl (replaceNewlines text) =
        tl (bytes "\n%" ++ replaceNewlines text) := by
      rw [hom, hsep]
    rw [List.append_assoc w.mDevice, h1, hrep, flatten_map_hom tl hom, List.map_map]
    congr 3
    apply List.map_congr_left
    intro l _
    simp only [Function.comp, hom, hsep]

theorem writeComment_lines_witness :
    ((Writer.new [] (fun _ => 0)).writeComment id (bytes "a\nb")).mDevice =
      (Writer.new [] (fun _ => 0)).mDevice ++
        ((splitLines (bytes "a\nb")).map (fun l => bytes "\n%" ++ id l)).flatten ++ bytes "\n" ∧
    ((Writer.new [] (fun _ => 0)).writeComment id (bytes "a\nb")).mDevice = bytes "\n%a\n%b\n" :=
  ⟨(writeComment_lines id).2.2 (fun _ _ => rfl) rfl (Writer.new [] (fun _ => 0)) (bytes "a\nb"),
    by decide⟩

/-! ## The frame of `writeObject` on the table -/

theorem QMap.mem_insert_of_ne {κ β : Type} [LinearOrder κ] (k : κ) (v : β) (l : List (κ × β))
    (x : κ × β) (hx : x ∈ l) (hk : x.1 ≠ k) : x ∈ QMap.insert k v l := by
  induction l with
  | nil => simp at hx
  | cons e rest ih =>
    obtain ⟨k1, v1⟩ := e
    rw [QMap.insert]
    split
    · exact List.mem_cons_of_mem _ hx
    · split
      · rcases List.mem_cons.mp hx with h | h
        · rw [h]; exact List.mem_cons_self _ _
        · exact List.mem_cons_of_mem _ (ih h)
      · rename_i h1 h2
        have hkk : k1 = k := le_antisymm (not_lt.mp h1) (not_lt.mp h2)
        rcases List.mem_cons.mp hx with h | h
        · rw [h] at hk
          exact absurd hkk hk
        · exact List.mem_cons_of_mem _ h

/-- C23: for every writer state and every object record, a call of `writeObject`
that returns has stored, under the object number of the record, the entry with
the sink offset just after the blank-line byte, the object number, the
generation number and the state Used; the entry found under every other object
number is the one found before, every other entry of the table is kept and no
other entry is added, and the recorded table position is unchanged. -/
theorem writeObject_table_frame (tl : QString → Bytes) (w w1 : Writer) (o : Object)
    (h : w.writeObject tl o = .ok w1) :
    (w.mDevice ++ [10]) <+: w1.mDevice ∧
    QMap.find o.objNum w1.mXRefTable =
      some (XRefEntry.mk (w.mDevice.length + 1) o.objNum o.genNum XRefType.Used) ∧
    (∀ k, k ≠ o.objNum → QMap.find k w1.mXRefTable = QMap.find k w.mXRefTable) ∧
    (∀ e ∈ w.mXRefTable, e.1 ≠ o.objNum → e ∈ w1.mXRefTable) ∧
    (∀ e ∈ w1.mXRefTable, e ∈ w.mXRefTable ∨
      e = (o.objNum, XRefEntry.mk (w.mDevice.length + 1) o.objNum o.genNum XRefType.Used)) ∧
    w1.mXRefPos = w.mXRefPos := by
  obtain ⟨hd, ht, hp⟩ := Writer.writeObject_frame tl w w1 o h
  rw [ht]
  refine ⟨hd, QMap.find_insert_self _ _ _, ?_, ?_, ?_, hp⟩
  · intro k hk
    exact QMap.find_insert_ne _ _ _ _ (fun h => hk h.symm)
  · intro e he hk
    exact QMap.mem_insert_of_ne _ _ _ e he hk
  · intro e he
    rcases QMap.mem_insert _ _ _ e he with h1 | h1
    · exact Or.inr h1
    · exact Or.inl h1

theorem writeObject_table_frame_witness :
    ∃ w1, (Writer.new [] (fun _ => 0)).writeObject id ⟨3, 0, Value.Null, []⟩ = .ok w1 ∧
      QMap.find 3 w1.mXRefTable = some (XRefEntry.mk 1 3 0 XRefType.Used) ∧
      QMap.find 0 w1.mXRefTable = some (XRefEntry.mk 0 0 65535 XRefType.Free) ∧
      w1.mXRefPos = 0 := by
  obtain ⟨w1, h1⟩ := Res.exists_ok
    ((Writer.new [] (fun _ => 0)).writeObject id ⟨3, 0, Value.Null, []⟩) (by decide!)
  obtain ⟨_, h2, h3, _, _, h4⟩ :=
    writeObject_table_frame id (Writer.new [] (fun _ => 0)) w1 ⟨3, 0, Value.Null, []⟩ h1
  refine ⟨w1, h1, h2, ?_, h4⟩
  rw [h3 0 (by decide)]
  decide

/-! ## Termination of `writeXrefTable` -/

theorem xrefScan_length (l : XRefTable) :
    ∀ prev : Nat, (xrefScan prev l).2.length ≤ l.length := by
  induction l with
  | nil => intro prev; simp [xrefScan]
  | cons e rest ih =>
    intro prev
    rw [xrefScan]
    split
    · exact Nat.le_refl _
    · exact Nat.le_succ_of_le (ih _)

theorem xrefScan_progress (e : Nat × XRefEntry) (rest : XRefTable) :
    (xrefScan e.2.objNum (e :: rest)).2.length ≤ rest.length := by
  rw [xrefScan]
  have : (e.2.objNum + 2 ^ 32 - e.2.objNum) % 2 ^ 32 = 0 := by
    rw [Nat.add_sub_cancel_left]; exact Nat.mod_self _
  rw [this, if_neg (by omega)]
  exact xrefScan_length rest _

theorem xrefRounds_le (fuel : Nat) : ∀ l : XRefTable, xrefRounds fuel l ≤ l.length := by
  induction fuel with
  | zero =>
    intro l
    cases l <;> simp [xrefRounds]
  | succ fuel ih =>
    intro l
    cases l with
    | nil => simp [xrefRounds]
    | cons e rest =>
      rw [xrefRounds]
      have h1 := ih (xrefScan e.2.objNum (e :: rest)).2
      have h2 := xrefScan_progress e rest
      simp only [List.length_cons]
      omega

theorem xrefRounds_fuel (fuel1 : Nat) :
    ∀ (fuel2 : Nat) (l : XRefTable), l.length ≤ fuel1 → l.length ≤ fuel2 →
      xrefRounds fuel1 l = xrefRounds fuel2 l := by
  induction fuel1 with
  | zero =>
    intro fuel2 l h1 _
    have : l = [] := List.length_eq_zero.mp (by omega)
    subst this
    cases fuel2 <;> simp [xrefRounds]
  | succ fuel1 ih =>
    intro fuel2 l h1 h2
    cases l with
    | nil => cases fuel2 <;> simp [xrefRounds]
    | cons e rest =>
      cases fuel2 with
      | zero => simp at h2
      | succ fuel2 =>
        rw [xrefRounds, xrefRounds]
        have hp := xrefScan_progress e rest
        simp only [List.length_cons] at h1 h2
        rw [ih fuel2 _ (by omega) (by omega)]

/-- C24: `writeXrefTable` returns for every table of a writer.  In every round
of its outer loop the count passed to `writeXrefSection` is at least 1 and at
most the number of entries left, and the iterator moves forward by exactly that
count of entries; on any list of entries a round moves the iterator forward by
at least one entry, so the number of rounds, however many are allowed, is at
most the number of entries and is the same for every allowance of that many
or more. -/
theorem writeXrefTable_terminates :
    (∀ (e : Nat × XRefEntry) (rest : XRefTable),
      (xrefScan e.2.objNum (e :: rest)).2.length < (e :: rest).length) ∧
    (∀ (fuel : Nat) (l : XRefTable), xrefRounds fuel l ≤ l.length) ∧
    (∀ (fuel : Nat) (l : XRefTable), l.length ≤ fuel →
      xrefRounds fuel l = xrefRounds l.length l) ∧
    (∀ (e : Nat × XRefEntry) (rest : XRefTable), XRefTable.WF (e :: rest) →
      1 ≤ ((xrefScan e.2.objNum (e :: rest)).1 + 2 ^ 32 - e.2.objNum + 1) % 2 ^ 32 ∧
      ((xrefScan e.2.objNum (e :: rest)).1 + 2 ^ 32 - e.2.objNum + 1) % 2 ^ 32 ≤
        (e :: rest).length ∧
      (xrefScan e.2.objNum (e :: rest)).2 = (e :: rest).drop
        (((xrefScan e.2.objNum (e :: rest)).1 + 2 ^ 32 - e.2.objNum + 1) % 2 ^ 32)) ∧
    (∀ (w : Writer), w.mXRefTable.WF → ∃ w1, w.writeXrefTable = .ok w1) := by
  refine ⟨?_, fun fuel l => xrefRounds_le fuel l, ?_, ?_, ?_⟩
  · intro e rest
    have := xrefScan_progress e rest
    simp only [List.length_cons]
    omega
  · intro fuel l h
    exact xrefRounds_fuel fuel l.length l h (Nat.le_refl _)
  · intro e rest hwf
    obtain ⟨hsort, hall, hlen⟩ := hwf
    rw [List.pairwise_cons] at hsort
    obtain ⟨he, h32⟩ := hall e (List.mem_cons_self _ _)
    have hscan := xrefScan_start e rest he h32
      (fun x hx => ⟨hsort.1 x hx, hall x (List.mem_cons_of_mem _ hx)⟩) hsort.2
    have happ := runSpan_append e.1 rest
    have hl := runSpan_length e.1 rest
    simp only [List.length_cons] at hlen
    have hcount : ((xrefScan e.2.objNum (e :: rest)).1 + 2 ^ 32 - e.2.objNum + 1) % 2 ^ 32 =
        (runSpan e.1 rest).1.length + 1 := by
      rw [hscan, he]
      simp only []
      have e1 : e.1 + (runSpan e.1 rest).1.length + 2 ^ 32 - e.1 + 1 =
          ((runSpan e.1 rest).1.length + 1) + 2 ^ 32 := by omega
      rw [e1, Nat.add_mod_right, Nat.mod_eq_of_lt (by omega)]
    rw [hcount]
    refine ⟨by omega, by simp only [List.length_cons]; omega, ?_⟩
    rw [hscan]
    simp only [List.drop_succ_cons]
    have hd := @List.drop_left _ (runSpan e.1 rest).1 (runSpan e.1 rest).2
    rw [happ] at hd
    exact hd.symm
  · intro w hwf
    obtain ⟨buf, h⟩ := Writer.writeXrefTable_eq w hwf
    exact ⟨_, h⟩

theorem writeXrefTable_terminates_witness :
    XRefTable.WF (xrefExample (fun _ => 0) (fun _ => 0) (fun _ => XRefType.Used)) ∧
      1 ≤ ((xrefScan 0 (xrefExample (fun _ => 0) (fun _ => 0) (fun _ => XRefType.Used))).1 +
        2 ^ 32 - 0 + 1) % 2 ^ 32 ∧
      ((xrefScan 0 (xrefExample (fun _ => 0) (fun _ => 0) (fun _ => XRefType.Used))).1 +
        2 ^ 32 - 0 + 1) % 2 ^ 32 = 3 ∧
      xrefRounds 5 (xrefExample (fun _ => 0) (fun _ => 0) (fun _ => XRefType.Used)) = 2 :=
  ⟨by decide,
    (writeXrefTable_terminates.2.2.2.1 (0, XRefEntry.mk 0 0 0 XRefType.Used)
      ([1, 2, 5, 6].map (fun k => (k, XRefEntry.mk 0 k 0 XRefType.Used))) (by decide)).1,
    by decide, by decide⟩

/-! ## The local buffer of `writeXrefSection` -/

theorem Buf.setList_outside (data : Bytes) :
    ∀ (buf : Buf) (pos j : Nat), (j < pos ∨ pos + data.length ≤ j) →
      (buf.setList pos data) j = buf j := by
  induction data with
  | nil => intro buf pos j _; rfl
  | cons c rest ih =>
    intro buf pos j hj
    rw [Buf.setList, ih (buf.set pos c) (pos + 1) j (by simp only [List.length_cons] at hj; omega)]
    simp only [Buf.set]
    rw [if_neg (by simp only [List.length_cons] at hj; omega)]

theorem xrefFill_bound (todo : Nat) :
    ∀ (buf : Buf) (pos : Nat) (it : XRefTable) (r : Buf × Nat × XRefTable × Nat),
      20 ∣ pos → pos ≤ bufSize → xrefFill todo buf pos it = .ok r →
      r.2.1 ≤ bufSize ∧ 20 ∣ r.2.1 ∧ ∀ j, bufSize ≤ j → r.1 j = buf j := by
  induction todo with
  | zero =>
    intro buf pos it r hd hp h
    rw [xrefFill] at h
    injection h with h
    subst h
    exact ⟨hp, hd, fun _ _ => rfl⟩
  | succ todo ih =>
    intro buf pos it r hd hp h
    unfold xrefFill at h
    split at h
    · rename_i hlt
      split at h
      · exact absurd h (by simp)
      · rename_i e rest
        have h20 : pos + 20 ≤ bufSize := by
          obtain ⟨c, hc⟩ := hd
          simp only [bufSize] at hlt ⊢
          omega
        simp only [storeRecord, h20, if_true] at h
        obtain ⟨h1, h2, h3⟩ := ih _ (pos + 20) rest r (Dvd.dvd.add hd (dvd_refl 20)) h20 h
        refine ⟨h1, h2, ?_⟩
        intro j hj
        rw [h3 j hj]
        exact Buf.setList_outside _ buf pos j (Or.inr (by rw [xrefRecord_length]; omega))
    · injection h with h
      subst h
      exact ⟨hp, hd, fun _ _ => rfl⟩

/-- C25: a store of a record that would reach the index 20480 of the local
buffer is the only fault of the stores, and `writeXrefSection` never makes it.
For every count, above 1024 or not, that does not pass the end of the table:
every filling of the buffer starts at index 0, holds at least one and at most
1024 whole records, the next entries in order, and leaves every index from 20480
on untouched; the loop of fillings and flushes returns, and the bytes of its
flushes, concatenated, are the 20-byte records of the first `count` entries in
order. -/
theorem writeXrefSection_flushes :
    (∀ (buf : Buf) (pos : Nat) (entry : XRefEntry),
      (storeRecord buf pos entry = .error .undefined ↔ bufSize < pos + 20) ∧ bufSize = 20480) ∧
    (∀ (todo : Nat) (buf : Buf) (it : XRefTable), todo ≤ it.length →
      ∃ buf1 k, k ≤ 1024 ∧ k ≤ todo ∧ (0 < todo → 0 < k) ∧
        xrefFill todo buf 0 it = .ok (buf1, 20 * k, it.drop k, todo - k) ∧
        buf1.read 0 (20 * k) = (it.take k).flatMap (fun x => xrefRecord x.2) ∧
        ∀ j, bufSize ≤ j → buf1 j = buf j) ∧
    (∀ (count : Nat) (w : Writer) (buf : Buf) (it : XRefTable), count ≤ it.length →
      xrefFlushLoop count count w buf it =
        .ok { w with mDevice := w.mDevice ++ (it.take count).flatMap (fun x => xrefRecord x.2) } ∧
      ((it.take count).flatMap (fun x => xrefRecord x.2)).length = 20 * count) := by
  refine ⟨?_, ?_, ?_⟩
  · intro buf pos entry
    refine ⟨?_, rfl⟩
    unfold storeRecord
    constructor
    · intro h
      split at h
      · exact absurd h (by simp)
      · omega
    · intro h
      rw [if_neg (by omega)]
  · intro todo buf it hlen
    obtain ⟨buf1, k, hk, hpos, h2, h3⟩ := xrefFill_spec todo buf 0 it hlen (dvd_zero 20)
      (by simp [bufSize])
    obtain ⟨b1, _, b3⟩ := xrefFill_bound todo buf 0 it _ (dvd_zero 20) (by simp [bufSize]) h2
    simp only [Nat.zero_add] at h2 h3 b1
    refine ⟨buf1, k, ?_, hk, fun h => hpos h (by simp [bufSize]), h2, ?_, b3⟩
    · simp only [bufSize] at b1
      omega
    · rw [h3]
      simp [Buf.read]
  · intro count w buf it hlen
    refine ⟨xrefFlushLoop_spec count count w buf it (Nat.le_refl _) hlen, ?_⟩
    have : ∀ l : XRefTable, (l.flatMap (fun x => xrefRecord x.2)).length = 20 * l.length := by
      intro l
      induction l with
      | nil => simp
      | cons e rest ih =>
        simp only [List.flatMap_cons, List.length_append, xrefRecord_length, ih, List.length_cons]
        omega
    rw [this, List.length_take, Nat.min_eq_left hlen]

theorem writeXrefSection_flushes_witness :
    1025 ≤ (List.replicate 1025 ((0 : Nat), XRefEntry.mk 0 0 0 XRefType.Used)).length ∧
    ∃ w1, xrefFlushLoop 1025 1025 (Writer.new [] (fun _ => 0)) (fun _ => 0)
        (List.replicate 1025 (0, XRefEntry.mk 0 0 0 XRefType.Used)) = .ok w1 ∧
      w1.mDevice.length = 20 * 1025 := by
  obtain ⟨h1, h2⟩ := writeXrefSection_flushes.2.2 1025 (Writer.new [] (fun _ => 0)) (fun _ => 0)
    (List.replicate 1025 (0, XRefEntry.mk 0 0 0 XRefType.Used))
    (Nat.le_of_eq (List.length_replicate _ _).symm)
  refine ⟨Nat.le_of_eq (List.length_replicate _ _).symm, _, h1, ?_⟩
  simp only [List.length_append, h2]
  rfl

/-! ## The digit loop of `sPrintDouble` -/

theorem sPrintDoubleLoop_step (base fuel : Nat) (s : Buf) (res j f : Nat) (h0 : f ≠ 0)
    (h : f < 10 ^ (j + 1)) :
    10 ^ (j + 1) / 10 = 10 ^ j ∧ 10 ^ j ≠ 0 ∧ f / 10 ^ j ≤ 9 ∧
      (f / 10 ^ j + 48) % 256 = f / 10 ^ j + 48 ∧ f - f / 10 ^ j * 10 ^ j < 10 ^ j ∧
      sPrintDoubleLoop base (fuel + 1) s res (10 ^ (j + 1)) f =
        sPrintDoubleLoop base fuel (s.set (base + res) (f / 10 ^ j + 48)) (res + 1) (10 ^ j)
          (f - f / 10 ^ j * 10 ^ j) := by
  have hmul : 10 ^ (j + 1) / 10 = 10 ^ j := by
    rw [pow_succ]; exact Nat.mul_div_cancel _ (by norm_num)
  have hpos : 10 ^ j ≠ 0 := by positivity
  have hd : f / 10 ^ j < 10 := by
    rw [Nat.div_lt_iff_lt_mul (Nat.pos_of_ne_zero hpos)]
    rw [pow_succ] at h
    omega
  have hsub : f - f / 10 ^ j * 10 ^ j = f % 10 ^ j := by
    have := Nat.div_add_mod f (10 ^ j)
    rw [Nat.mul_comm] at this
    omega
  have hch : (f / 10 ^ j + 48) % 256 = f / 10 ^ j + 48 := Nat.mod_eq_of_lt (by omega)
  refine ⟨hmul, hpos, by omega, hch, ?_, ?_⟩
  · rw [hsub]
    exact Nat.mod_lt _ (Nat.pos_of_ne_zero hpos)
  · rw [sPrintDoubleLoop]
    simp only [h0, if_false, hmul, hpos, hch]

theorem sPrintDoubleLoop_digits (base j : Nat) :
    ∀ (fuel : Nat) (s : Buf) (res f : Nat), j < fuel → f < 10 ^ j →
      ∃ s2 d, d ≤ j ∧ sPrintDoubleLoop base fuel s res (10 ^ j) f = .ok (s2, res + d) ∧
        (∀ i, res ≤ i → i < res + d → 48 ≤ s2 (base + i) ∧ s2 (base + i) ≤ 57) ∧
        ∀ i, i < base + res → s2 i = s i := by
  induction j with
  | zero =>
    intro fuel s res f hf h
    have h0 : f = 0 := by simpa using h
    subst h0
    cases fuel with
    | zero => omega
    | succ fuel =>
      exact ⟨s, 0, Nat.le_refl _, by simp [sPrintDoubleLoop], fun i h1 h2 => by omega,
        fun _ _ => rfl⟩
  | succ j ih =>
    intro fuel s res f hf h
    cases fuel with
    | zero => omega
    | succ fuel =>
      by_cases h0 : f = 0
      · subst h0
        exact ⟨s, 0, Nat.zero_le _, by simp [sPrintDoubleLoop], fun i h1 h2 => by omega,
          fun _ _ => rfl⟩
      · obtain ⟨_, _, hd, _, hlt, hstep⟩ := sPrintDoubleLoop_step base fuel s res j f h0 h
        obtain ⟨s2, d, hdj, h2, h3, h4⟩ := ih fuel (s.set (base + res) (f / 10 ^ j + 48)) (res + 1)
          (f - f / 10 ^ j * 10 ^ j) (by omega) hlt
        refine ⟨s2, d + 1, by omega, ?_, ?_, ?_⟩
        · rw [hstep, h2]
          congr 2
          omega
        · intro i hi1 hi2
          by_cases hi : i = res
          · subst hi
            rw [h4 (base + i) (by omega)]
            simp only [Buf.set, if_true]
            exact ⟨Nat.le_add_left _ _, Nat.add_le_add_right hd 48⟩
          · exact h3 i (by omega) (by omega)
        · intro i hi
          rw [h4 i (by omega)]
          simp only [Buf.set]
          rw [if_neg (by omega)]

/-- C26: in the digit loop of `sPrintDouble`, a step on a remainder that is not
zero and is below the current power of ten `mul` divides `mul` by ten to a
divisor that is not 0, emits a character `'0'..'9'`, and leaves a remainder
below the new `mul`; entered with `mul = 10^11` on a remainder below `10^11`,
the loop returns after at most 11 characters, all of them digits `'0'..'9'`, and
changes nothing before them. -/
theorem sPrintDouble_digit_loop :
    precision = 10 ^ 11 ∧
    (∀ (base fuel : Nat) (s : Buf) (res j f : Nat), f ≠ 0 → f < 10 ^ (j + 1) →
      10 ^ (j + 1) / 10 = 10 ^ j ∧ 10 ^ j ≠ 0 ∧ f / 10 ^ j ≤ 9 ∧
      (f / 10 ^ j + 48) % 256 = f / 10 ^ j + 48 ∧ f - f / 10 ^ j * 10 ^ j < 10 ^ j ∧
      sPrintDoubleLoop base (fuel + 1) s res (10 ^ (j + 1)) f =
        sPrintDoubleLoop base fuel (s.set (base + res) (f / 10 ^ j + 48)) (res + 1) (10 ^ j)
          (f - f / 10 ^ j * 10 ^ j)) ∧
    (∀ (base : Nat) (s : Buf) (res f : Nat), f < 10 ^ 11 →
      ∃ s2 d, d ≤ 11 ∧ sPrintDoubleLoop base 12 s res precision f = .ok (s2, res + d) ∧
        (∀ i, res ≤ i → i < res + d → 48 ≤ s2 (base + i) ∧ s2 (base + i) ≤ 57) ∧
        ∀ i, i < base + res → s2 i = s i) := by
  refine ⟨precision_eq, fun base fuel s res j f h0 h =>
    sPrintDoubleLoop_step base fuel s res j f h0 h, ?_⟩
  intro base s res f h
  rw [precision_eq]
  exact sPrintDoubleLoop_digits base 11 12 s res f (by omega) h

theorem sPrintDouble_digit_loop_witness :
    (25000000000 : Nat) < 10 ^ 11 ∧
    ∃ s2 d, d ≤ 11 ∧
      sPrintDoubleLoop 0 12 (fun _ => 0) 2 precision 25000000000 = .ok (s2, 2 + d) ∧
        (∀ i, 2 ≤ i → i < 2 + d → 48 ≤ s2 (0 + i) ∧ s2 (0 + i) ≤ 57) ∧
        ∀ i, i < 0 + 2 → s2 i = (fun _ => 0) i :=
  ⟨by norm_num, sPrintDouble_digit_loop.2.2 0 (fun _ => 0) 2 25000000000 (by norm_num)⟩

/-! ## Offsets of ten digits or more -/

theorem fixedDecimal_mod (width : Nat) :
    ∀ n : Nat, fixedDecimal width n = fixedDecimal width (n % 10 ^ width) := by
  induction width with
  | zero => intro n; simp [fixedDecimal]
  | succ width ih =>
    intro n
    rw [fixedDecimal, fixedDecimal]
    have h1 : n % 10 ^ (width + 1) % 10 = n % 10 :=
      Nat.mod_mod_of_dvd n (Dvd.intro_left (10 ^ width) rfl)
    have h2 : n % 10 ^ (width + 1) / 10 = n / 10 % 10 ^ width := by
      rw [pow_succ, Nat.mul_comm]
      exact Nat.mod_mul_right_div_self n 10 (10 ^ width)
    rw [h1, h2, ← ih (n / 10)]

/-- C27: for every entry offset `pos`, also of `10^10` or more, the record is 20
bytes, its first ten characters are the 10-digit zero-padded decimal of
`pos mod 10^10` (the record is the one of the offset reduced modulo `10^10`),
and `writeXrefSection` returns whatever the offsets are; for
`pos = 12345678901` the ten characters are "2345678901". -/
theorem xrefRecord_offset_mod :
    (∀ e : XRefEntry, (xrefRecord e).length = 20 ∧
      (xrefRecord e).take 10 = padDecimal 10 (e.pos % 10 ^ 10) ∧
      (padDecimal 10 (e.pos % 10 ^ 10)).length = 10 ∧
      xrefRecord e = xrefRecord (XRefEntry.mk (e.pos % 10 ^ 10) e.objNum e.genNum e.type)) ∧
    (∀ (w : Writer) (e : Nat × XRefEntry) (rest : XRefTable) (count : Nat),
      count ≤ (e :: rest).length → e.2.objNum < 2 ^ 32 → count < 2 ^ 32 →
      ∃ w1, w.writeXrefSection (e :: rest) count = .ok w1 ∧
        w1.mDevice = w.mDevice ++ (decimal e.2.objNum ++ [32] ++ decimal count ++ [10] ++
          ((e :: rest).take count).flatMap (fun x => xrefRecord x.2))) ∧
    (xrefRecord (XRefEntry.mk 12345678901 1 0 XRefType.Used)).take 10 = bytes "2345678901" := by
  have hlt : ∀ n : Nat, n % 10 ^ 10 < 10 ^ (9 + 1) := fun n => Nat.mod_lt _ (by norm_num)
  have hpad : ∀ n : Nat, padDecimal 10 (n % 10 ^ 10) = fixedDecimal 10 n := by
    intro n
    rw [padDecimal_eq_fixed 9 _ (hlt n), ← fixedDecimal_mod 10 n]
  refine ⟨?_, ?_, by decide⟩
  · intro e
    refine ⟨xrefRecord_length e, ?_, ?_, ?_⟩
    · rw [hpad, xrefRecord_eq_fixed]
      simp only [List.append_assoc]
      rw [List.take_append_of_le_length (by rw [fixedDecimal_length])]
      rw [List.take_of_length_le (by rw [fixedDecimal_length])]
    · exact padDecimal_length 9 _ (hlt e.pos)
    · rw [xrefRecord_eq_fixed, xrefRecord_eq_fixed]
      simp only []
      rw [← fixedDecimal_mod 10 e.pos]
  · intro w e rest count hc ho hc2
    obtain ⟨buf, h⟩ := Writer.writeXrefSection_spec w e rest count hc (by omega) (by omega)
    exact ⟨_, h, rfl⟩

theorem xrefRecord_offset_mod_witness :
    ∃ w1, (Writer.new [] (fun _ => 0)).writeXrefSection
        [(7, XRefEntry.mk 12345678901 7 0 XRefType.Used)] 1 = .ok w1 ∧
      w1.mDevice = (Writer.new [] (fun _ => 0)).mDevice ++ (decimal 7 ++ [32] ++ decimal 1 ++ [10] ++
        ([((7 : Nat), XRefEntry.mk 12345678901 7 0 XRefType.Used)].take 1).flatMap
          (fun x => xrefRecord x.2)) :=
  xrefRecord_offset_mod.2.1 (Writer.new [] (fun _ => 0))
    (7, XRefEntry.mk 12345678901 7 0 XRefType.Used) [] 1 (by decide) (by decide) (by decide)

/-! ## Keys and object numbers of the table -/

theorem Writer.run_keyed (tl : QString → Bytes) (ops : List Op) :
    ∀ (w w1 : Writer), w.run tl ops = .ok w1 → (∀ e ∈ w.mXRefTable, e.2.objNum = e.1) →
      ∀ e ∈ w1.mXRefTable, e.2.objNum = e.1 := by
  induction ops with
  | nil =>
    intro w w1 h hk
    simp only [Writer.run] at h
    injection h with h
    subst h
    exact hk
  | cons op ops ih =>
    intro w w1 h hk
    obtain ⟨w2, h2, h3⟩ := Writer.run_cons tl w w1 op ops h
    apply ih w2 w1 h3
    rcases Writer.step_table tl w w2 op h2 with ht | ⟨o, _, ht⟩
    · rw [ht]; exact hk
    · rw [ht]
      intro e he
      rcases QMap.mem_insert _ _ _ e he with h1 | h1
      · rw [h1]
      · exact hk e h1

/-- C28: after construction and after every sequence of calls on the writer
(`writeObject` and the others), every entry of the table stored under a key has
that key as its object number; the keys are strictly increasing in iteration
order, and so are the object numbers read from the entries. -/
theorem table_keys_are_objNums (tl : QString → Bytes) (device : Bytes) (buf : Buf)
    (ops : List Op) (w : Writer) (h : (Writer.new device buf).run tl ops = .ok w) :
    (∀ e ∈ w.mXRefTable, e.2.objNum = e.1) ∧
    w.mXRefTable.Pairwise (fun a b => a.1 < b.1) ∧
    (w.mXRefTable.map (fun e => e.2.objNum)).Pairwise (fun a b => a < b) := by
  have hk := Writer.run_keyed tl ops _ w h (fun e he => (Writer.new_good device buf e he).1)
  have hs := Writer.run_sorted tl ops _ w h (Writer.new_sorted device buf)
  refine ⟨hk, hs, ?_⟩
  rw [List.pairwise_map]
  refine List.Pairwise.imp_of_mem ?_ hs
  intro a b ha hb hab
  rw [hk a ha, hk b hb]
  exact hab

theorem table_keys_are_objNums_witness :
    ∃ w, (Writer.new [] (fun _ => 0)).run id
        [Op.object ⟨5, 0, Value.Null, []⟩, Op.object ⟨2, 1, Value.Null, []⟩] = .ok w ∧
      (∀ e ∈ w.mXRefTable, e.2.objNum = e.1) ∧
      w.mXRefTable.Pairwise (fun a b => a.1 < b.1) ∧
      (w.mXRefTable.map (fun e => e.2.objNum)).Pairwise (fun a b => a < b) := by
  obtain ⟨w, h⟩ := Res.exists_ok ((Writer.new [] (fun _ => 0)).run id
    [Op.object ⟨5, 0, Value.Null, []⟩, Op.object ⟨2, 1, Value.Null, []⟩]) (by decide!)
  exact ⟨w, h, table_keys_are_objNums id [] (fun _ => 0) _ w h⟩

/-! ## Document information strings -/

theorem addDictItem_unit_ascii :
    ∀ u, u < 128 → argInt (toQint8 ((u &&& 0xFF00) >>> 8)) 2 16 ++
      argInt (toQint8 (u &&& 0x00FF)) 2 16 = hex4 u := by
  decide!

theorem addDictItemLoop_ascii (tl : QString → Bytes) (value : QString) :
    ∀ (out : Bytes), (∀ u ∈ value, 0 < u ∧ u < 128) →
      addDictItemLoop tl false out value = out ++ (value.map (fun u => tl (hex4 u))).flatten := by
  induction value with
  | nil => intro out _; simp [addDictItemLoop]
  | cons u rest ih =>
    intro out h
    obtain ⟨h0, h1⟩ := h u (List.mem_cons_self _ _)
    rw [addDictItemLoop, if_pos h0]
    simp only [Bool.false_eq_true, if_false]
    rw [addDictItem_unit_ascii u h1, ih _ (fun x hx => h x (List.mem_cons_of_mem _ hx))]
    simp

/-- C29 fails at the value "é" (the one code unit U+00E9), on a little-endian
build: the claim gives the four digits `00e9` after `FEFF`; the code converts
each byte to a signed 8-bit integer, the low byte 0xE9 becomes -23, and
`QString::arg` in base 16 writes it as the 64-bit unsigned `ffffffffffffffe9`,
18 digits for the code unit.  For a value of ASCII characters (code units 1 to
127) the bytes are as claimed: "Hi" gives `FEFF00480069`. -/
theorem addDictItem_signed_bytes :
    (∀ (toUtf8 : QString → Bytes), (∀ s : QString, (∀ c ∈ s, c < 128) → toUtf8 s = s) →
      ∀ out : Bytes, addDictItem toUtf8 false out (bytes "Title") [0xE9] =
        out ++ bytes "/Title <FEFF00ffffffffffffffe9>\n") ∧
    hex4 0xE9 = bytes "00e9" ∧
    (∀ (toUtf8 : QString → Bytes) (out : Bytes) (key value : QString),
      (∀ u ∈ value, 0 < u ∧ u < 128) →
      addDictItem toUtf8 false out key value =
        out ++ toUtf8 ([47] ++ key ++ bytes " <FEFF") ++
          (value.map (fun u => toUtf8 (hex4 u))).flatten ++ bytes ">\n") ∧
    (∀ (toUtf8 : QString → Bytes), (∀ s : QString, (∀ c ∈ s, c < 128) → toUtf8 s = s) →
      ∀ out : Bytes, addDictItem toUtf8 false out (bytes "Title") (bytes "Hi") =
        out ++ bytes "/Title <FEFF00480069>\n") := by
  have hascii : ∀ (toUtf8 : QString → Bytes) (out : Bytes) (key value : QString),
      (∀ u ∈ value, 0 < u ∧ u < 128) →
      addDictItem toUtf8 false out key value =
        out ++ toUtf8 ([47] ++ key ++ bytes " <FEFF") ++
          (value.map (fun u => toUtf8 (hex4 u))).flatten ++ bytes ">\n" := by
    intro tl out key value h
    rw [addDictItem, addDictItemLoop_ascii tl value _ h]
  refine ⟨?_, by decide, hascii, ?_⟩
  · intro tl h out
    have e1 : tl ([47] ++ bytes "Title" ++ bytes " <FEFF") = bytes "/Title <FEFF" :=
      h _ (by decide)
    have e2 : argInt (toQint8 ((0xE9 &&& 0xFF00) >>> 8)) 2 16 ++
        argInt (toQint8 (0xE9 &&& 0x00FF)) 2 16 = bytes "00ffffffffffffffe9" := by decide
    have e3 : tl (bytes "00ffffffffffffffe9") = bytes "00ffffffffffffffe9" := h _ (by decide)
    rw [addDictItem, addDictItemLoop, if_pos (by norm_num)]
    simp only [Bool.false_eq_true, if_false]
    rw [e1, e2, e3, addDictItemLoop]
    simp only [List.append_assoc]
    rfl
  · intro tl h out
    rw [hascii tl out _ _ (by decide)]
    have e1 : tl ([47] ++ bytes "Title" ++ bytes " <FEFF") = bytes "/Title <FEFF" :=
      h _ (by decide)
    have e2 : ((bytes "Hi").map (fun u => tl (hex4 u))).flatten = bytes "00480069" := by
      have a1 : bytes "Hi" = [72, 105] := by decide
      have a2 : tl (hex4 72) = hex4 72 := h _ (by decide)
      have a3 : tl (hex4 105) = hex4 105 := h _ (by decide)
      rw [a1]
      simp only [List.map_cons, List.map_nil, List.flatten_cons, List.flatten_nil, a2, a3]
      decide
    rw [e1, e2]
    simp only [List.append_assoc]
    rfl

theorem addDictItem_signed_bytes_witness :
    addDictItem id false [] (bytes "Title") [0xE9] =
      [] ++ bytes "/Title <FEFF00ffffffffffffffe9>\n" :=
  addDictItem_signed_bytes.1 id (fun _ _ => rfl) []

/-! ## Document information dates -/

theorem argInt_decimal (n : Nat) : argInt (n : Int) 2 10 = padDecimal 2 n := by
  unfold argInt
  rw [if_pos rfl, if_neg (by omega)]
  rfl

/-- C30: for every offset in minutes other than the minimum `int`, the date
item is `/`, the key, ` (`, the timestamp, the suffix and `)` with a newline,
where the suffix is empty for the offset 0 and otherwise the sign (`+` for a
positive, `-` for a negative offset), HH, an apostrophe, MM and an apostrophe,
with HH = |offset| div 60 and MM = |offset| mod 60 in decimal, each padded with
zeros to two digits; 60 HH + MM = |offset|, both have exactly two digits for
|offset| below 6000, and an encoding that keeps ASCII text keeps the suffix. -/
theorem addDictItemDate_suffix (tl : QString → Bytes) (out : Bytes) (key timestamp : QString)
    (offset : Int) (hmin : offset ≠ -(2 ^ 31)) :
    addDictItemDate tl out key timestamp offset =
      .ok (out ++ tl ([47] ++ key ++ bytes " (") ++ tl timestamp ++
        (if offset = 0 then []
          else tl ((if offset > 0 then [43] else [45]) ++ padDecimal 2 (offset.natAbs / 60) ++
            [39] ++ padDecimal 2 (offset.natAbs % 60) ++ [39])) ++ bytes ")\n") ∧
    60 * (offset.natAbs / 60) + offset.natAbs % 60 = offset.natAbs ∧
    offset.natAbs % 60 < 60 ∧
    (offset.natAbs < 6000 → (padDecimal 2 (offset.natAbs / 60)).length = 2 ∧
      (padDecimal 2 (offset.natAbs % 60)).length = 2) ∧
    ((∀ s : QString, (∀ c ∈ s, c < 128) → tl s = s) →
      tl ((if offset > 0 then [43] else [45]) ++ padDecimal 2 (offset.natAbs / 60) ++
          [39] ++ padDecimal 2 (offset.natAbs % 60) ++ [39]) =
        (if offset > 0 then [43] else [45]) ++ padDecimal 2 (offset.natAbs / 60) ++
          [39] ++ padDecimal 2 (offset.natAbs % 60) ++ [39]) := by
  refine ⟨?_, Nat.div_add_mod _ 60, Nat.mod_lt _ (by norm_num), ?_, ?_⟩
  · unfold addDictItemDate
    simp only []
    by_cases hpos : offset > 0
    · obtain ⟨n, hn⟩ := Int.eq_ofNat_of_zero_le (le_of_lt hpos)
      subst hn
      have e1 : Int.tdiv (n : Int) 60 = ((n / 60 : Nat) : Int) := rfl
      have e2 : Int.tmod (n : Int) 60 = ((n % 60 : Nat) : Int) := rfl
      rw [if_pos hpos, if_neg (by omega), if_pos hpos, e1, e2, argInt_decimal, argInt_decimal,
        Int.natAbs_ofNat]
    · by_cases hneg : offset < 0
      · obtain ⟨n, hn⟩ := Int.eq_ofNat_of_zero_le (a := -offset) (by omega)
        have hoff : offset = -(n : Int) := by omega
        subst hoff
        have e1 : Int.tdiv (n : Int) 60 = ((n / 60 : Nat) : Int) := rfl
        have e2 : Int.tmod (n : Int) 60 = ((n % 60 : Nat) : Int) := rfl
        rw [if_neg hpos, if_pos hneg, if_neg hmin, if_neg (by omega), if_neg hpos, neg_neg, e1, e2,
          argInt_decimal, argInt_decimal, Int.natAbs_neg, Int.natAbs_ofNat]
      · have h0 : offset = 0 := by omega
        subst h0
        simp
  · intro h
    have h1 : offset.natAbs / 60 < 10 ^ (1 + 1) := by norm_num; omega
    have h2 : offset.natAbs % 60 < 10 ^ (1 + 1) := by norm_num; omega
    exact ⟨padDecimal_length 1 _ h1, padDecimal_length 1 _ h2⟩
  · intro h
    apply h
    intro c hc
    have hpad : ∀ n : Nat, ∀ x ∈ padDecimal 2 n, x < 128 := by
      intro n x hx
      unfold padDecimal at hx
      rcases List.mem_append.mp hx with h1 | h1
      · rw [List.mem_replicate] at h1
        omega
      · have := decimal_digits n x h1
        omega
    simp only [List.mem_append, List.mem_singleton] at hc
    rcases hc with (((hc | hc) | hc) | hc) | hc
    · split at hc <;> simp at hc <;> omega
    · exact hpad _ c hc
    · omega
    · exact hpad _ c hc
    · omega

theorem addDictItemDate_suffix_witness :
    (330 : Int) ≠ -(2 ^ 31) ∧
    addDictItemDate id [] (bytes "ModDate") (bytes "20240102030405") 330 =
      .ok (bytes "/ModDate (20240102030405+05'30')\n") ∧
    addDictItemDate id [] (bytes "ModDate") (bytes "20240102030405") (-90) =
      .ok (bytes "/ModDate (20240102030405-01'30')\n") ∧
    addDictItemDate id [] (bytes "ModDate") (bytes "20240102030405") 0 =
      .ok (bytes "/ModDate (20240102030405)\n") := by
  refine ⟨by decide, ?_, ?_, ?_⟩
  · rw [(addDictItemDate_suffix id [] (bytes "ModDate") (bytes "20240102030405") 330
      (by decide)).1]
    decide
  · rw [(addDictItemDate_suffix id [] (bytes "ModDate") (bytes "20240102030405") (-90)
      (by decide)).1]
    decide
  · rw [(addDictItemDate_suffix id [] (bytes "ModDate") (bytes "20240102030405") 0
      (by decide)).1]
    decide

/-! ## Sheet selection -/

theorem strideIndices_nil (i inc last : Nat) (hinc : 0 < inc) (h : last ≤ i) :
    strideIndices i inc last = [] := by
  unfold strideIndices
  rw [Nat.div_eq_of_lt (by omega)]
  rfl

theorem strideIndices_cons (i inc last : Nat) (hinc : 0 < inc) (h : i < last) :
    strideIndices i inc last = i :: strideIndices (i + inc) inc last := by
  unfold strideIndices
  have hk : (last + inc - 1 - i) / inc = (last + inc - 1 - (i + inc)) / inc + 1 := by
    have e : last + inc - 1 - i = last + inc - 1 - (i + inc) + inc := by omega
    rw [e, Nat.add_div_right _ hinc]
  rw [hk, List.range_succ_eq_map, List.map_cons, List.map_map]
  congr 1
  · simp
  · apply List.map_congr_left
    intro j _
    simp only [Function.comp, Nat.succ_mul]
    omega

theorem mem_strideIndices (start inc last i : Nat) (hinc : 0 < inc) :
    i ∈ strideIndices start inc last ↔ start ≤ i ∧ i < last ∧ (i - start) % inc = 0 := by
  unfold strideIndices
  rw [List.mem_map]
  constructor
  · rintro ⟨j, hj, rfl⟩
    rw [List.mem_range, Nat.lt_iff_add_one_le, Nat.le_div_iff_mul_le hinc, Nat.succ_mul] at hj
    refine ⟨Nat.le_add_right _ _, by omega, ?_⟩
    rw [Nat.add_sub_cancel_left]
    exact Nat.mul_mod_left _ _
  · rintro ⟨h1, h2, h3⟩
    obtain ⟨c, hc⟩ := Nat.dvd_of_mod_eq_zero h3
    refine ⟨c, ?_, ?_⟩
    · rw [List.mem_range, Nat.lt_iff_add_one_le, Nat.le_div_iff_mul_le hinc, Nat.succ_mul,
        Nat.mul_comm]
      omega
    · rw [Nat.mul_comm]
      omega

theorem strideIndices_sorted (start inc last : Nat) (hinc : 0 < inc) :
    (strideIndices start inc last).Pairwise (fun a b => a < b) := by
  unfold strideIndices
  rw [List.pairwise_map]
  refine List.Pairwise.imp ?_ (List.pairwise_lt_range _)
  intro a b hab
  have := Nat.mul_lt_mul_of_pos_right hab hinc
  omega

/-- The loops of `selectSheets` return: the sheets at the indices `i, i + inc,
...` below `last` are appended (or put in front, one by one), and exactly those
entries of the list are set to null. -/
theorem selectSheetsLoop_spec (forward : Bool) (inc last : Nat) (hinc : 0 < inc) :
    ∀ (fuel i : Nat) (sheets res : List Nat), last ≤ sheets.length →
      sheets.length + inc ≤ 2 ^ 31 → last ≤ i + fuel →
      ∃ fin, selectSheetsLoop forward inc last fuel i sheets res =
          .ok ((if forward then res ++ (strideIndices i inc last).map (fun j => sheets.getD j 0)
            else ((strideIndices i inc last).map (fun j => sheets.getD j 0)).reverse ++ res), fin) ∧
        fin.length = sheets.length ∧
        ∀ j, fin[j]? = if j ∈ strideIndices i inc last then some 0 else sheets[j]? := by
  intro fuel
  induction fuel with
  | zero =>
    intro i sheets res _ _ hf
    refine ⟨sheets, ?_, rfl, ?_⟩
    · rw [selectSheetsLoop, if_neg (by omega), strideIndices_nil i inc last hinc (by omega)]
      cases forward <;> simp
    · intro j
      rw [strideIndices_nil i inc last hinc (by omega)]
      simp
  | succ fuel ih =>
    intro i sheets res hlen hsize hf
    by_cases hi : i < last
    · have hil : i < sheets.length := by omega
      obtain ⟨fin, h1, h2, h3⟩ := ih (i + inc) (sheets.set i 0)
        (if forward then res ++ [sheets[i]] else sheets[i] :: res)
        (by rw [List.length_set]; exact hlen) (by rw [List.length_set]; exact hsize) (by omega)
      have hget : ∀ j ∈ strideIndices (i + inc) inc last,
          (sheets.set i 0).getD j 0 = sheets.getD j 0 := by
        intro j hj
        have := ((mem_strideIndices _ _ _ _ hinc).mp hj).1
        rw [List.getD_eq_getElem?_getD, List.getD_eq_getElem?_getD,
          List.getElem?_set_ne (by omega)]
      have hpick : (strideIndices (i + inc) inc last).map (fun j => (sheets.set i 0).getD j 0) =
          (strideIndices (i + inc) inc last).map (fun j => sheets.getD j 0) :=
        List.map_congr_left hget
      have hp : sheets[i]?.getD 0 = sheets[i] := by
        rw [List.getElem?_eq_getElem hil]
        rfl
      refine ⟨fin, ?_, by rw [h2, List.length_set], ?_⟩
      · rw [selectSheetsLoop, if_pos hi, List.getElem?_eq_getElem hil]
        simp only []
        rw [if_pos (by omega), h1, hpick, strideIndices_cons i inc last hinc hi]
        cases forward
        · simp [hp]
        · simp [hp]
      · intro j
        rw [h3 j, strideIndices_cons i inc last hinc hi]
        by_cases hj : j = i
        · subst hj
          have hn : j ∉ strideIndices (j + inc) inc last := by
            intro hm
            have := ((mem_strideIndices _ _ _ _ hinc).mp hm).1
            omega
          rw [if_neg hn, if_pos (List.mem_cons_self _ _), List.getElem?_set_self hil]
        · rw [List.getElem?_set_ne (fun h => hj h.symm)]
          by_cases hm : j ∈ strideIndices (i + inc) inc last
          · rw [if_pos hm, if_pos (List.mem_cons_of_mem _ hm)]
          · rw [if_neg hm, if_neg (by
              intro h
              rcases List.mem_cons.mp h with h | h
              · exact hj h
              · exact hm h)]
    · refine ⟨sheets, ?_, rfl, ?_⟩
      · rw [selectSheetsLoop, if_neg hi, strideIndices_nil i inc last hinc (by omega)]
        cases forward <;> simp
      · intro j
        rw [strideIndices_nil i inc last hinc (by omega)]
        simp

theorem PagesType.step_pos (pages : PagesType) : 0 < pages.step ∧ pages.step ≤ 2 := by
  cases pages <;> exact ⟨by decide, by decide⟩

theorem selectSheets_aux (forward : Bool) (start inc : Nat) (sheetCount : Int)
    (sheets : List Nat) (hpos : 0 < inc) (hle : inc ≤ 2) (hcount : sheetCount ≤ sheets.length)
    (hsize : sheets.length + 2 ≤ 2 ^ 31) :
    ∃ fin : List Nat,
      selectSheetsLoop forward inc sheetCount.toNat sheetCount.toNat start sheets [] =
        .ok ((if forward then
            (strideIndices start inc sheetCount.toNat).map (fun i => sheets.getD i 0)
          else ((strideIndices start inc sheetCount.toNat).map (fun i => sheets.getD i 0)).reverse),
          fin) ∧
      ∀ j, fin[j]? = if j ∈ strideIndices start inc sheetCount.toNat then some 0
        else sheets[j]? := by
  obtain ⟨fin, h1, _, h3⟩ := selectSheetsLoop_spec forward inc sheetCount.toNat hpos
    sheetCount.toNat start sheets [] (Int.toNat_le.mpr hcount) (by omega) (by omega)
  refine ⟨fin, ?_, h3⟩
  rw [h1]
  cases forward <;> simp

theorem selectSheets_eq (pages : PagesType) (order : PagesOrder) (sheetCount : Int)
    (sheets : List Nat) (hcount : sheetCount ≤ sheets.length) (hsize : sheets.length + 2 ≤ 2 ^ 31) :
    ∃ fin : List Nat, selectSheets pages order sheetCount sheets =
        .ok ((if order = PagesOrder.ForwardOrder then pickSheets pages sheetCount.toNat sheets
          else (pickSheets pages sheetCount.toNat sheets).reverse),
          fin.filter (fun p => p ≠ 0)) ∧
      ∀ j, fin[j]? = if j ∈ strideIndices pages.start pages.step sheetCount.toNat then some 0
        else sheets[j]? := by
  obtain ⟨hpos, hle⟩ := pages.step_pos
  obtain ⟨fin, h1, h3⟩ := selectSheets_aux (order = PagesOrder.ForwardOrder) pages.start
    pages.step sheetCount sheets hpos hle hcount hsize
  refine ⟨fin, ?_, h3⟩
  have hu : selectSheets pages order sheetCount sheets =
      match selectSheetsLoop (order = PagesOrder.ForwardOrder) pages.step sheetCount.toNat
        sheetCount.toNat pages.start sheets [] with
      | .error e => .error e
      | .ok (res, sheets1) => .ok (res, sheets1.filter (fun p => p ≠ 0)) := by
    cases pages <;> rfl
  rw [hu, h1]
  cases order <;> simp [pickSheets]

theorem pickSheets_mem (pages : PagesType) (last : Nat) (sheets : List Nat)
    (hlast : last ≤ sheets.length) (p : Nat) :
    p ∈ pickSheets pages last sheets ↔
      ∃ i, i ∈ strideIndices pages.start pages.step last ∧ ∃ h : i < sheets.length, sheets[i] = p := by
  unfold pickSheets
  rw [List.mem_map]
  constructor
  · rintro ⟨i, hi, hp⟩
    have hl : i < sheets.length := by
      have := ((mem_strideIndices _ _ _ _ pages.step_pos.1).mp hi).2.1
      omega
    refine ⟨i, hi, hl, ?_⟩
    rw [List.getD_eq_getElem?_getD, List.getElem?_eq_getElem hl] at hp
    exact hp
  · rintro ⟨i, hi, hl, hp⟩
    refine ⟨i, hi, ?_⟩
    rw [List.getD_eq_getElem?_getD, List.getElem?_eq_getElem hl]
    exact hp

theorem strideIndices_parity (last i : Nat) :
    (i ∈ strideIndices 0 2 last ↔ i < last ∧ i % 2 = 0) ∧
    (i ∈ strideIndices 1 2 last ↔ i < last ∧ i % 2 = 1) ∧
    (i ∈ strideIndices 0 1 last ↔ i < last) := by
  rw [mem_strideIndices _ _ _ _ (by norm_num), mem_strideIndices _ _ _ _ (by norm_num),
    mem_strideIndices _ _ _ _ (by norm_num)]
  refine ⟨?_, ?_, ?_⟩
  · constructor <;> intro h <;> omega
  · constructor <;> intro h <;> omega
  · constructor
    · intro h; omega
    · intro h; exact ⟨by omega, h, Nat.mod_one _⟩

/-- C31: for every list of sheets with at least `sheetCount` entries and every
page type, `selectSheets` in forward order returns the sheets at the indices
`start, start + inc, ...` below `sheetCount`, in that order (start 0 step 2 for
OddPages, start 1 step 2 for EvenPages, start 0 step 1 for AllPages), and in the
other order exactly the reverse of that list; the sheets it deletes are sheets
of the list that it does not return.  No index is in both the odd and the even
selection, every index of the all-pages selection is in one of them, and so is
every sheet; the selections of a list without repeated sheets share no sheet. -/
theorem selectSheets_selection (sheets : List Nat) (sheetCount : Int)
    (hcount : sheetCount ≤ sheets.length) (hsize : sheets.length + 2 ≤ 2 ^ 31) :
    (∀ pages : PagesType, ∃ deleted,
      selectSheets pages PagesOrder.ForwardOrder sheetCount sheets =
        .ok (pickSheets pages sheetCount.toNat sheets, deleted) ∧
      (∀ p ∈ deleted, p ≠ 0 ∧ p ∈ sheets) ∧
      (sheets.Nodup → List.Disjoint (pickSheets pages sheetCount.toNat sheets) deleted)) ∧
    (∀ pages : PagesType, ∃ deleted,
      selectSheets pages PagesOrder.BackOrder sheetCount sheets =
        .ok ((pickSheets pages sheetCount.toNat sheets).reverse, deleted)) ∧
    (∀ (pages : PagesType) (i : Nat),
      i ∈ strideIndices pages.start pages.step sheetCount.toNat ↔
        pages.start ≤ i ∧ (i : Int) < sheetCount ∧ (i - pages.start) % pages.step = 0) ∧
    (∀ pages : PagesType,
      (strideIndices pages.start pages.step sheetCount.toNat).Pairwise (fun a b => a < b)) ∧
    pickSheets PagesType.AllPages sheetCount.toNat sheets = sheets.take sheetCount.toNat ∧
    (∀ i, ¬ (i ∈ strideIndices PagesType.OddPages.start PagesType.OddPages.step sheetCount.toNat ∧
      i ∈ strideIndices PagesType.EvenPages.start PagesType.EvenPages.step sheetCount.toNat)) ∧
    (∀ i, i ∈ strideIndices PagesType.AllPages.start PagesType.AllPages.step sheetCount.toNat ↔
      (i ∈ strideIndices PagesType.OddPages.start PagesType.OddPages.step sheetCount.toNat ∨
        i ∈ strideIndices PagesType.EvenPages.start PagesType.EvenPages.step sheetCount.toNat)) ∧
    (∀ p, p ∈ pickSheets PagesType.AllPages sheetCount.toNat sheets ↔
      (p ∈ pickSheets PagesType.OddPages sheetCount.toNat sheets ∨
        p ∈ pickSheets PagesType.EvenPages sheetCount.toNat sheets)) ∧
    (sheets.Nodup → List.Disjoint (pickSheets PagesType.OddPages sheetCount.toNat sheets)
      (pickSheets PagesType.EvenPages sheetCount.toNat sheets)) ∧
    (pickSheets PagesType.OddPages sheetCount.toNat sheets).length +
        (pickSheets PagesType.EvenPages sheetCount.toNat sheets).length =
      (pickSheets PagesType.AllPages sheetCount.toNat sheets).length := by
  have hlast : sheetCount.toNat ≤ sheets.length := Int.toNat_le.mpr hcount
  have hpar := strideIndices_parity sheetCount.toNat
  have hmem := fun pages => pickSheets_mem pages sheetCount.toNat sheets hlast
  refine ⟨?_, ?_, ?_, ?_, ?_, ?_, ?_, ?_, ?_, ?_⟩
  · intro pages
    obtain ⟨fin, h1, h3⟩ := selectSheets_eq pages PagesOrder.ForwardOrder sheetCount sheets
      hcount hsize
    rw [if_pos rfl] at h1
    have hdel : ∀ p ∈ fin.filter (fun p => p ≠ 0), p ≠ 0 ∧
        ∃ j, j ∉ strideIndices pages.start pages.step sheetCount.toNat ∧ sheets[j]? = some p := by
      intro p hp
      rw [List.mem_filter] at hp
      have hp0 : p ≠ 0 := by simpa using hp.2
      obtain ⟨j, hj⟩ := List.mem_iff_getElem?.mp hp.1
      rw [h3 j] at hj
      by_cases hm : j ∈ strideIndices pages.start pages.step sheetCount.toNat
      · rw [if_pos hm] at hj
        injection hj with hj
        exact absurd hj.symm hp0
      · rw [if_neg hm] at hj
        exact ⟨hp0, j, hm, hj⟩
    refine ⟨_, h1, ?_, ?_⟩
    · intro p hp
      obtain ⟨hp0, j, _, hj⟩ := hdel p hp
      exact ⟨hp0, List.mem_iff_getElem?.mpr ⟨j, hj⟩⟩
    · intro hnd p hp1 hp2
      obtain ⟨i, hi, hil, hip⟩ := (hmem pages p).mp hp1
      obtain ⟨_, j, hj, hjp⟩ := hdel p hp2
      obtain ⟨hjl, hjp⟩ := List.getElem?_eq_some_iff.mp hjp
      have : i = j := (hnd.getElem_inj_iff).mp (hip.trans hjp.symm)
      subst this
      exact hj hi
  · intro pages
    obtain ⟨fin, h1, _⟩ := selectSheets_eq pages PagesOrder.BackOrder sheetCount sheets
      hcount hsize
    rw [if_neg (by decide)] at h1
    exact ⟨_, h1⟩
  · intro pages i
    rw [mem_strideIndices _ _ _ _ pages.step_pos.1, Int.lt_toNat]
  · intro pages
    exact strideIndices_sorted _ _ _ pages.step_pos.1
  · unfold pickSheets strideIndices
    simp only [PagesType.start, PagesType.step, Nat.add_sub_cancel, Nat.sub_zero, Nat.div_one,
      Nat.mul_one, Nat.zero_add, List.map_map]
    apply List.ext_getElem?
    intro n
    by_cases hn : n < sheetCount.toNat
    · have hl : n < sheets.length := by omega
      simp [List.getElem?_take, hn, List.getElem?_range, List.getElem?_eq_getElem hl, hl]
    · simp [List.getElem?_take, hn, List.getElem?_range]
      omega
  · intro i h
    have h1 := (hpar i).1.mp h.1
    have h2 := (hpar i).2.1.mp h.2
    omega
  · intro i
    simp only [PagesType.start, PagesType.step]
    rw [(hpar i).1, (hpar i).2.1, (hpar i).2.2]
    omega
  · intro p
    rw [hmem, hmem, hmem]
    simp only [PagesType.start, PagesType.step]
    constructor
    · rintro ⟨i, hi, hl, hp⟩
      rw [(hpar i).2.2] at hi
      by_cases h2 : i % 2 = 0
      · exact Or.inl ⟨i, (hpar i).1.mpr ⟨hi, h2⟩, hl, hp⟩
      · exact Or.inr ⟨i, (hpar i).2.1.mpr ⟨hi, by omega⟩, hl, hp⟩
    · rintro (⟨i, hi, hl, hp⟩ | ⟨i, hi, hl, hp⟩)
      · exact ⟨i, (hpar i).2.2.mpr ((hpar i).1.mp hi).1, hl, hp⟩
      · exact ⟨i, (hpar i).2.2.mpr ((hpar i).2.1.mp hi).1, hl, hp⟩
  · intro hnd p hp1 hp2
    obtain ⟨i, hi, hil, hip⟩ := (hmem _ p).mp hp1
    obtain ⟨j, hj, hjl, hjp⟩ := (hmem _ p).mp hp2
    have : i = j := (hnd.getElem_inj_iff).mp (hip.trans hjp.symm)
    subst this
    have h1 := (hpar i).1.mp hi
    have h2 := (hpar i).2.1.mp hj
    omega
  · simp only [pickSheets, strideIndices, PagesType.start, PagesType.step, List.length_map,
      List.length_range]
    omega

theorem selectSheets_selection_witness :
    ((5 : Int) ≤ ([11, 12, 13, 14, 15] : List Nat).length ∧
      ([11, 12, 13, 14, 15] : List Nat).length + 2 ≤ 2 ^ 31) ∧
    selectSheets PagesType.OddPages PagesOrder.ForwardOrder 5 [11, 12, 13, 14, 15] =
      .ok ([11, 13, 15], [12, 14]) ∧
    selectSheets PagesType.EvenPages PagesOrder.ForwardOrder 5 [11, 12, 13, 14, 15] =
      .ok ([12, 14], [11, 13, 15]) ∧
    selectSheets PagesType.OddPages PagesOrder.BackOrder 5 [11, 12, 13, 14, 15] =
      .ok ([15, 13, 11], [12, 14]) ∧
    (∀ p, p ∈ pickSheets PagesType.AllPages (5 : Int).toNat [11, 12, 13, 14, 15] ↔
      (p ∈ pickSheets PagesType.OddPages (5 : Int).toNat [11, 12, 13, 14, 15] ∨
        p ∈ pickSheets PagesType.EvenPages (5 : Int).toNat [11, 12, 13, 14, 15])) :=
  ⟨⟨by decide, by decide⟩, by decide, by decide, by decide,
    (selectSheets_selection [11, 12, 13, 14, 15] 5 (by decide) (by decide)).2.2.2.2.2.2.2.1⟩

end PDF
